import Mathlib

/-!
# The nunjucks template compiler (`src/compiler.js`)

A shallow embedding of the `Compiler` class: the syntax tree it walks, the compile-time
frame, the mutable compiler instance (`codebuf`, `lastId`, `buffer`, `isChild`) and every
`compile*` method, followed by theorems about the code it emits.

Conventions of the embedding.

* A method of the compiler is a function `Compiler → Res α`: it returns normally with a value
  and the new instance state, or it throws, and then the state reached at the throw is kept.
* The JavaScript `frame` argument may be `undefined`, so it is an `Option Frame`.  Frames are
  mutable objects shared by reference; here a method returns the frame it was given as it is
  after the call.
* `codebuf` is the list of fragments pushed by `emit`, oldest first.
-/

namespace Nunjucks

/-! ## Values, errors, frames -/

/-- The primitive values a `Literal` or `TemplateData` node carries. -/
inductive JsValue where
  | str (s : String)
  | num (n : Int)
  | bool (b : Bool)
  deriving DecidableEq

/-- The result of `value.toString()`. -/
def JsValue.toText : JsValue → String
  | .str s => s
  | .num n => toString n
  | .bool true => "true"
  | .bool false => "false"

/-- The exceptions a compile call can end with: the four `throw new Error(...)` of
`compiler.js`, and the `TypeError` JavaScript raises when a property of `undefined` or
`null` is read or a missing method is called. -/
inductive CompileError where
  | invalidType (typename : String)
  | dictKeys
  | cannotExtend
  | rootFrame
  | typeError
  deriving DecidableEq

/-- The message of the thrown error. -/
def CompileError.message : CompileError → String
  | .invalidType typename => "invalid type: " ++ typename
  | .dictKeys => "Dict keys must be strings or names"
  | .cannotExtend => "cannot extend multiple times"
  | .rootFrame => "root node can't have frame"
  | .typeError => "TypeError"

/-- Modelled from the spec: `runtime.js`, which defines `Frame`, is not among the sources.
A frame is a chain of scopes, each mapping a variable name to a generated binding
identifier; `top` is a scope without parent, `child` a scope pushed on its parent. -/
inductive Frame where
  | top (vars : List (String × String))
  | child (vars : List (String × String)) (parent : Frame)
  deriving DecidableEq

namespace Frame

/-- The frame made by `new Frame()`. -/
def new : Frame := .top []

/-- The bindings of the innermost scope. -/
def vars : Frame → List (String × String)
  | .top vs => vs
  | .child vs _ => vs

/-- Modelled from the spec: `lookup(name)` searches the chain from the innermost scope
outwards and returns the first match, or nothing. -/
def lookup : Frame → String → Option String
  | .top vs, name => vs.lookup name
  | .child vs parent, name =>
    match vs.lookup name with
    | some v => some v
    | none => parent.lookup name

/-- Modelled from the spec: `set(name, val)` binds `name` in the innermost scope; a later
binding of the same name shadows the earlier one. -/
def set (name val : String) : Frame → Frame
  | .top vs => .top ((name, val) :: vs)
  | .child vs parent => .child ((name, val) :: vs) parent

/-- Modelled from the spec: `push()` creates a child scope of the frame. -/
def push (f : Frame) : Frame := .child [] f

/-- Modelled from the spec: `pop()` returns the parent (nothing for a scope without one). -/
def pop : Frame → Option Frame
  | .top _ => none
  | .child _ parent => some parent

end Frame

/-! ## The syntax tree -/

/-- The binary operator node classes. -/
inductive BinKind where
  | Or | And | Add | Sub | Mul | Div | FloorDiv | Mod | Pow
  deriving DecidableEq

/-- The unary operator node classes. -/
inductive UnaryKind where
  | Not | Neg | Pos
  deriving DecidableEq

/-- The aggregate node classes compiled by `_compileAggregate`. -/
inductive AggKind where
  | Group | Array | Dict
  deriving DecidableEq

/-- Modelled from the spec: `nodes.js` is not among the sources.  One constructor per node
class (the operator and aggregate families share one constructor each, told apart by
their kind), with the fields `compiler.js` reads.  Positions are left out.  A nullable field
is an `Option`.  Where the compiler reads nothing but the `value` of a name node
(`Set` targets, `Macro` and `Block` names) the name itself is kept; `Import.target` is a
string in the source.  `Pair` is the node behind `getKey()` and `getValue()`: a dict entry,
a call argument (key absent when positional), a macro parameter (value absent without
default) or an imported name (value absent without alias).  `Compare.ops` lists the
`type` and `expr` of each operand. -/
inductive Node where
  | NodeList (children : List Node)
  | Literal (value : JsValue)
  | Symbol (value : String)
  | Agg (kind : AggKind) (children : List Node)
  | Pair (key : Option Node) (value : Option Node)
  | Bin (kind : BinKind) (left right : Node)
  | Unary (kind : UnaryKind) (target : Node)
  | Compare (expr : Node) (ops : List (String × Node))
  | LookupVal (target val : Node)
  | FunCall (name : Node) (children : List Node)
  | Filter (name : Node) (children : List Node)
  | Set (targets : List String) (value : Node)
  | If (cond body : Node) (else_ : Option Node)
  | For (arr name body : Node)
  | Macro (name : String) (children : List Node) (body : Node)
  | Import (template : Node) (target : String)
  | FromImport (template : Node) (children : List Node)
  | Block (name : String) (body : Node)
  | Extends (template : Node)
  | Include (template : Node)
  | Output (children : List Node)
  | TemplateData (value : JsValue)
  | Root (children : List Node)

/-- The `typename` of the operator classes. -/
def BinKind.typename : BinKind → String
  | .Or => "Or" | .And => "And" | .Add => "Add" | .Sub => "Sub" | .Mul => "Mul"
  | .Div => "Div" | .FloorDiv => "FloorDiv" | .Mod => "Mod" | .Pow => "Pow"

/-- The `typename` of the unary classes. -/
def UnaryKind.typename : UnaryKind → String
  | .Not => "Not" | .Neg => "Neg" | .Pos => "Pos"

/-- The `typename` of the aggregate classes. -/
def AggKind.typename : AggKind → String
  | .Group => "Group" | .Array => "Array" | .Dict => "Dict"

namespace Node

/-- The `typename` property: the name of the node's class. -/
def typename : Node → String
  | .NodeList _ => "NodeList"
  | .Literal _ => "Literal"
  | .Symbol _ => "Symbol"
  | .Agg kind _ => kind.typename
  | .Pair _ _ => "Pair"
  | .Bin kind _ _ => kind.typename
  | .Unary kind _ => kind.typename
  | .Compare _ _ => "Compare"
  | .LookupVal _ _ => "LookupVal"
  | .FunCall _ _ => "FunCall"
  | .Filter _ _ => "Filter"
  | .Set _ _ => "Set"
  | .If _ _ _ => "If"
  | .For _ _ _ => "For"
  | .Macro _ _ _ => "Macro"
  | .Import _ _ => "Import"
  | .FromImport _ _ => "FromImport"
  | .Block _ _ => "Block"
  | .Extends _ => "Extends"
  | .Include _ => "Include"
  | .Output _ => "Output"
  | .TemplateData _ => "TemplateData"
  | .Root _ => "Root"

/-- Modelled from the spec: `node instanceof nodes.T`.  The class hierarchy of `nodes.js`
is not among the sources; a node is taken to be an instance of its own class only. -/
def instanceOf (node : Node) (T : String) : Bool := node.typename == T

/-- The primitive held by the `value` property, for the node classes that have one. -/
def value? : Node → Option JsValue
  | .Literal v => some v
  | .TemplateData v => some v
  | .Symbol s => some (.str s)
  | _ => none

/-- The test `typeof node.value == "string"`. -/
def valueIsString (node : Node) : Bool :=
  match node.value? with
  | some (.str _) => true
  | _ => false

/-- The text `node.value` gives when it is concatenated to a string (`undefined` when the
node has no such property). -/
def valueText (node : Node) : String :=
  match node.value? with
  | some v => v.toText
  | none => "undefined"

end Node

/-! ## The compiler instance -/

/-- The fields of a `Compiler` instance.  `buffer` is `null` (`none`) outside a function
body.  `issued` is a specification-only log of the names `tmpid` has returned, oldest first;
the source keeps no such list and nothing reads it. -/
structure Compiler where
  codebuf : List String
  lastId : Nat
  buffer : Option String
  isChild : Bool
  issued : List String
  deriving DecidableEq

/-- The state set up by `init`. -/
def Compiler.init : Compiler :=
  { codebuf := [], lastId := 0, buffer := none, isChild := false, issued := [] }

/-- The method `getCode`: the fragments joined. -/
def Compiler.getCode (c : Compiler) : String := String.join c.codebuf

/-- How a method call ends: normally, with a value, or by a throw; in both cases with the
state of the instance at that point. -/
inductive Res (α : Type) where
  | ok (val : α) (c : Compiler)
  | threw (err : CompileError) (c : Compiler)
  deriving DecidableEq

/-- The instance state a call ends in. -/
def Res.state {α : Type} : Res α → Compiler
  | .ok _ c => c
  | .threw _ c => c

/-- A method of the compiler. -/
def M (α : Type) : Type := Compiler → Res α

/-- Sequencing: the second step runs only if the first returned. -/
def M.bind {α β : Type} (m : M α) (k : α → M β) : M β := fun c =>
  match m c with
  | .ok a c1 => k a c1
  | .threw e c1 => .threw e c1

instance : Monad M where
  pure a := fun c => .ok a c
  bind := M.bind

/-- The statement `throw`. -/
def raise {α : Type} (e : CompileError) : M α := fun c => .threw e c

/-- The method `emit`. -/
def emit (code : String) : M Unit := fun c =>
  .ok () { c with codebuf := c.codebuf ++ [code] }

/-- The method `emitLine`. -/
def emitLine (code : String) : M Unit := emit (code ++ "\n")

/-- The text of `this.buffer` in a string concatenation. -/
def bufferText : M String := fun c =>
  .ok (match c.buffer with | some b => b | none => "null") c

/-- An assignment to `this.buffer`. -/
def setBuffer (b : Option String) : M Unit := fun c => .ok () { c with buffer := b }

/-- A read of `this.buffer`. -/
def getBuffer : M (Option String) := fun c => .ok c.buffer c

/-- A read of `this.isChild`. -/
def getIsChild : M Bool := fun c => .ok c.isChild c

/-- The assignment `this.isChild = true`. -/
def setIsChild : M Unit := fun c => .ok () { c with isChild := true }

/-- The method `emitFuncBegin`. -/
def emitFuncBegin (name : String) : M Unit := do
  setBuffer (some "output")
  emitLine ("function " ++ name ++ "(env, context, frame, runtime) \x7b")
  let buffer ← bufferText
  emitLine ("var " ++ buffer ++ " = \"\";")

/-- The method `emitFuncEnd`. -/
def emitFuncEnd (noReturn : Bool) : M Unit := do
  if !noReturn then
    let buffer ← bufferText
    emitLine ("return " ++ buffer ++ ";")
  emitLine "\x7d"
  setBuffer none

/-- The name made from the counter: `'t_' + this.lastId`. -/
def tmpName (n : Nat) : String := "t_" ++ toString n

/-- The method `tmpid`. -/
def tmpid : M String := fun c =>
  .ok (tmpName (c.lastId + 1))
    { c with lastId := c.lastId + 1, issued := c.issued ++ [tmpName (c.lastId + 1)] }

/-- A use of `frame.` on the argument: a `TypeError` when it is `undefined`. -/
def requireFrame : Option Frame → M Frame
  | some f => pure f
  | none => raise .typeError

/-- The method `assertType`; `none` is a `null` node, whose `typename` cannot be read. -/
def assertType (node : Option Node) (types : List String) : M Unit :=
  match node with
  | none => raise .typeError
  | some n =>
    if types.any (fun T => n.instanceOf T) then pure ()
    else raise (.invalidType n.typename)

/-- The classes `_compileExpression` passes to `assertType`. -/
def expressionTypes : List String :=
  ["Literal", "Symbol", "Group", "Array", "Dict", "FunCall", "Filter", "LookupVal",
   "Compare", "And", "Or", "Not"]

/-- The assertion `_compileExpression` starts with. -/
def assertExpression (node : Option Node) : M Unit := assertType node expressionTypes

/-- A global replacement `s.replace(/c/g, by)` of one character. -/
def replaceAll (ch : Char) (by_ : String) (s : String) : String :=
  String.join (s.toList.map fun d => if d = ch then by_ else String.singleton d)

/-- The escaping `compileLiteral` applies to a string value. -/
def escapeString (s : String) : String :=
  replaceAll '\t' "\\t" (replaceAll '\r' "\\r" (replaceAll '\n' "\\n" (replaceAll '"' "\\\"" s)))

/-- The method `compileLiteral` (also behind `compileTemplateData`). -/
def compileLiteral (value : JsValue) : M Unit :=
  match value with
  | .str s => emit ("\"" ++ escapeString s ++ "\"")
  | v => emit v.toText

/-- The method `compileSymbol`.  The test `if((v = frame.lookup(name)))` holds when the
lookup finds an identifier that is not the empty string. -/
def compileSymbol (name : String) (frame : Option Frame) : M Unit := do
  let f ← requireFrame frame
  match f.lookup name with
  | some v =>
    if v ≠ "" then emit v
    else emit ("context.lookup(\"" ++ name ++ "\") || " ++ "frame.lookup(\"" ++ name ++ "\") || " ++ "\"\"")
  | none =>
    emit ("context.lookup(\"" ++ name ++ "\") || " ++ "frame.lookup(\"" ++ name ++ "\") || " ++ "\"\"")

/-! ## Helpers of the compile methods that do not recurse into the tree -/

/-- The table `compareOps`. -/
def compareOps : List (String × String) :=
  [("==", "=="), ("!=", "!="), ("<", "<"), (">", ">"), ("<=", "<="), (">=", ">=")]

/-- The text of `compareOps[type]` in a string concatenation. -/
def compareOpText (type : String) : String :=
  match compareOps.lookup type with
  | some op => op
  | none => "undefined"

/-- The text a fragment `node.value` contributes to the joined code when it is pushed on
`codebuf` as it is: nothing when the node has no `value`. -/
def Node.valueJoined (node : Node) : String :=
  match node.value? with
  | some v => v.toText
  | none => ""

/-- The test `name.charAt(0) != '_'`. -/
def exported (name : String) : Bool := name.toList.head? != some '_'

/-- The call `frame.set(name, val)` on the frame argument. -/
def frameSet (name val : String) (frame : Option Frame) : M (Option Frame) := do
  let f ← requireFrame frame
  pure (some (f.set name val))

/-- The method `collectArgs`: the children without a key, and the children with a key,
each in source order.  It fails with a `TypeError` on a child that has no `getKey`. -/
def collectArgs : List Node → Option (List (Option Node) × List (Node × Option Node))
  | [] => some ([], [])
  | .Pair key val :: rest =>
    match collectArgs rest with
    | none => none
    | some (args, kwargs) =>
      match key with
      | some name => some (args, (name, val) :: kwargs)
      | none => some (val :: args, kwargs)
  | _ :: _ => none

/-- The statement `var allArgs = this.collectArgs(node)`, kept for its exception. -/
def checkArgs (children : List Node) : M Unit :=
  match collectArgs children with
  | some _ => pure ()
  | none => raise .typeError

/-- The names `node.children[i].getKey().value` read by `macroBody`. -/
def macroParams : List Node → Option (List String)
  | [] => some []
  | .Pair (some key) _ :: rest =>
    match macroParams rest with
    | some names => some (key.valueText :: names)
    | none => none
  | _ :: _ => none

/-- The target loop of `compileSet`. -/
def emitSetTargets (val : String) : List String → M Unit
  | [] => pure ()
  | t :: rest => do
    emitLine ("context.setVariable(\"" ++ t ++ "\", " ++ val ++ ");")
    if exported t then
      emitLine ("context.addExport(\"" ++ t ++ "\");")
    emitSetTargets val rest

/-- The name `getKey().value` of an imported name and the local name it is bound to: the
`value` of `getValue()` when there is one, the name itself otherwise.  Nothing for a child
without `getKey`. -/
def importNames : Node → Option (String × String)
  | .Pair (some key) (some a) => some (key.valueText, a.valueText)
  | .Pair (some key) none => some (key.valueText, key.valueText)
  | _ => none

/-- The loop of `compileFromImport` over the imported names. -/
def emitFromImports : List Node → Option Frame → M (Option Frame)
  | [], frame => pure frame
  | n :: rest, frame =>
    match importNames n with
    | some (name, localName) => do
      emitLine ("if(includedTemplate.hasOwnProperty(\"" ++ name ++ "\")) \x7b")
      emitLine ("var l_" ++ localName ++ " = includedTemplate." ++ name ++ ";")
      emitLine "\x7d else \x7b"
      emitLine "// Add runtime error here"
      emitLine "\x7d"
      let frame ← frameSet localName ("l_" ++ localName) frame
      let isChild ← getIsChild
      if !isChild then
        emitLine ("context.setVariable(\"" ++ localName ++ "\", l_" ++ localName ++ ");")
      emitFromImports rest frame
    | none => raise .typeError

mutual
/-- Modelled from the spec: `node.findAll(nodes.Block)` of `nodes.js`, a search of the
whole tree.  `collectBlocks n` lists the `name.value` and the `body` of every `Block` at
or below `n`, a node before the nodes below it and fields in the order of their
declaration. -/
def collectBlocks : Node → List (String × Node)
  | .NodeList children => collectBlocksList children
  | .Literal _ => []
  | .Symbol _ => []
  | .Agg _ children => collectBlocksList children
  | .Pair key value =>
    (match key with | some k => collectBlocks k | none => []) ++
    (match value with | some v => collectBlocks v | none => [])
  | .Bin _ left right => collectBlocks left ++ collectBlocks right
  | .Unary _ target => collectBlocks target
  | .Compare expr ops => collectBlocks expr ++ collectBlocksOps ops
  | .LookupVal target val => collectBlocks target ++ collectBlocks val
  | .FunCall name children => collectBlocks name ++ collectBlocksList children
  | .Filter name children => collectBlocks name ++ collectBlocksList children
  | .Set _ value => collectBlocks value
  | .If cond body else_ =>
    collectBlocks cond ++ collectBlocks body ++
    (match else_ with | some e => collectBlocks e | none => [])
  | .For arr name body => collectBlocks arr ++ collectBlocks name ++ collectBlocks body
  | .Macro _ children body => collectBlocksList children ++ collectBlocks body
  | .Import template _ => collectBlocks template
  | .FromImport template children => collectBlocks template ++ collectBlocksList children
  | .Block name body => (name, body) :: collectBlocks body
  | .Extends template => collectBlocks template
  | .Include template => collectBlocks template
  | .Output children => collectBlocksList children
  | .TemplateData _ => []
  | .Root children => collectBlocksList children
/-- The search over a list of children. -/
def collectBlocksList : List Node → List (String × Node)
  | [] => []
  | n :: rest => collectBlocks n ++ collectBlocksList rest
/-- The search over the operands of a comparison. -/
def collectBlocksOps : List (String × Node) → List (String × Node)
  | [] => []
  | (_, e) :: rest => collectBlocks e ++ collectBlocksOps rest
end

/-- The blocks `node.findAll(nodes.Block)` gives for the children of a root. -/
def findAllBlocks (children : List Node) : List (String × Node) :=
  collectBlocksList children

/-- The last loop of `compileRoot`: one entry of the returned object per block. -/
def emitBundle : List (String × Node) → M Unit
  | [] => pure ()
  | (name, _) :: rest => do
    emitLine ("b_" ++ name ++ ": " ++ "b_" ++ name ++ ",")
    emitBundle rest

/-! ## The compile methods

Each method of the class is a definition of its own.  A method that compiles sub-nodes
takes, next to the fields it reads, the compilation of each sub-node: a `Sub` is
`this.compile(sub, ·)` for one sub-node (or for a loop over several), still waiting for the
frame.  `compile` below ties them together. -/

/-- The compilation of a sub-node, waiting for the frame it is called with. -/
abbrev Sub : Type := Option Frame → M (Option Frame)

/-- The call `this.compile(node, frame)` for a field that may be `null`. -/
def compileNullable (node : Option Sub) (frame : Option Frame) : M (Option Frame) :=
  match node with
  | some sub => sub frame
  | none => raise .typeError

/-- The methods `compileGroup`, `compileArray` and `compileDict`: `_compileAggregate`
with their delimiters; `items` is its loop over the children. -/
def compileAgg (kind : AggKind) (items : Sub) (frame : Option Frame) : M (Option Frame) := do
  emit (match kind with | .Group => "(" | .Array => "[" | .Dict => "\x7b")
  let frame ← items frame
  emit (match kind with | .Group => ")" | .Array => "]" | .Dict => "\x7d")
  pure frame

/-- The first half of `compilePair`: the check of the key and its compilation.  A
`Symbol` key is replaced by a `Literal` of its name, which `compile` hands to
`compileLiteral`; the test on a `Literal` key reads `node.value`, the `value` of the pair
itself. -/
def compilePairKey (key val : Option Node) : M Unit :=
  match key with
  | some (.Symbol name) => compileLiteral (.str name)
  | some (.Literal v) =>
    if (Node.Pair key val).valueIsString then compileLiteral v
    else raise .dictKeys
  | _ => raise .dictKeys

/-- The method `compilePair`. -/
def compilePair (key val : Option Node) (value : Option Sub) (frame : Option Frame) :
    M (Option Frame) := do
  compilePairKey key val
  emit ": "
  assertExpression val
  compileNullable value frame

/-- The methods made by `binOpEmitter`, and `compileFloorDiv` and `compilePow`. -/
def compileBin (kind : BinKind) (left right : Sub) (frame : Option Frame) :
    M (Option Frame) := do
  match kind with
  | .FloorDiv => emit "Math.floor("
  | .Pow => emit "Math.pow("
  | _ => pure ()
  let frame ← left frame
  emit (match kind with
    | .Or => " || " | .And => " && " | .Add => " + " | .Sub => " - " | .Mul => " * "
    | .Div => " / " | .Mod => " % " | .FloorDiv => " / " | .Pow => ", ")
  let frame ← right frame
  match kind with
  | .FloorDiv => emit ")"
  | .Pow => emit ")"
  | _ => pure ()
  pure frame

/-- The methods `compileNot`, `compileNeg` and `compilePos`. -/
def compileUnary (kind : UnaryKind) (target : Sub) (frame : Option Frame) :
    M (Option Frame) := do
  emit (match kind with | .Not => "!" | .Neg => "-" | .Pos => "+")
  target frame

/-- The method `compileCompare`; `ops` is its loop over `node.ops`. -/
def compileCompare (expr ops : Sub) (frame : Option Frame) : M (Option Frame) := do
  let frame ← expr frame
  ops frame

/-- The method `_compileExpression`. -/
def compileExpression (node : Node) (sub : Sub) (frame : Option Frame) : M (Option Frame) := do
  assertExpression (some node)
  sub frame

/-- The method `compileLookupVal`. -/
def compileLookupVal (target val : Node) (targetSub valSub : Sub) (frame : Option Frame) :
    M (Option Frame) := do
  emit "("
  let frame ← compileExpression target targetSub frame
  emit ")"
  emit "["
  let frame ← compileExpression val valSub frame
  emit "]"
  pure frame

/-- The method `_emitWrappedExpression`. -/
def emitWrappedExpression (name : Node) (nameSub : Sub) (frame : Option Frame) :
    M (Option Frame) := do
  emit "("
  let frame ← compileExpression name nameSub frame
  emit ")"
  pure frame

/-- The method `_emitCallArgs`; `args` is its loop over the positional arguments. -/
def emitCallArgsIn (args : Sub) (frame : Option Frame) (startChar endChar : String) :
    M (Option Frame) := do
  emit startChar
  let frame ← args frame
  emit endChar
  pure frame

/-- The method `_emitCallKwargs`; `kwargs` is its loop over the keyword arguments. -/
def emitCallKwargsIn (kwargs : Sub) (frame : Option Frame) : M (Option Frame) := do
  emit "\x7b"
  let frame ← kwargs frame
  emit "\x7d"
  pure frame

/-- The method `compileFunCall`. -/
def compileFunCall (name : Node) (children : List Node) (nameSub args kwargs : Sub)
    (frame : Option Frame) : M (Option Frame) := do
  checkArgs children
  let frame ← emitWrappedExpression name nameSub frame
  emit ".isMacro ? "
  let frame ← emitWrappedExpression name nameSub frame
  emit "("
  let frame ← emitCallArgsIn args frame "[" "]"
  emit ", "
  let frame ← emitCallKwargsIn kwargs frame
  emit ") : "
  let frame ← emitWrappedExpression name nameSub frame
  emitCallArgsIn args frame "(" ")"

/-- The method `compileFilter`. -/
def compileFilter (name : Node) (children : List Node) (args : Sub) (frame : Option Frame) :
    M (Option Frame) := do
  assertType (some name) ["Symbol"]
  emit ("env.getFilter(\"" ++ name.valueText ++ "\")")
  checkArgs children
  emitCallArgsIn args frame "(" ")"

/-- The method `compileSet`.  It calls `this._compileExpression(node.value)` without a
frame, so the value is compiled with `undefined` for a frame. -/
def compileSet (targets : List String) (value : Node) (valueSub : Sub)
    (frame : Option Frame) : M (Option Frame) := do
  let val ← tmpid
  emit ("var " ++ val ++ " = ")
  let _ ← compileExpression value valueSub none
  emitLine ";"
  emitSetTargets val targets
  pure frame

/-- The method `compileIf`. -/
def compileIf (cond : Node) (condSub body : Sub) (else_ : Option Sub) (frame : Option Frame) :
    M (Option Frame) := do
  emit "if("
  let frame ← compileExpression cond condSub frame
  emitLine ") \x7b"
  let frame ← body frame
  let frame ← (match else_ with
    | some e => do
      emitLine "\x7d\nelse \x7b"
      e frame
    | none => pure frame)
  emitLine "\x7d"
  pure frame

/-- The lines `compileFor` emits for a key/value loop, after the two identifiers are
made. -/
def emitKeyValueLoop (i arr k v keyName valName : String) : M Unit := do
  emitLine ("var " ++ i ++ " = -1;")
  emitLine ("for(var " ++ k ++ " in " ++ arr ++ ") \x7b")
  emitLine (i ++ "++;")
  emitLine ("var " ++ v ++ " = " ++ arr ++ "[" ++ k ++ "];")
  emitLine ("frame.set(\"" ++ keyName ++ "\", " ++ k ++ ");")
  emitLine ("frame.set(\"" ++ valName ++ "\", " ++ v ++ ");")
  emitLine ("frame.set(\"loop.index\", " ++ i ++ " + 1);")
  emitLine ("frame.set(\"loop.index0\", " ++ i ++ ");")
  emitLine ("frame.set(\"loop.first\", " ++ i ++ " === 0);")

/-- The lines `compileFor` emits for a sequential loop, after the identifier is made. -/
def emitSequentialLoop (i arr v name : String) : M Unit := do
  emitLine ("for(var " ++ i ++ "=0; " ++ i ++ " < " ++ arr ++ ".length; " ++ i ++ "++) \x7b")
  emitLine ("var " ++ v ++ " = " ++ arr ++ "[" ++ i ++ "];")
  emitLine ("frame.set(\"" ++ name ++ "\", " ++ v ++ ");")
  emitLine ("frame.set(\"loop.index\", " ++ i ++ " + 1);")
  emitLine ("frame.set(\"loop.index0\", " ++ i ++ ");")
  emitLine ("frame.set(\"loop.revindex\", " ++ arr ++ ".length - " ++ i ++ ");")
  emitLine ("frame.set(\"loop.revindex0\", " ++ arr ++ ".length - " ++ i ++ " - 1);")
  emitLine ("frame.set(\"loop.first\", " ++ i ++ " === 0);")
  emitLine ("frame.set(\"loop.last\", " ++ i ++ " === " ++ arr ++ ".length - 1);")
  emitLine ("frame.set(\"loop.length\", " ++ arr ++ ".length);")

/-- The key/value branch of `compileFor` once its two identifiers are made: `key` and `val`
are `node.name.children[0]` and `[1]`, read for their `value`. -/
def bindKeyValue (i arr k v : String) (children : List Node) (frame : Option Frame) :
    M (Option Frame) :=
  match children with
  | key :: val :: _ => do
    let frame ← frameSet key.valueText k frame
    let frame ← frameSet val.valueText v frame
    emitKeyValueLoop i arr k v key.valueText val.valueText
    pure frame
  | _ => raise .typeError

/-- The part of `compileFor` that depends on the loop target: it makes the identifiers of
the target, binds them in the pushed scope and opens the loop. -/
def compileForTarget (i arr : String) (name : Node) (frame : Option Frame) :
    M (Option Frame) :=
  match name with
  | .Agg .Array children => do
    -- key/value iteration
    let k ← tmpid
    let v ← tmpid
    bindKeyValue i arr k v children frame
  | _ => do
    let v ← tmpid
    let frame ← frameSet name.valueText v frame
    emitSequentialLoop i arr v name.valueText
    pure frame

/-- The method `compileFor`.  The caller keeps the frame it passed, which is the parent of
the scope pushed here. -/
def compileFor (arr name : Node) (arrSub body : Sub) (frame : Option Frame) :
    M (Option Frame) := do
  let i ← tmpid
  let arrId ← tmpid
  let outer ← requireFrame frame
  let frame := some outer.push
  emitLine "frame = frame.push();"
  emit ("var " ++ arrId ++ " = ")
  let frame ← compileExpression arr arrSub frame
  emitLine ";"
  let frame ← compileForTarget i arrId name frame
  let frame ← body frame
  emitLine "\x7d"
  emitLine "frame = frame.pop();"
  pure (frame.bind Frame.pop)

/-- The method `macroBody`; it returns the pushed scope. -/
def macroBody (children : List Node) (body : Sub) (frame : Option Frame) :
    M (Option Frame) := do
  let outer ← requireFrame frame
  emitLine "frame = frame.push();"
  let args ← (match macroParams children with
    | some names => pure names
    | none => raise .typeError)
  let frame := args.foldl (fun f a => f.set a ("l_" ++ a)) outer.push
  emitLine ("var macro = function(" ++ ", ".intercalate (args.map fun a => "l_" ++ a) ++
            ") \x7b")
  let oldBuffer ← getBuffer
  setBuffer (some "macroOutput")
  let buffer ← bufferText
  emitLine ("var " ++ buffer ++ "= \"\";")
  let frame ← body (some frame)
  let buffer ← bufferText
  emitLine ("return " ++ buffer ++ ";")
  emitLine "\x7d;"
  setBuffer oldBuffer
  emitLine "frame = frame.pop();"
  pure frame

/-- The method `macroDef`; `defArgs` is its loop over the parameters. -/
def macroDef (name : String) (defArgs : Sub) (frame : Option Frame) : M (Option Frame) := do
  emit ("runtime.wrapMacro(macro, \"" ++ name ++ "\", " ++ "[")
  let frame ← defArgs frame
  emitLine "], false, false, false);"
  pure frame

/-- The method `compileMacro`.  The binding of the macro goes to the frame the method was
given, which is the parent of the scope `macroBody` returns. -/
def compileMacro (name : String) (children : List Node) (body defArgs : Sub)
    (frame : Option Frame) : M (Option Frame) := do
  let macroFrame ← macroBody children body frame
  emit ("var l_" ++ name ++ " = ")
  let macroFrame ← macroDef name defArgs macroFrame
  let frame ← frameSet name ("l_" ++ name) (macroFrame.bind Frame.pop)
  let isChild ← getIsChild
  if !isChild then
    if exported name then
      emitLine ("context.addExport(\"" ++ name ++ "\");")
    emitLine ("context.setVariable(\"" ++ name ++ "\", l_" ++ name ++ ");")
  pure frame

/-- The method `compileImport`. -/
def compileImport (target : String) (template : Sub) (frame : Option Frame) :
    M (Option Frame) := do
  emit ("var l_" ++ target ++ " = env.getTemplate(")
  let frame ← template frame
  emitLine ").getModule();"
  let frame ← frameSet target ("l_" ++ target) frame
  let isChild ← getIsChild
  if !isChild then
    emitLine ("context.setVariable(\"" ++ target ++ "\", l_" ++ target ++ ");")
  pure frame

/-- The method `compileFromImport`. -/
def compileFromImport (children : List Node) (template : Sub) (frame : Option Frame) :
    M (Option Frame) := do
  emit "var includedTemplate = env.getTemplate("
  let frame ← template frame
  emitLine ").getModule();"
  emitFromImports children frame

/-- The method `compileBlock`. -/
def compileBlock (name : String) (frame : Option Frame) : M (Option Frame) := do
  let buffer ← bufferText
  emitLine (buffer ++ " += context.getBlock(\"" ++ name ++ "\")(env, context, frame);")
  pure frame

/-- The method `compileExtends`. -/
def compileExtends (template : Node) (templateSub : Sub) (frame : Option Frame) :
    M (Option Frame) := do
  let isChild ← getIsChild
  if isChild then
    raise .cannotExtend
  emit "var parentTemplate = env.getTemplate("
  let frame ← compileExpression template templateSub frame
  emitLine ", true);"
  let k ← tmpid
  emitLine ("for(var " ++ k ++ " in parentTemplate.blocks) \x7b")
  emitLine ("context.addBlock(" ++ k ++ ", parentTemplate.blocks[" ++ k ++ "]);")
  emitLine "\x7d"
  setIsChild
  pure frame

/-- The method `compileInclude`. -/
def compileInclude (template : Node) (templateSub : Sub) (frame : Option Frame) :
    M (Option Frame) := do
  emit "var includeTemplate = env.getTemplate("
  let frame ← compileExpression template templateSub frame
  emitLine ");"
  let buffer ← bufferText
  emitLine (buffer ++ " += includeTemplate.render(" ++ "context.getVariables(), frame);")
  pure frame

/-- The method `compileOutput`; `children` is `_compileChildren`. -/
def compileOutput (children : Sub) (frame : Option Frame) : M (Option Frame) := do
  let buffer ← bufferText
  emit (buffer ++ " += ")
  let frame ← children frame
  emit ";\n"
  pure frame

/-- The body of the block loop of `compileRoot` for one block; `frame` is the frame of the
root, and the result is that frame after the iteration.  The source pushes `tmpFrame` and
then sets `super` on its parent; the pushed scope sees the binding through the parent. -/
def compileBlockFunction (name : String) (body : Sub) (frame : Option Frame) :
    M (Option Frame) := do
  emitFuncBegin ("b_" ++ name)
  emitLine ("var l_super = context.getSuper(env, " ++ "\"" ++ name ++ "\", " ++
            "b_" ++ name ++ ", " ++ "runtime);")
  let frame ← frameSet "super" "l_super" frame
  let tmpFrame ← body (frame.map Frame.push)
  emitFuncEnd false
  pure (tmpFrame.bind Frame.pop)

/-- The method `compileRoot`; `children` is `_compileChildren` and `blocks` the loop over
`node.findAll(nodes.Block)`. -/
def compileRoot (nodes : List Node) (children blocks : Sub) (frame : Option Frame) :
    M (Option Frame) :=
  match frame with
  | some _ => raise .rootFrame
  | none => do
    let frame := some Frame.new
    emitFuncBegin "root"
    let frame ← children frame
    let isChild ← getIsChild
    if isChild then
      emitLine ("return " ++ "parentTemplate.rootRenderFunc(env, context, frame, runtime);")
    emitFuncEnd isChild
    let _ ← blocks frame
    emitLine "return \x7b"
    emitBundle (findAllBlocks nodes)
    emitLine "root: root\n\x7d;"
    pure none

/-- The block loop where the search finds no block: the frame of the root is returned
as it is. -/
def noBlocks : Sub := fun frame => pure frame

/-- The block loop over the blocks of one part of the tree, then over those of the next
part. -/
def andThen (first next : Sub) : Sub := fun frame => do
  let frame ← first frame
  next frame

mutual
/-- The method `compile`: the dispatch on `node.typename` to the method of that name.
Every class of the tree has a method, so `Cannot compile node` is not raised. -/
def compile : Node → Sub
  | .NodeList children => compileChildren children
  | .Literal value => fun frame => do
    compileLiteral value
    pure frame
  | .Symbol name => fun frame => do
    compileSymbol name frame
    pure frame
  | .Agg kind children => compileAgg kind (compileAggregate children 0)
  | .Pair key val =>
    compilePair key val (match val with | some v => some (compile v) | none => none)
  | .Bin kind left right => compileBin kind (compile left) (compile right)
  | .Unary kind target => compileUnary kind (compile target)
  | .Compare expr ops => compileCompare (compile expr) (compileOps ops)
  | .LookupVal target val => compileLookupVal target val (compile target) (compile val)
  | .FunCall name children =>
    compileFunCall name children (compile name) (emitCallArgs children 0)
      (emitCallKwargs children)
  | .Filter name children => compileFilter name children (emitCallArgs children 0)
  | .Set targets value => compileSet targets value (compile value)
  | .If cond body else_ =>
    compileIf cond (compile cond) (compile body)
      (match else_ with | some e => some (compile e) | none => none)
  | .For arr name body => compileFor arr name (compile arr) (compile body)
  | .Macro name children body =>
    compileMacro name children (compile body) (macroDefArgs children)
  | .Import template target => compileImport target (compile template)
  | .FromImport template children => compileFromImport children (compile template)
  | .Block name _ => compileBlock name
  | .Extends template => compileExtends template (compile template)
  | .Include template => compileInclude template (compile template)
  | .Output children => compileOutput (compileChildren children)
  | .TemplateData value => fun frame => do
    compileLiteral value
    pure frame
  | .Root children =>
    compileRoot children (compileChildren children) (compileBlocksList children)
/-- The method `_compileChildren`: `node.iterChildren` over the children in order. -/
def compileChildren : List Node → Sub
  | [] => fun frame => pure frame
  | n :: rest => fun frame => do
    let frame ← compile n frame
    compileChildren rest frame
/-- The loop of `_compileAggregate`, from index `i` on. -/
def compileAggregate : List Node → Nat → Sub
  | [], _ => fun frame => pure frame
  | n :: rest, i => fun frame => do
    if i > 0 then
      emit ","
    let frame ← compile n frame
    compileAggregate rest (i + 1) frame
/-- The loop of `compileCompare` over `node.ops`. -/
def compileOps : List (String × Node) → Sub
  | [] => fun frame => pure frame
  | (type, expr) :: rest => fun frame => do
    emit (" " ++ compareOpText type ++ " ")
    let frame ← compile expr frame
    compileOps rest frame
/-- The loop of `_emitCallArgs` over the positional arguments `collectArgs` picked, which
are the children without a key; `j` counts the ones already emitted. -/
def emitCallArgs : List Node → Nat → Sub
  | [], _ => fun frame => pure frame
  | .Pair none val :: rest, j => fun frame => do
    if j != 0 then
      emit ", "
    let frame ← compileNullable (match val with | some v => some (compile v) | none => none) frame
    emitCallArgs rest (j + 1) frame
  | _ :: rest, j => emitCallArgs rest j
/-- The loop of `_emitCallKwargs` over the keyword arguments `collectArgs` picked, which
are the children with a key. -/
def emitCallKwargs : List Node → Sub
  | [] => fun frame => pure frame
  | .Pair (some name) val :: rest => fun frame => do
    emit name.valueJoined
    emit ": "
    let frame ← compileNullable (match val with | some v => some (compile v) | none => none) frame
    emitCallKwargs rest frame
  | _ :: rest => emitCallKwargs rest
/-- The loop of `macroDef` over the parameters. -/
def macroDefArgs : List Node → Sub
  | [] => fun frame => pure frame
  | .Pair (some key) val :: rest => fun frame => do
    emit ("[\"" ++ key.valueText ++ "\", ")
    let frame ← (match val with
      | some v => compile v frame
      | none => do
        emit "null"
        pure frame)
    emit "]"
    if !rest.isEmpty then
      emit ", "
    macroDefArgs rest frame
  | _ :: _ => fun _ => raise .typeError
/-- The block loop of `compileRoot`, for the blocks at or below one node: each block the
search of `findAll` meets gets its function, in the order the search meets them.  (The
source first collects the blocks, which changes nothing, and then loops over them.)  The
frame is the frame of the root. -/
def compileBlocks : Node → Sub
  | .NodeList children => compileBlocksList children
  | .Literal _ => noBlocks
  | .Symbol _ => noBlocks
  | .Agg _ children => compileBlocksList children
  | .Pair key value =>
    andThen (match key with | some k => compileBlocks k | none => noBlocks)
      (match value with | some v => compileBlocks v | none => noBlocks)
  | .Bin _ left right => andThen (compileBlocks left) (compileBlocks right)
  | .Unary _ target => compileBlocks target
  | .Compare expr ops => andThen (compileBlocks expr) (compileBlocksOps ops)
  | .LookupVal target val => andThen (compileBlocks target) (compileBlocks val)
  | .FunCall name children => andThen (compileBlocks name) (compileBlocksList children)
  | .Filter name children => andThen (compileBlocks name) (compileBlocksList children)
  | .Set _ value => compileBlocks value
  | .If cond body else_ =>
    andThen (compileBlocks cond)
      (andThen (compileBlocks body)
        (match else_ with | some e => compileBlocks e | none => noBlocks))
  | .For arr name body =>
    andThen (compileBlocks arr) (andThen (compileBlocks name) (compileBlocks body))
  | .Macro _ children body => andThen (compileBlocksList children) (compileBlocks body)
  | .Import template _ => compileBlocks template
  | .FromImport template children =>
    andThen (compileBlocks template) (compileBlocksList children)
  | .Block name body =>
    -- the function of this block, then the search goes on below it
    andThen (compileBlockFunction name (compile body)) (compileBlocks body)
  | .Extends template => compileBlocks template
  | .Include template => compileBlocks template
  | .Output children => compileBlocksList children
  | .TemplateData _ => noBlocks
  | .Root children => compileBlocksList children
/-- The block loop for the blocks at or below the nodes of a list. -/
def compileBlocksList : List Node → Sub
  | [] => noBlocks
  | n :: rest => andThen (compileBlocks n) (compileBlocksList rest)
/-- The block loop for the blocks at or below the operands of a comparison. -/
def compileBlocksOps : List (String × Node) → Sub
  | [] => noBlocks
  | (_, e) :: rest => andThen (compileBlocks e) (compileBlocksOps rest)
end

/-! ## Notions the statements below use -/

mutual
/-- Every node at or below a node, over all its fields: the node first, then the nodes
below it, fields in the order of their declaration. -/
def subnodes : Node → List Node
  | .NodeList children => .NodeList children :: subnodesList children
  | .Literal value => [.Literal value]
  | .Symbol value => [.Symbol value]
  | .Agg kind children => .Agg kind children :: subnodesList children
  | .Pair key value =>
    .Pair key value ::
      ((match key with | some k => subnodes k | none => []) ++
       (match value with | some v => subnodes v | none => []))
  | .Bin kind left right => .Bin kind left right :: (subnodes left ++ subnodes right)
  | .Unary kind target => .Unary kind target :: subnodes target
  | .Compare expr ops => .Compare expr ops :: (subnodes expr ++ subnodesOps ops)
  | .LookupVal target val => .LookupVal target val :: (subnodes target ++ subnodes val)
  | .FunCall name children => .FunCall name children :: (subnodes name ++ subnodesList children)
  | .Filter name children => .Filter name children :: (subnodes name ++ subnodesList children)
  | .Set targets value => .Set targets value :: subnodes value
  | .If cond body else_ =>
    .If cond body else_ ::
      (subnodes cond ++ subnodes body ++
       (match else_ with | some e => subnodes e | none => []))
  | .For arr name body => .For arr name body :: (subnodes arr ++ subnodes name ++ subnodes body)
  | .Macro name children body =>
    .Macro name children body :: (subnodesList children ++ subnodes body)
  | .Import template target => .Import template target :: subnodes template
  | .FromImport template children =>
    .FromImport template children :: (subnodes template ++ subnodesList children)
  | .Block name body => .Block name body :: subnodes body
  | .Extends template => .Extends template :: subnodes template
  | .Include template => .Include template :: subnodes template
  | .Output children => .Output children :: subnodesList children
  | .TemplateData value => [.TemplateData value]
  | .Root children => .Root children :: subnodesList children
/-- The nodes at or below the nodes of a list. -/
def subnodesList : List Node → List Node
  | [] => []
  | n :: rest => subnodes n ++ subnodesList rest
/-- The nodes at or below the operands of a comparison. -/
def subnodesOps : List (String × Node) → List Node
  | [] => []
  | (_, e) :: rest => subnodes e ++ subnodesOps rest
end

/-- Whether a node is an `Extends`. -/
def Node.isExtends : Node → Bool
  | .Extends _ => true
  | _ => false

/-- Whether a node is a `Root`. -/
def Node.isRoot : Node → Bool
  | .Root _ => true
  | _ => false

/-- Whether a node is a `FunCall`. -/
def Node.isFunCall : Node → Bool
  | .FunCall _ _ => true
  | _ => false

/-- Whether a node is a `Block`. -/
def Node.isBlock : Node → Bool
  | .Block _ _ => true
  | _ => false

/-- The number of `Extends` nodes among the given statements and everything below them. -/
def extendsIn (nodes : List Node) : Nat := (subnodesList nodes).countP Node.isExtends

/-- No `Root` node among the given statements or below them: the root of a template is
its only `Root`. -/
def rootFree (nodes : List Node) : Bool := (subnodesList nodes).all fun n => !n.isRoot

/-- No `Extends` node inside a function call (its callee or its arguments). -/
def noExtendsInCalls (nodes : List Node) : Bool :=
  (subnodesList nodes).all fun n => !n.isFunCall || extendsIn [n] == 0

/-- The number of `Block` nodes among the given statements and everything below them. -/
def blocksIn (nodes : List Node) : Nat := (subnodesList nodes).countP Node.isBlock

mutual
/-- The number of `Extends` statements `compile` meets at or below a node: an `Extends`
counts where a statement stands, that is in a statement list or as the body of an `If`,
`For` or `Macro`.  The body of a `Block` is left out, as `compile` does not enter it: it is
counted with the blocks. -/
def stmtExtends : Node → Nat
  | .NodeList children => stmtExtendsList children
  | .If _ body else_ =>
    stmtExtends body + (match else_ with | some e => stmtExtends e | none => 0)
  | .For _ _ body => stmtExtends body
  | .Macro _ _ body => stmtExtends body
  | .Extends _ => 1
  | _ => 0
/-- The number of `Extends` statements at or below the statements of a list. -/
def stmtExtendsList : List Node → Nat
  | [] => 0
  | n :: rest => stmtExtends n + stmtExtendsList rest
end

/-- The number of `Extends` statements of a template with the given top-level statements:
those of its statement list and those of the body of each of its blocks. -/
def extendsStatements (children : List Node) : Nat :=
  stmtExtendsList children + ((findAllBlocks children).map fun b => stmtExtends b.2).sum

mutual
/-- How many times `compile`, called on a node, reaches `compileExtends` when nothing
throws.  `compile` does not enter the body of a `Block`, compiles the callee of a call three
times and its positional arguments twice.  (A `Root` below the root is left out.) -/
def visits : Node → Nat
  | .NodeList children => visitsList children
  | .Literal _ => 0
  | .Symbol _ => 0
  | .Agg _ children => visitsList children
  | .Pair _ value => (match value with | some v => visits v | none => 0)
  | .Bin _ left right => visits left + visits right
  | .Unary _ target => visits target
  | .Compare expr ops => visits expr + visitsOps ops
  | .LookupVal target val => visits target + visits val
  | .FunCall name children =>
    3 * visits name + 2 * visitsArgs children + visitsKwargs children
  | .Filter _ children => visitsArgs children
  | .Set _ value => visits value
  | .If cond body else_ =>
    visits cond + visits body + (match else_ with | some e => visits e | none => 0)
  | .For arr _ body => visits arr + visits body
  | .Macro _ children body => visits body + visitsDefaults children
  | .Import template _ => visits template
  | .FromImport template _ => visits template
  | .Block _ _ => 0
  | .Extends template => 1 + visits template
  | .Include template => visits template
  | .Output children => visitsList children
  | .TemplateData _ => 0
  | .Root _ => 0
/-- The visits of `_compileChildren` and of the loop of `_compileAggregate`. -/
def visitsList : List Node → Nat
  | [] => 0
  | n :: rest => visits n + visitsList rest
/-- The visits of the loop of `compileCompare`. -/
def visitsOps : List (String × Node) → Nat
  | [] => 0
  | (_, e) :: rest => visits e + visitsOps rest
/-- The visits of the loop of `_emitCallArgs`. -/
def visitsArgs : List Node → Nat
  | [] => 0
  | .Pair none val :: rest =>
    (match val with | some v => visits v | none => 0) + visitsArgs rest
  | _ :: rest => visitsArgs rest
/-- The visits of the loop of `_emitCallKwargs`. -/
def visitsKwargs : List Node → Nat
  | [] => 0
  | .Pair (some _) val :: rest =>
    (match val with | some v => visits v | none => 0) + visitsKwargs rest
  | _ :: rest => visitsKwargs rest
/-- The visits of the loop of `macroDef`. -/
def visitsDefaults : List Node → Nat
  | [] => 0
  | .Pair (some _) val :: rest =>
    (match val with | some v => visits v | none => 0) + visitsDefaults rest
  | _ :: _ => 0
end

/-- The visits of the block loop of `compileRoot` over the given blocks. -/
def visitsBlocks (blocks : List (String × Node)) : Nat :=
  (blocks.map fun b => visits b.2).sum

/-- How many times the compilation of a root with the given top-level statements reaches
`compileExtends` when nothing throws. -/
def extendsReached (children : List Node) : Nat :=
  visitsList children + visitsBlocks (findAllBlocks children)

/-- What `compile` keeps to for a call that counts `s` `Extends` statements and reaches
`compileExtends` `k` times.  When the call returns, the child flag was not set before an
`Extends` statement and is set after one, it is set afterwards exactly if it was set before
or an `Extends` was reached, and, for a call that is to keep the accumulator (`keep`),
`buffer` is what it was.  When the call throws `cannot extend multiple times`, an `Extends`
was reached with the flag set; and it does not throw the error of `compileRoot`. -/
structure Spec (keep : Bool) (s k : Nat) {α : Type} (m : M α) : Prop where
  ok : ∀ c a c1, m c = .ok a c1 →
    s + c.isChild.toNat ≤ 1 ∧ (1 ≤ s → c1.isChild = true) ∧
      c1.isChild = (c.isChild || decide (1 ≤ k)) ∧ (keep = true → c1.buffer = c.buffer)
  threw : ∀ c e c1, m c = .threw e c1 →
    (e = .cannotExtend → 2 ≤ k + c.isChild.toNat) ∧ e ≠ .rootFrame

/-- A child that `collectArgs` puts with the positional arguments: `getKey()` is `null`. -/
def Node.isPositional : Node → Bool
  | .Pair none _ => true
  | _ => false

/-- A child with a key: a keyword argument, or a macro parameter. -/
def Node.isKeyword : Node → Bool
  | .Pair (some _) _ => true
  | _ => false

/-- Two frames of which one is the other after some `set` calls: both defined or both
`undefined`, and with the same parent. -/
def sameScope : Option Frame → Option Frame → Prop
  | none, none => True
  | some a, some b => a.pop = b.pop
  | _, _ => False

/-- A relation between instance states that every elementary step of the compiler
respects: an `emit`, a `tmpid`, an assignment to `buffer`, the assignment
`isChild = true`. -/
structure StepRel (R : Compiler → Compiler → Prop) : Prop where
  refl : ∀ c, R c c
  trans : ∀ a b c, R a b → R b c → R a c
  emit : ∀ s c, R c { c with codebuf := c.codebuf ++ [s] }
  tmpid : ∀ c,
    R c { c with lastId := c.lastId + 1, issued := c.issued ++ [tmpName (c.lastId + 1)] }
  buffer : ∀ b c, R c { c with buffer := b }
  child : ∀ c, R c { c with isChild := true }

/-- The state a method ends in, by return or by throw, is related to the state it starts
in. -/
structure Gen (R : Compiler → Compiler → Prop) {α : Type} (m : M α) : Prop where
  state : ∀ c, R c (m c).state

/-- The same for a method that is given a frame: moreover the frame it returns has the
scope of the frame given. -/
structure GenF (R : Compiler → Compiler → Prop) (fr : Option Frame)
    (m : M (Option Frame)) : Prop where
  state : ∀ c, R c (m c).state
  scope : ∀ c fr1 c1, m c = .ok fr1 c1 → sameScope fr fr1


/-! ## Functions the statements compare the emitted code with -/

/-- Whether a name begins with an underscore. -/
def beginsWithUnderscore (name : String) : Bool := name.toList.head? == some '_'

/-- The lines a `Set` is to emit for its targets, in the words of the specification: for
each target in order one `context.setVariable` with the temporary, followed by one
`context.addExport` exactly when the target does not begin with an underscore. -/
def setTargetLines (val : String) : List String → List String
  | [] => []
  | t :: rest =>
    ("context.setVariable(\"" ++ t ++ "\", " ++ val ++ ");" ++ "\n") ::
      ((if beginsWithUnderscore t then [] else ["context.addExport(\"" ++ t ++ "\");" ++ "\n"]) ++
        setTargetLines val rest)

/-- The lines that publish a macro to the render context: none for a child template;
otherwise the export, unless the name begins with an underscore, and then the assignment
of the macro to the context variable of its name. -/
def macroPublication (name : String) (isChild : Bool) : List String :=
  if isChild then []
  else
    (if beginsWithUnderscore name then [] else ["context.addExport(\"" ++ name ++ "\");" ++ "\n"]) ++
      ["context.setVariable(\"" ++ name ++ "\", l_" ++ name ++ ");" ++ "\n"]

/-- The JavaScript expressions `compileFor` writes for the loop metadata, as JavaScript
parses them: the loop counter, the `length` of the collection, a number, and `+`, `-`
(both left-associative) and `===` (which binds less than `+` and `-`). -/
inductive LoopExpr where
  | counter
  | length
  | num (n : Int)
  | add (a b : LoopExpr)
  | sub (a b : LoopExpr)
  | same (a b : LoopExpr)

namespace LoopExpr

/-- The text of an expression, with `i` the identifier of the counter and `arr` that of the
collection; operands are written without parentheses, as the source writes them. -/
def text (i arr : String) : LoopExpr → String
  | counter => i
  | length => arr ++ ".length"
  | num n => toString n
  | add a b => a.text i arr ++ " + " ++ b.text i arr
  | sub a b => a.text i arr ++ " - " ++ b.text i arr
  | same a b => a.text i arr ++ " === " ++ b.text i arr

/-- The value of an expression when the collection has `len` elements and the counter is
`idx`; arithmetic is on numbers only.  (The numbers are array lengths and indices, which
JavaScript adds and subtracts exactly.) -/
def eval (len idx : Int) : LoopExpr → Option JsValue
  | counter => some (.num idx)
  | length => some (.num len)
  | num n => some (.num n)
  | add a b =>
    match a.eval len idx, b.eval len idx with
    | some (.num x), some (.num y) => some (.num (x + y))
    | _, _ => none
  | sub a b =>
    match a.eval len idx, b.eval len idx with
    | some (.num x), some (.num y) => some (.num (x - y))
    | _, _ => none
  | same a b =>
    match a.eval len idx, b.eval len idx with
    | some x, some y => some (.bool (decide (x = y)))
    | _, _ => none

end LoopExpr

/-- The metadata of a sequential loop: the names `compileFor` sets in the runtime frame
and the expression it writes for each, in the order of the source. -/
def sequentialMetadata : List (String × LoopExpr) :=
  [("loop.index", .add .counter (.num 1)),
   ("loop.index0", .counter),
   ("loop.revindex", .sub .length .counter),
   ("loop.revindex0", .sub (.sub .length .counter) (.num 1)),
   ("loop.first", .same .counter (.num 0)),
   ("loop.last", .same .counter (.sub .length (.num 1))),
   ("loop.length", .length)]

/-! ## The web loader (`src/web-loaders.js`) -/

/-- The `defaultExt` argument of `WebLoader.init`: not passed, a value that is not a
string, or a string. -/
inductive ExtArg where
  | absent
  | notString
  | str (s : String)
  deriving DecidableEq

/-- The two assignments to `defaultExt` in `WebLoader.init`: the value stored in
`this.defaultExt`. -/
def WebLoader.defaultExt (arg : ExtArg) : String :=
  let defaultExt :=
    match arg with
    | .str s => if s.length ≠ 0 then s else ".html"
    | _ => ".html"
  if defaultExt.toList.head? = some '.' then defaultExt else ".".append defaultExt

/-! ## Reading the outcome of a call -/

/-- The error a call ended with, if it threw. -/
def Res.error? {α : Type} : Res α → Option CompileError
  | .ok _ _ => none
  | .threw e _ => some e

/-- The block loop of `compileRoot` as the source writes it: over the list `findAll` gave,
one function per block in the order of the list. -/
def blockLoop : List (String × Node) → Sub
  | [] => noBlocks
  | (name, body) :: rest => andThen (compileBlockFunction name (compile body)) (blockLoop rest)

/-- The entries the object returned by the compiled code is to have for the given blocks,
and `root`: the lines of the bundle. -/
def bundleLines (blocks : List (String × Node)) : List String :=
  blocks.map (fun b => "b_" ++ b.1 ++ ": " ++ "b_" ++ b.1 ++ "," ++ "\n") ++ ["root: root\n\x7d;" ++ "\n"]

/-- The lines that close the function `root`: for a child template the delegation to the
root of the parent, otherwise the return of the accumulator; then the closing brace. -/
def rootEnding (isChild : Bool) (buffer : String) : List String :=
  if isChild then
    ["return parentTemplate.rootRenderFunc(env, context, frame, runtime);" ++ "\n", "\x7d" ++ "\n"]
  else ["return " ++ buffer ++ ";" ++ "\n", "\x7d" ++ "\n"]

/-- The name and the body of a node that is a `Block`. -/
def Node.asBlock? : Node → Option (String × Node)
  | .Block name body => some (name, body)
  | _ => none

/-- What the block loop of `compileRoot` is to emit, as a relation between the frame of the
root and the state before the loop and after it: for each block found, in order, one
entry-point function `b_<name>` with the four parameters, which declares the accumulator,
resolves `l_super`, holds the compiled body of the block (compiled in a scope pushed on
the frame of the root, where `super` is bound) and returns the accumulator, `output`
unless the body changed it. -/
def entryPointsEmitted :
    List (String × Node) → Option Frame → Compiler → Option Frame → Compiler → Prop
  | [], fr, c, fr1, c1 => fr1 = fr ∧ c1 = c
  | (name, body) :: rest, fr, c, fr1, c1 =>
    ∃ f fb cb,
      fr = some f ∧
      compile body (some (f.set "super" "l_super").push)
        { c with
          codebuf := c.codebuf ++
            ["function " ++ "b_" ++ name ++ "(env, context, frame, runtime) \x7b" ++ "\n",
             "var output = \"\";" ++ "\n",
             "var l_super = context.getSuper(env, \"" ++ name ++ "\", " ++ "b_" ++ name ++
               ", runtime);" ++ "\n"]
          buffer := some "output" } = .ok fb cb ∧
      entryPointsEmitted rest (fb.bind Frame.pop)
        { cb with
          codebuf := cb.codebuf ++
            ["return " ++ cb.buffer.getD "null" ++ ";" ++ "\n", "\x7d" ++ "\n"]
          buffer := none } fr1 c1

/-! # Theorems

## Basic facts about methods -/

set_option linter.unusedTactic false
set_option linter.unreachableTactic false
set_option linter.unusedVariables false

@[simp] theorem bind_apply {α β : Type} (m : M α) (k : α → M β) (c : Compiler) :
    (m >>= k) c = match m c with | .ok a c1 => k a c1 | .threw e c1 => .threw e c1 :=
  id rfl
@[simp] theorem pure_apply {α : Type} (a : α) (c : Compiler) : (pure a : M α) c = .ok a c := rfl
@[simp] theorem pure_bind {α β : Type} (a : α) (k : α → M β) : (pure a >>= k) = k a := id rfl
@[simp] theorem raise_bind {α β : Type} (e : CompileError) (k : α → M β) :
    (raise e >>= k) = raise e := id rfl
@[simp] theorem raise_apply {α : Type} (e : CompileError) (c : Compiler) :
    (raise e : M α) c = .threw e c := rfl
@[simp] theorem emit_apply (s : String) (c : Compiler) :
    emit s c = .ok () { c with codebuf := c.codebuf ++ [s] } := rfl
@[simp] theorem emitLine_apply (s : String) (c : Compiler) :
    emitLine s c = .ok () { c with codebuf := c.codebuf ++ [s ++ "\n"] } := rfl
@[simp] theorem tmpid_apply (c : Compiler) :
    tmpid c = .ok (tmpName (c.lastId + 1))
      { c with lastId := c.lastId + 1, issued := c.issued ++ [tmpName (c.lastId + 1)] } := rfl
@[simp] theorem getIsChild_apply (c : Compiler) : getIsChild c = .ok c.isChild c := rfl
@[simp] theorem setIsChild_apply (c : Compiler) :
    setIsChild c = .ok () { c with isChild := true } := rfl
@[simp] theorem getBuffer_apply (c : Compiler) : getBuffer c = .ok c.buffer c := rfl
@[simp] theorem setBuffer_apply (b : Option String) (c : Compiler) :
    setBuffer b c = .ok () { c with buffer := b } := rfl
@[simp] theorem bufferText_apply (c : Compiler) :
    bufferText c = .ok (match c.buffer with | some b => b | none => "null") c := rfl

/-! The argument loops, one equation for each shape of the first child. -/

theorem emitCallArgs_positional (val : Option Node) (rest : List Node) (j : Nat)
    (fr : Option Frame) :
    emitCallArgs (.Pair none val :: rest) j fr =
      (do
        if j != 0 then
          emit ", "
        let frame ← compileNullable (match val with | some v => some (compile v) | none => none) fr
        emitCallArgs rest (j + 1) frame) := by
  cases val <;> rfl
theorem emitCallArgs_skip (n : Node) (rest : List Node) (j : Nat)
    (hn : n.isPositional = false) : emitCallArgs (n :: rest) j = emitCallArgs rest j := by
  cases n <;> first | rfl | (rename_i key val; cases key <;> first | rfl | simp [Node.isPositional] at hn)
theorem emitCallKwargs_keyword (name : Node) (val : Option Node) (rest : List Node)
    (fr : Option Frame) :
    emitCallKwargs (.Pair (some name) val :: rest) fr =
      (do
        emit name.valueJoined
        emit ": "
        let frame ← compileNullable (match val with | some v => some (compile v) | none => none) fr
        emitCallKwargs rest frame) := by
  cases val <;> rfl
theorem emitCallKwargs_skip (n : Node) (rest : List Node)
    (hn : n.isKeyword = false) : emitCallKwargs (n :: rest) = emitCallKwargs rest := by
  cases n <;> first | rfl | (rename_i key val; cases key <;> first | rfl | simp [Node.isKeyword] at hn)
theorem macroDefArgs_keyword (key : Node) (val : Option Node) (rest : List Node)
    (fr : Option Frame) :
    macroDefArgs (.Pair (some key) val :: rest) fr =
      (do
        emit ("[\"" ++ key.valueText ++ "\", ")
        let frame ← (match val with
          | some v => compile v fr
          | none => do
            emit "null"
            pure fr)
        emit "]"
        if !rest.isEmpty then
          emit ", "
        macroDefArgs rest frame) := by
  cases val <;> rfl
theorem macroDefArgs_skip (n : Node) (rest : List Node) (fr : Option Frame)
    (hn : n.isKeyword = false) : macroDefArgs (n :: rest) fr = raise .typeError := by
  cases n <;> first | rfl | (rename_i key val; cases key <;> first | rfl | simp [Node.isKeyword] at hn)
theorem isPositional_cases (n : Node) :
    (∃ val, n = .Pair none val) ∨ n.isPositional = false := by
  cases n <;> first | exact Or.inr rfl | (rename_i key val; cases key <;> first | exact Or.inl ⟨_, rfl⟩ | exact Or.inr rfl)
theorem isKeyword_cases (n : Node) :
    (∃ key val, n = .Pair (some key) val) ∨ n.isKeyword = false := by
  cases n <;> first | exact Or.inr rfl | (rename_i key val; cases key <;> first | exact Or.inl ⟨_, _, rfl⟩ | exact Or.inr rfl)

/-! ## What every step respects

`Gen R m` says that the state a method ends in, by return or by throw, is related by `R` to
the state it starts in, for a relation `R` that the elementary steps respect.  `GenF` adds,
for a method that is given a frame, that the frame it returns has the scope of the frame
given. -/

section
variable {R : Compiler → Compiler → Prop}

theorem gen_pure (h : StepRel R) {α : Type} (a : α) : Gen R (pure a : M α) := ⟨fun c => h.refl c⟩
theorem gen_raise (h : StepRel R) {α : Type} (e : CompileError) : Gen R (raise e : M α) :=
  ⟨fun c => h.refl c⟩
theorem gen_emit (h : StepRel R) (s : String) : Gen R (emit s) := ⟨fun c => h.emit s c⟩
theorem gen_emitLine (h : StepRel R) (s : String) : Gen R (emitLine s) := ⟨fun c => h.emit _ c⟩
theorem gen_tmpid (h : StepRel R) : Gen R tmpid := ⟨fun c => h.tmpid c⟩
theorem gen_getIsChild (h : StepRel R) : Gen R getIsChild := ⟨fun c => h.refl c⟩
theorem gen_setIsChild (h : StepRel R) : Gen R setIsChild := ⟨fun c => h.child c⟩
theorem gen_getBuffer (h : StepRel R) : Gen R getBuffer := ⟨fun c => h.refl c⟩
theorem gen_setBuffer (h : StepRel R) (b : Option String) : Gen R (setBuffer b) :=
  ⟨fun c => h.buffer b c⟩
theorem gen_bufferText (h : StepRel R) : Gen R bufferText := ⟨fun c => h.refl c⟩
theorem gen_bind (h : StepRel R) {α β : Type} {m : M α} {k : α → M β} (hm : Gen R m)
    (hk : ∀ a, Gen R (k a)) : Gen R (m >>= k) := by
  constructor
  intro c
  have h1 := hm.state c
  simp only [bind_apply]
  cases hmc : m c with
  | ok a c1 =>
    rw [hmc] at h1
    exact h.trans _ _ _ h1 ((hk a).state c1)
  | threw e c1 =>
    rw [hmc] at h1
    exact h1
theorem gen_ite {α : Type} {b : Prop} [Decidable b] {m1 m2 : M α} (h1 : Gen R m1)
    (h2 : Gen R m2) : Gen R (if b then m1 else m2) := by
  split <;> assumption

theorem sameScope_refl (fr : Option Frame) : sameScope fr fr := by
  cases fr <;> simp [sameScope]
theorem sameScope_trans {a b c : Option Frame} (h1 : sameScope a b) (h2 : sameScope b c) :
    sameScope a c := by
  cases a <;> cases b <;> cases c <;> simp_all [sameScope]

theorem genF_toGen {fr : Option Frame} {m : M (Option Frame)} (hm : GenF R fr m) : Gen R m :=
  ⟨hm.state⟩
theorem genF_pureOf (h : StepRel R) {fr x : Option Frame} (hs : sameScope fr x) :
    GenF R fr (pure x) := by
  refine ⟨fun c => h.refl c, ?_⟩
  intro c fr1 c1 e
  simp only [pure_apply, Res.ok.injEq] at e
  cases e.1
  exact hs
theorem genF_pure (h : StepRel R) (fr : Option Frame) : GenF R fr (pure fr) :=
  genF_pureOf h (sameScope_refl fr)
theorem genF_raise (h : StepRel R) (fr : Option Frame) (e : CompileError) :
    GenF R fr (raise e) := by
  refine ⟨fun c => h.refl c, ?_⟩
  intro c fr1 c1 e
  simp at e
theorem genF_seq (h : StepRel R) {α : Type} {fr : Option Frame} {m : M α}
    {k : α → M (Option Frame)} (hm : Gen R m) (hk : ∀ a, GenF R fr (k a)) :
    GenF R fr (m >>= k) := by
  constructor
  · exact (gen_bind h hm fun a => genF_toGen (hk a)).state
  · intro c fr1 c1
    simp only [bind_apply]
    cases hmc : m c with
    | ok a c2 => exact (hk a).scope c2 fr1 c1
    | threw e c2 => intro e; simp at e
theorem genF_bindS (h : StepRel R) {fr fr1 : Option Frame} {m : M (Option Frame)}
    {k : Option Frame → M (Option Frame)}
    (hm : GenF R fr1 m) (hk : ∀ fr2, sameScope fr1 fr2 → GenF R fr (k fr2)) :
    GenF R fr (m >>= k) := by
  constructor
  · intro c
    have h1 := hm.state c
    simp only [bind_apply]
    cases hmc : m c with
    | ok a c1 =>
      rw [hmc] at h1
      exact h.trans _ _ _ h1 ((hk a (hm.scope c a c1 hmc)).state c1)
    | threw e c1 =>
      rw [hmc] at h1
      exact h1
  · intro c fr2 c2
    simp only [bind_apply]
    cases hmc : m c with
    | ok a c1 => exact (hk a (hm.scope c a c1 hmc)).scope c1 fr2 c2
    | threw e c1 => intro e; simp at e
theorem genF_of_sameScope {fr fr1 : Option Frame} {m : M (Option Frame)}
    (hs : sameScope fr fr1) (hm : GenF R fr1 m) : GenF R fr m :=
  ⟨hm.state, fun c f2 c2 e => sameScope_trans hs (hm.scope c f2 c2 e)⟩
theorem genF_bind (h : StepRel R) {fr : Option Frame} {m : M (Option Frame)}
    {k : Option Frame → M (Option Frame)}
    (hm : GenF R fr m) (hk : ∀ fr1, GenF R fr1 (k fr1)) : GenF R fr (m >>= k) :=
  genF_bindS h hm fun fr2 hs => genF_of_sameScope hs (hk fr2)
theorem genF_ite {fr : Option Frame} {b : Prop} [Decidable b] {m1 m2 : M (Option Frame)}
    (h1 : GenF R fr m1) (h2 : GenF R fr m2) : GenF R fr (if b then m1 else m2) := by
  split <;> assumption

attribute [irreducible] M.bind

theorem gen_compileLiteral (h : StepRel R) (v : JsValue) : Gen R (compileLiteral v) := by
  cases v <;> exact gen_emit h _
theorem gen_requireFrame (h : StepRel R) (fr : Option Frame) : Gen R (requireFrame fr) := by
  cases fr <;> first | exact gen_pure h _ | exact gen_raise h _
theorem gen_assertType (h : StepRel R) (n : Option Node) (ts : List String) :
    Gen R (assertType n ts) := by
  cases n with
  | none => exact gen_raise h _
  | some n => exact gen_ite (gen_pure h _) (gen_raise h _)
theorem gen_assertExpression (h : StepRel R) (n : Option Node) : Gen R (assertExpression n) :=
  gen_assertType h n _
theorem gen_checkArgs (h : StepRel R) (cs : List Node) : Gen R (checkArgs cs) := by
  unfold checkArgs
  split <;> first | exact gen_pure h _ | exact gen_raise h _
theorem gen_compileSymbol (h : StepRel R) (name : String) (fr : Option Frame) :
    Gen R (compileSymbol name fr) := by
  unfold compileSymbol
  refine gen_bind h (gen_requireFrame h fr) ?_
  intro f
  split
  · split <;> exact gen_emit h _
  · exact gen_emit h _
theorem gen_emitFuncBegin (h : StepRel R) (name : String) : Gen R (emitFuncBegin name) := by
  unfold emitFuncBegin
  have hx := h; have hy := h; have hz := h
  repeat' (first | assumption | exact genF_pure h _ | exact genF_raise h _ _ | exact gen_pure h _ | exact gen_raise h _ | exact gen_emit h _ | exact gen_emitLine h _ | exact gen_tmpid h | exact gen_getIsChild h | exact gen_setIsChild h | exact gen_getBuffer h | exact gen_setBuffer h _ | exact gen_bufferText h | apply hx | apply hy | apply hz | apply genF_ite | apply gen_ite | apply genF_bind h | apply genF_seq h | apply gen_bind h | intro _)
theorem gen_emitFuncEnd (h : StepRel R) (b : Bool) : Gen R (emitFuncEnd b) := by
  unfold emitFuncEnd
  have hx := h; have hy := h; have hz := h
  repeat' (first | assumption | exact genF_pure h _ | exact genF_raise h _ _ | exact gen_pure h _ | exact gen_raise h _ | exact gen_emit h _ | exact gen_emitLine h _ | exact gen_tmpid h | exact gen_getIsChild h | exact gen_setIsChild h | exact gen_getBuffer h | exact gen_setBuffer h _ | exact gen_bufferText h | apply hx | apply hy | apply hz | apply genF_ite | apply gen_ite | apply genF_bind h | apply genF_seq h | apply gen_bind h | intro _)
theorem gen_emitSetTargets (h : StepRel R) (val : String) :
    ∀ ts, Gen R (emitSetTargets val ts)
  | [] => gen_pure h _
  | t :: rest => by
    have hx := gen_emitSetTargets h val rest
    have hy := h; have hz := h
    unfold emitSetTargets
    repeat' (first | assumption | exact genF_pure h _ | exact genF_raise h _ _ | exact gen_pure h _ | exact gen_raise h _ | exact gen_emit h _ | exact gen_emitLine h _ | exact gen_tmpid h | exact gen_getIsChild h | exact gen_setIsChild h | exact gen_getBuffer h | exact gen_setBuffer h _ | exact gen_bufferText h | apply hx | apply hy | apply hz | apply genF_ite | apply gen_ite | apply genF_bind h | apply genF_seq h | apply gen_bind h | intro _)
theorem gen_emitBundle (h : StepRel R) : ∀ bs, Gen R (emitBundle bs)
  | [] => gen_pure h _
  | (name, _) :: rest => by
    have hx := gen_emitBundle h rest
    have hy := h; have hz := h
    unfold emitBundle
    repeat' (first | assumption | exact genF_pure h _ | exact genF_raise h _ _ | exact gen_pure h _ | exact gen_raise h _ | exact gen_emit h _ | exact gen_emitLine h _ | exact gen_tmpid h | exact gen_getIsChild h | exact gen_setIsChild h | exact gen_getBuffer h | exact gen_setBuffer h _ | exact gen_bufferText h | apply hx | apply hy | apply hz | apply genF_ite | apply gen_ite | apply genF_bind h | apply genF_seq h | apply gen_bind h | intro _)
theorem gen_emitKeyValueLoop (h : StepRel R) (i arr k v a b : String) :
    Gen R (emitKeyValueLoop i arr k v a b) := by
  unfold emitKeyValueLoop
  have hx := h; have hy := h; have hz := h
  repeat' (first | assumption | exact genF_pure h _ | exact genF_raise h _ _ | exact gen_pure h _ | exact gen_raise h _ | exact gen_emit h _ | exact gen_emitLine h _ | exact gen_tmpid h | exact gen_getIsChild h | exact gen_setIsChild h | exact gen_getBuffer h | exact gen_setBuffer h _ | exact gen_bufferText h | apply hx | apply hy | apply hz | apply genF_ite | apply gen_ite | apply genF_bind h | apply genF_seq h | apply gen_bind h | intro _)
theorem gen_emitSequentialLoop (h : StepRel R) (i arr v a : String) :
    Gen R (emitSequentialLoop i arr v a) := by
  unfold emitSequentialLoop
  have hx := h; have hy := h; have hz := h
  repeat' (first | assumption | exact genF_pure h _ | exact genF_raise h _ _ | exact gen_pure h _ | exact gen_raise h _ | exact gen_emit h _ | exact gen_emitLine h _ | exact gen_tmpid h | exact gen_getIsChild h | exact gen_setIsChild h | exact gen_getBuffer h | exact gen_setBuffer h _ | exact gen_bufferText h | apply hx | apply hy | apply hz | apply genF_ite | apply gen_ite | apply genF_bind h | apply genF_seq h | apply gen_bind h | intro _)

theorem Frame.pop_set (name val : String) (f : Frame) : (f.set name val).pop = f.pop := by
  cases f <;> rfl
theorem genF_frameSet (h : StepRel R) (name val : String) (fr : Option Frame) :
    GenF R fr (frameSet name val fr) := by
  cases fr with
  | none =>
    simp only [frameSet, requireFrame, raise_bind]
    exact genF_raise h _ _
  | some f =>
    simp only [frameSet, requireFrame, pure_bind]
    apply genF_pureOf h
    simp [sameScope, Frame.pop_set]
theorem genF_emitFromImports (h : StepRel R) :
    ∀ cs fr, GenF R fr (emitFromImports cs fr) := by
  intro cs
  induction cs with
  | nil => intro fr; exact genF_pure h fr
  | cons n rest ih =>
    intro fr
    have hx := ih
    have hy := genF_frameSet h
    have hz := h
    unfold emitFromImports
    split
    · repeat' (first | assumption | exact genF_pure h _ | exact genF_raise h _ _ | exact gen_pure h _ | exact gen_raise h _ | exact gen_emit h _ | exact gen_emitLine h _ | exact gen_tmpid h | exact gen_getIsChild h | exact gen_setIsChild h | exact gen_getBuffer h | exact gen_setBuffer h _ | exact gen_bufferText h | apply hx | apply hy | apply hz | apply genF_ite | apply gen_ite | apply genF_bind h | apply genF_seq h | apply gen_bind h | intro _)
    · exact genF_raise h _ _

theorem compileNullable_gen (h : StepRel R) {sub : Option Sub}
    (hx : ∀ s, sub = some s → ∀ fr, GenF R fr (s fr)) (fr : Option Frame) :
    GenF R fr (compileNullable sub fr) := by
  cases sub with
  | none => exact genF_raise h _ _
  | some s => exact hx s rfl fr
theorem compileExpression_gen (h : StepRel R) (n : Node) {sub : Sub}
    (hx : ∀ fr, GenF R fr (sub fr)) (fr : Option Frame) :
    GenF R fr (compileExpression n sub fr) := by
  unfold compileExpression
  exact genF_seq h (gen_assertExpression h _) (fun _ => hx fr)
theorem compileAgg_gen (h : StepRel R) (kind : AggKind) {items : Sub}
    (hx : ∀ fr, GenF R fr (items fr)) (fr : Option Frame) :
    GenF R fr (compileAgg kind items fr) := by
  unfold compileAgg
  have hy := h; have hz := h
  repeat' (first | assumption | exact genF_pure h _ | exact genF_raise h _ _ | exact gen_pure h _ | exact gen_raise h _ | exact gen_emit h _ | exact gen_emitLine h _ | exact gen_tmpid h | exact gen_getIsChild h | exact gen_setIsChild h | exact gen_getBuffer h | exact gen_setBuffer h _ | exact gen_bufferText h | apply hx | apply hy | apply hz | apply genF_ite | apply gen_ite | apply genF_bind h | apply genF_seq h | apply gen_bind h | intro _)
theorem gen_compilePairKey (h : StepRel R) (key val : Option Node) :
    Gen R (compilePairKey key val) := by
  unfold compilePairKey
  split
  · exact gen_compileLiteral h _
  · exact gen_ite (gen_compileLiteral h _) (gen_raise h _)
  · exact gen_raise h _
theorem compilePair_gen (h : StepRel R) (key val : Option Node) {value : Option Sub}
    (h1 : ∀ s, value = some s → ∀ fr, GenF R fr (s fr)) (fr : Option Frame) :
    GenF R fr (compilePair key val value fr) := by
  unfold compilePair
  have hx := compileNullable_gen h h1
  have hy := gen_assertExpression h val
  have hz := gen_compilePairKey h key val
  repeat' (first | assumption | exact genF_pure h _ | exact genF_raise h _ _ | exact gen_pure h _ | exact gen_raise h _ | exact gen_emit h _ | exact gen_emitLine h _ | exact gen_tmpid h | exact gen_getIsChild h | exact gen_setIsChild h | exact gen_getBuffer h | exact gen_setBuffer h _ | exact gen_bufferText h | apply hx | apply hy | apply hz | apply genF_ite | apply gen_ite | apply genF_bind h | apply genF_seq h | apply gen_bind h | intro _)
theorem compileBin_gen (h : StepRel R) (kind : BinKind) {left right : Sub}
    (hx : ∀ fr, GenF R fr (left fr)) (hy : ∀ fr, GenF R fr (right fr)) (fr : Option Frame) :
    GenF R fr (compileBin kind left right fr) := by
  unfold compileBin
  have hz := h
  cases kind <;> repeat' (first | assumption | exact genF_pure h _ | exact genF_raise h _ _ | exact gen_pure h _ | exact gen_raise h _ | exact gen_emit h _ | exact gen_emitLine h _ | exact gen_tmpid h | exact gen_getIsChild h | exact gen_setIsChild h | exact gen_getBuffer h | exact gen_setBuffer h _ | exact gen_bufferText h | apply hx | apply hy | apply hz | apply genF_ite | apply gen_ite | apply genF_bind h | apply genF_seq h | apply gen_bind h | intro _)
theorem compileUnary_gen (h : StepRel R) (kind : UnaryKind) {target : Sub}
    (hx : ∀ fr, GenF R fr (target fr)) (fr : Option Frame) :
    GenF R fr (compileUnary kind target fr) := by
  unfold compileUnary
  have hy := h; have hz := h
  repeat' (first | assumption | exact genF_pure h _ | exact genF_raise h _ _ | exact gen_pure h _ | exact gen_raise h _ | exact gen_emit h _ | exact gen_emitLine h _ | exact gen_tmpid h | exact gen_getIsChild h | exact gen_setIsChild h | exact gen_getBuffer h | exact gen_setBuffer h _ | exact gen_bufferText h | apply hx | apply hy | apply hz | apply genF_ite | apply gen_ite | apply genF_bind h | apply genF_seq h | apply gen_bind h | intro _)
theorem compileCompare_gen (h : StepRel R) {expr ops : Sub}
    (hx : ∀ fr, GenF R fr (expr fr)) (hy : ∀ fr, GenF R fr (ops fr)) (fr : Option Frame) :
    GenF R fr (compileCompare expr ops fr) := by
  unfold compileCompare
  have hz := h
  repeat' (first | assumption | exact genF_pure h _ | exact genF_raise h _ _ | exact gen_pure h _ | exact gen_raise h _ | exact gen_emit h _ | exact gen_emitLine h _ | exact gen_tmpid h | exact gen_getIsChild h | exact gen_setIsChild h | exact gen_getBuffer h | exact gen_setBuffer h _ | exact gen_bufferText h | apply hx | apply hy | apply hz | apply genF_ite | apply gen_ite | apply genF_bind h | apply genF_seq h | apply gen_bind h | intro _)
theorem compileLookupVal_gen (h : StepRel R) (target val : Node) {ts vs : Sub}
    (h1 : ∀ fr, GenF R fr (ts fr)) (h2 : ∀ fr, GenF R fr (vs fr)) (fr : Option Frame) :
    GenF R fr (compileLookupVal target val ts vs fr) := by
  unfold compileLookupVal
  have hx := compileExpression_gen h target h1
  have hy := compileExpression_gen h val h2
  have hz := h
  repeat' (first | assumption | exact genF_pure h _ | exact genF_raise h _ _ | exact gen_pure h _ | exact gen_raise h _ | exact gen_emit h _ | exact gen_emitLine h _ | exact gen_tmpid h | exact gen_getIsChild h | exact gen_setIsChild h | exact gen_getBuffer h | exact gen_setBuffer h _ | exact gen_bufferText h | apply hx | apply hy | apply hz | apply genF_ite | apply gen_ite | apply genF_bind h | apply genF_seq h | apply gen_bind h | intro _)
theorem emitWrappedExpression_gen (h : StepRel R) (name : Node) {ns : Sub}
    (h1 : ∀ fr, GenF R fr (ns fr)) (fr : Option Frame) :
    GenF R fr (emitWrappedExpression name ns fr) := by
  unfold emitWrappedExpression
  have hx := compileExpression_gen h name h1
  have hy := h; have hz := h
  repeat' (first | assumption | exact genF_pure h _ | exact genF_raise h _ _ | exact gen_pure h _ | exact gen_raise h _ | exact gen_emit h _ | exact gen_emitLine h _ | exact gen_tmpid h | exact gen_getIsChild h | exact gen_setIsChild h | exact gen_getBuffer h | exact gen_setBuffer h _ | exact gen_bufferText h | apply hx | apply hy | apply hz | apply genF_ite | apply gen_ite | apply genF_bind h | apply genF_seq h | apply gen_bind h | intro _)
theorem emitCallArgsIn_gen (h : StepRel R) {args : Sub}
    (hx : ∀ fr, GenF R fr (args fr)) (fr : Option Frame) (a b : String) :
    GenF R fr (emitCallArgsIn args fr a b) := by
  unfold emitCallArgsIn
  have hy := h; have hz := h
  repeat' (first | assumption | exact genF_pure h _ | exact genF_raise h _ _ | exact gen_pure h _ | exact gen_raise h _ | exact gen_emit h _ | exact gen_emitLine h _ | exact gen_tmpid h | exact gen_getIsChild h | exact gen_setIsChild h | exact gen_getBuffer h | exact gen_setBuffer h _ | exact gen_bufferText h | apply hx | apply hy | apply hz | apply genF_ite | apply gen_ite | apply genF_bind h | apply genF_seq h | apply gen_bind h | intro _)
theorem emitCallKwargsIn_gen (h : StepRel R) {kwargs : Sub}
    (hx : ∀ fr, GenF R fr (kwargs fr)) (fr : Option Frame) :
    GenF R fr (emitCallKwargsIn kwargs fr) := by
  unfold emitCallKwargsIn
  have hy := h; have hz := h
  repeat' (first | assumption | exact genF_pure h _ | exact genF_raise h _ _ | exact gen_pure h _ | exact gen_raise h _ | exact gen_emit h _ | exact gen_emitLine h _ | exact gen_tmpid h | exact gen_getIsChild h | exact gen_setIsChild h | exact gen_getBuffer h | exact gen_setBuffer h _ | exact gen_bufferText h | apply hx | apply hy | apply hz | apply genF_ite | apply gen_ite | apply genF_bind h | apply genF_seq h | apply gen_bind h | intro _)
theorem compileFunCall_gen (h : StepRel R) (name : Node) (children : List Node)
    {ns args kwargs : Sub}
    (h1 : ∀ fr, GenF R fr (ns fr)) (h2 : ∀ fr, GenF R fr (args fr))
    (h3 : ∀ fr, GenF R fr (kwargs fr)) (fr : Option Frame) :
    GenF R fr (compileFunCall name children ns args kwargs fr) := by
  unfold compileFunCall
  have hx := emitWrappedExpression_gen h name h1
  have hy := fun fr a b => emitCallArgsIn_gen h h2 fr a b
  have hz := emitCallKwargsIn_gen h h3
  have hc := gen_checkArgs h children
  repeat' (first | assumption | exact genF_pure h _ | exact genF_raise h _ _ | exact gen_pure h _ | exact gen_raise h _ | exact gen_emit h _ | exact gen_emitLine h _ | exact gen_tmpid h | exact gen_getIsChild h | exact gen_setIsChild h | exact gen_getBuffer h | exact gen_setBuffer h _ | exact gen_bufferText h | apply hx | apply hy | apply hz | apply genF_ite | apply gen_ite | apply genF_bind h | apply genF_seq h | apply gen_bind h | intro _)
theorem compileFilter_gen (h : StepRel R) (name : Node) (children : List Node) {args : Sub}
    (h2 : ∀ fr, GenF R fr (args fr)) (fr : Option Frame) :
    GenF R fr (compileFilter name children args fr) := by
  unfold compileFilter
  have hx := fun fr a b => emitCallArgsIn_gen h h2 fr a b
  have hy := gen_checkArgs h children
  have hz := gen_assertType h
  repeat' (first | assumption | exact genF_pure h _ | exact genF_raise h _ _ | exact gen_pure h _ | exact gen_raise h _ | exact gen_emit h _ | exact gen_emitLine h _ | exact gen_tmpid h | exact gen_getIsChild h | exact gen_setIsChild h | exact gen_getBuffer h | exact gen_setBuffer h _ | exact gen_bufferText h | apply hx | apply hy | apply hz | apply genF_ite | apply gen_ite | apply genF_bind h | apply genF_seq h | apply gen_bind h | intro _)
theorem compileSet_gen (h : StepRel R) (targets : List String) (value : Node) {vs : Sub}
    (h1 : ∀ fr, GenF R fr (vs fr)) (fr : Option Frame) :
    GenF R fr (compileSet targets value vs fr) := by
  unfold compileSet
  have hx := genF_toGen (compileExpression_gen h value h1 none)
  have hy := gen_emitSetTargets h
  have hz := h
  refine genF_seq h (gen_tmpid h) ?_
  intro val
  refine genF_seq h (gen_emit h _) ?_
  intro _
  refine genF_seq h hx ?_
  intro _
  repeat' (first | assumption | exact genF_pure h _ | exact genF_raise h _ _ | exact gen_pure h _ | exact gen_raise h _ | exact gen_emit h _ | exact gen_emitLine h _ | exact gen_tmpid h | exact gen_getIsChild h | exact gen_setIsChild h | exact gen_getBuffer h | exact gen_setBuffer h _ | exact gen_bufferText h | apply hx | apply hy | apply hz | apply genF_ite | apply gen_ite | apply genF_bind h | apply genF_seq h | apply gen_bind h | intro _)
theorem compileIf_gen (h : StepRel R) (cond : Node) {cs body : Sub} {else_ : Option Sub}
    (h1 : ∀ fr, GenF R fr (cs fr)) (hy : ∀ fr, GenF R fr (body fr))
    (hz : ∀ s, else_ = some s → ∀ fr, GenF R fr (s fr)) (fr : Option Frame) :
    GenF R fr (compileIf cond cs body else_ fr) := by
  unfold compileIf
  have hx := compileExpression_gen h cond h1
  cases else_ with
  | none =>
    have hz := h
    repeat' (first | assumption | exact genF_pure h _ | exact genF_raise h _ _ | exact gen_pure h _ | exact gen_raise h _ | exact gen_emit h _ | exact gen_emitLine h _ | exact gen_tmpid h | exact gen_getIsChild h | exact gen_setIsChild h | exact gen_getBuffer h | exact gen_setBuffer h _ | exact gen_bufferText h | apply hx | apply hy | apply hz | apply genF_ite | apply gen_ite | apply genF_bind h | apply genF_seq h | apply gen_bind h | intro _)
  | some s =>
    have hz := hz s rfl
    repeat' (first | assumption | exact genF_pure h _ | exact genF_raise h _ _ | exact gen_pure h _ | exact gen_raise h _ | exact gen_emit h _ | exact gen_emitLine h _ | exact gen_tmpid h | exact gen_getIsChild h | exact gen_setIsChild h | exact gen_getBuffer h | exact gen_setBuffer h _ | exact gen_bufferText h | apply hx | apply hy | apply hz | apply genF_ite | apply gen_ite | apply genF_bind h | apply genF_seq h | apply gen_bind h | intro _)
theorem bindKeyValue_gen (h : StepRel R) (i arr k v : String) (children : List Node)
    (fr : Option Frame) : GenF R fr (bindKeyValue i arr k v children fr) := by
  have hx := genF_frameSet h
  have hy := gen_emitKeyValueLoop h
  have hz := h
  unfold bindKeyValue
  split
  · repeat' (first | assumption | exact genF_pure h _ | exact genF_raise h _ _ | exact gen_pure h _ | exact gen_raise h _ | exact gen_emit h _ | exact gen_emitLine h _ | exact gen_tmpid h | exact gen_getIsChild h | exact gen_setIsChild h | exact gen_getBuffer h | exact gen_setBuffer h _ | exact gen_bufferText h | apply hx | apply hy | apply hz | apply genF_ite | apply gen_ite | apply genF_bind h | apply genF_seq h | apply gen_bind h | intro _)
  · exact genF_raise h _ _
theorem compileForTarget_gen (h : StepRel R) (i arr : String) (name : Node)
    (fr : Option Frame) : GenF R fr (compileForTarget i arr name fr) := by
  have hx := genF_frameSet h
  have hy := bindKeyValue_gen h
  have hz := gen_emitSequentialLoop h
  unfold compileForTarget
  split
  · repeat' (first | assumption | exact genF_pure h _ | exact genF_raise h _ _ | exact gen_pure h _ | exact gen_raise h _ | exact gen_emit h _ | exact gen_emitLine h _ | exact gen_tmpid h | exact gen_getIsChild h | exact gen_setIsChild h | exact gen_getBuffer h | exact gen_setBuffer h _ | exact gen_bufferText h | apply hx | apply hy | apply hz | apply genF_ite | apply gen_ite | apply genF_bind h | apply genF_seq h | apply gen_bind h | intro _)
  · repeat' (first | assumption | exact genF_pure h _ | exact genF_raise h _ _ | exact gen_pure h _ | exact gen_raise h _ | exact gen_emit h _ | exact gen_emitLine h _ | exact gen_tmpid h | exact gen_getIsChild h | exact gen_setIsChild h | exact gen_getBuffer h | exact gen_setBuffer h _ | exact gen_bufferText h | apply hx | apply hy | apply hz | apply genF_ite | apply gen_ite | apply genF_bind h | apply genF_seq h | apply gen_bind h | intro _)
theorem pop_of_sameScope_push {outer : Frame} {fr : Option Frame}
    (hs : sameScope (some outer.push) fr) : fr.bind Frame.pop = some outer := by
  cases fr with
  | none => simp [sameScope] at hs
  | some b =>
    simp only [sameScope, Frame.push, Frame.pop] at hs
    simpa [Frame.pop] using hs.symm
theorem compileFor_gen (h : StepRel R) (arr name : Node) {as body : Sub}
    (h1 : ∀ fr, GenF R fr (as fr)) (h2 : ∀ fr, GenF R fr (body fr)) (fr : Option Frame) :
    GenF R fr (compileFor arr name as body fr) := by
  unfold compileFor
  refine genF_seq h (gen_tmpid h) fun i => ?_
  refine genF_seq h (gen_tmpid h) fun arrId => ?_
  cases fr with
  | none =>
    simp only [requireFrame, raise_bind]
    exact genF_raise h _ _
  | some outer =>
    simp only [requireFrame, pure_bind]
    refine genF_seq h (gen_emitLine h _) fun _ => ?_
    refine genF_seq h (gen_emit h _) fun _ => ?_
    refine genF_bindS h (compileExpression_gen h arr h1 _) fun f1 s1 => ?_
    refine genF_seq h (gen_emitLine h _) fun _ => ?_
    refine genF_bindS h (compileForTarget_gen h _ _ _ _) fun f2 s2 => ?_
    refine genF_bindS h (h2 _) fun f3 s3 => ?_
    refine genF_seq h (gen_emitLine h _) fun _ => ?_
    refine genF_seq h (gen_emitLine h _) fun _ => ?_
    refine genF_pureOf h ?_
    rw [pop_of_sameScope_push (sameScope_trans (sameScope_trans s1 s2) s3)]
    exact sameScope_refl _
theorem pop_foldl_set (g : String → String) (args : List String) :
    ∀ f : Frame, (args.foldl (fun f a => f.set a (g a)) f).pop = f.pop := by
  induction args with
  | nil => intro f; rfl
  | cons a rest ih => intro f; simp only [List.foldl_cons, ih, Frame.pop_set]
theorem macroBody_gen (h : StepRel R) (children : List Node) {body : Sub}
    (h2 : ∀ fr, GenF R fr (body fr)) (outer : Frame) :
    GenF R (some outer.push) (macroBody children body (some outer)) := by
  simp only [macroBody, requireFrame, pure_bind]
  refine genF_seq h (gen_emitLine h _) fun _ => ?_
  cases macroParams children with
  | none =>
    simp only [raise_bind]
    exact genF_raise h _ _
  | some args =>
    simp only [pure_bind]
    refine genF_seq h (gen_emitLine h _) fun _ => ?_
    refine genF_seq h (gen_getBuffer h) fun old => ?_
    refine genF_seq h (gen_setBuffer h _) fun _ => ?_
    refine genF_seq h (gen_bufferText h) fun _ => ?_
    refine genF_seq h (gen_emitLine h _) fun _ => ?_
    refine genF_bindS h (h2 _) fun f1 s1 => ?_
    refine genF_seq h (gen_bufferText h) fun _ => ?_
    refine genF_seq h (gen_emitLine h _) fun _ => ?_
    refine genF_seq h (gen_emitLine h _) fun _ => ?_
    refine genF_seq h (gen_setBuffer h _) fun _ => ?_
    refine genF_seq h (gen_emitLine h _) fun _ => ?_
    refine genF_pureOf h (sameScope_trans ?_ s1)
    simp only [sameScope, pop_foldl_set]
theorem macroDef_gen (h : StepRel R) (name : String) {defArgs : Sub}
    (hx : ∀ fr, GenF R fr (defArgs fr)) (fr : Option Frame) :
    GenF R fr (macroDef name defArgs fr) := by
  unfold macroDef
  have hy := h; have hz := h
  repeat' (first | assumption | exact genF_pure h _ | exact genF_raise h _ _ | exact gen_pure h _ | exact gen_raise h _ | exact gen_emit h _ | exact gen_emitLine h _ | exact gen_tmpid h | exact gen_getIsChild h | exact gen_setIsChild h | exact gen_getBuffer h | exact gen_setBuffer h _ | exact gen_bufferText h | apply hx | apply hy | apply hz | apply genF_ite | apply gen_ite | apply genF_bind h | apply genF_seq h | apply gen_bind h | intro _)
theorem compileMacro_gen (h : StepRel R) (name : String) (children : List Node)
    {body defArgs : Sub} (h1 : ∀ fr, GenF R fr (body fr))
    (h2 : ∀ fr, GenF R fr (defArgs fr)) (fr : Option Frame) :
    GenF R fr (compileMacro name children body defArgs fr) := by
  cases fr with
  | none =>
    simp only [compileMacro, macroBody, requireFrame, raise_bind]
    exact genF_raise h _ _
  | some outer =>
    unfold compileMacro
    refine genF_bindS h (macroBody_gen h children h1 outer) fun f1 s1 => ?_
    refine genF_seq h (gen_emit h _) fun _ => ?_
    refine genF_bindS h (macroDef_gen h name h2 f1) fun f2 s2 => ?_
    rw [pop_of_sameScope_push (sameScope_trans s1 s2)]
    have hx := genF_frameSet h
    have hy := h; have hz := h
    repeat' (first | assumption | exact genF_pure h _ | exact genF_raise h _ _ | exact gen_pure h _ | exact gen_raise h _ | exact gen_emit h _ | exact gen_emitLine h _ | exact gen_tmpid h | exact gen_getIsChild h | exact gen_setIsChild h | exact gen_getBuffer h | exact gen_setBuffer h _ | exact gen_bufferText h | apply hx | apply hy | apply hz | apply genF_ite | apply gen_ite | apply genF_bind h | apply genF_seq h | apply gen_bind h | intro _)
theorem compileImport_gen (h : StepRel R) (target : String) {ts : Sub}
    (hx : ∀ fr, GenF R fr (ts fr)) (fr : Option Frame) :
    GenF R fr (compileImport target ts fr) := by
  unfold compileImport
  have hy := genF_frameSet h
  have hz := h
  repeat' (first | assumption | exact genF_pure h _ | exact genF_raise h _ _ | exact gen_pure h _ | exact gen_raise h _ | exact gen_emit h _ | exact gen_emitLine h _ | exact gen_tmpid h | exact gen_getIsChild h | exact gen_setIsChild h | exact gen_getBuffer h | exact gen_setBuffer h _ | exact gen_bufferText h | apply hx | apply hy | apply hz | apply genF_ite | apply gen_ite | apply genF_bind h | apply genF_seq h | apply gen_bind h | intro _)
theorem compileFromImport_gen (h : StepRel R) (children : List Node) {ts : Sub}
    (hx : ∀ fr, GenF R fr (ts fr)) (fr : Option Frame) :
    GenF R fr (compileFromImport children ts fr) := by
  unfold compileFromImport
  have hy := genF_emitFromImports h
  have hz := h
  repeat' (first | assumption | exact genF_pure h _ | exact genF_raise h _ _ | exact gen_pure h _ | exact gen_raise h _ | exact gen_emit h _ | exact gen_emitLine h _ | exact gen_tmpid h | exact gen_getIsChild h | exact gen_setIsChild h | exact gen_getBuffer h | exact gen_setBuffer h _ | exact gen_bufferText h | apply hx | apply hy | apply hz | apply genF_ite | apply gen_ite | apply genF_bind h | apply genF_seq h | apply gen_bind h | intro _)
theorem compileBlock_gen (h : StepRel R) (name : String) (fr : Option Frame) :
    GenF R fr (compileBlock name fr) := by
  unfold compileBlock
  have hx := h; have hy := h; have hz := h
  repeat' (first | assumption | exact genF_pure h _ | exact genF_raise h _ _ | exact gen_pure h _ | exact gen_raise h _ | exact gen_emit h _ | exact gen_emitLine h _ | exact gen_tmpid h | exact gen_getIsChild h | exact gen_setIsChild h | exact gen_getBuffer h | exact gen_setBuffer h _ | exact gen_bufferText h | apply hx | apply hy | apply hz | apply genF_ite | apply gen_ite | apply genF_bind h | apply genF_seq h | apply gen_bind h | intro _)
theorem compileExtends_gen (h : StepRel R) (template : Node) {ts : Sub}
    (h1 : ∀ fr, GenF R fr (ts fr)) (fr : Option Frame) :
    GenF R fr (compileExtends template ts fr) := by
  unfold compileExtends
  have hx := compileExpression_gen h template h1
  have hy := h; have hz := h
  repeat' (first | assumption | exact genF_pure h _ | exact genF_raise h _ _ | exact gen_pure h _ | exact gen_raise h _ | exact gen_emit h _ | exact gen_emitLine h _ | exact gen_tmpid h | exact gen_getIsChild h | exact gen_setIsChild h | exact gen_getBuffer h | exact gen_setBuffer h _ | exact gen_bufferText h | apply hx | apply hy | apply hz | apply genF_ite | apply gen_ite | apply genF_bind h | apply genF_seq h | apply gen_bind h | intro _)
theorem compileInclude_gen (h : StepRel R) (template : Node) {ts : Sub}
    (h1 : ∀ fr, GenF R fr (ts fr)) (fr : Option Frame) :
    GenF R fr (compileInclude template ts fr) := by
  unfold compileInclude
  have hx := compileExpression_gen h template h1
  have hy := h; have hz := h
  repeat' (first | assumption | exact genF_pure h _ | exact genF_raise h _ _ | exact gen_pure h _ | exact gen_raise h _ | exact gen_emit h _ | exact gen_emitLine h _ | exact gen_tmpid h | exact gen_getIsChild h | exact gen_setIsChild h | exact gen_getBuffer h | exact gen_setBuffer h _ | exact gen_bufferText h | apply hx | apply hy | apply hz | apply genF_ite | apply gen_ite | apply genF_bind h | apply genF_seq h | apply gen_bind h | intro _)
theorem compileOutput_gen (h : StepRel R) {cs : Sub}
    (hx : ∀ fr, GenF R fr (cs fr)) (fr : Option Frame) :
    GenF R fr (compileOutput cs fr) := by
  unfold compileOutput
  have hy := h; have hz := h
  repeat' (first | assumption | exact genF_pure h _ | exact genF_raise h _ _ | exact gen_pure h _ | exact gen_raise h _ | exact gen_emit h _ | exact gen_emitLine h _ | exact gen_tmpid h | exact gen_getIsChild h | exact gen_setIsChild h | exact gen_getBuffer h | exact gen_setBuffer h _ | exact gen_bufferText h | apply hx | apply hy | apply hz | apply genF_ite | apply gen_ite | apply genF_bind h | apply genF_seq h | apply gen_bind h | intro _)
theorem compileBlockFunction_gen (h : StepRel R) (name : String) {body : Sub}
    (h1 : ∀ fr, GenF R fr (body fr)) (fr : Option Frame) :
    GenF R fr (compileBlockFunction name body fr) := by
  unfold compileBlockFunction
  refine genF_seq h (gen_emitFuncBegin h _) fun _ => ?_
  refine genF_seq h (gen_emitLine h _) fun _ => ?_
  refine genF_bindS h (genF_frameSet h _ _ fr) fun f1 s1 => ?_
  refine genF_bindS h (h1 _) fun f2 s2 => ?_
  refine genF_seq h (gen_emitFuncEnd h _) fun _ => ?_
  refine genF_pureOf h ?_
  cases f1 with
  | none =>
    cases f2 with
    | none => exact s1
    | some g => simp [sameScope] at s2
  | some g =>
    have e : f2.bind Frame.pop = some g := pop_of_sameScope_push s2
    rw [e]
    exact s1
theorem compileRoot_gen (h : StepRel R) (nodes : List Node) {children blocks : Sub}
    (h1 : ∀ fr, GenF R fr (children fr)) (h2 : ∀ fr, GenF R fr (blocks fr))
    (fr : Option Frame) : GenF R fr (compileRoot nodes children blocks fr) := by
  cases fr with
  | some f => exact genF_raise h _ _
  | none =>
    simp only [compileRoot]
    repeat' (first | exact genF_pure h _ | exact gen_pure h _ | exact gen_emitLine h _ | exact gen_getIsChild h | exact gen_emitFuncBegin h _ | exact gen_emitFuncEnd h _ | exact gen_emitBundle h _ | exact genF_toGen (h1 _) | exact genF_toGen (h2 _) | apply genF_ite | apply genF_seq h | intro _)

/-! ### The loops and the dispatch -/

theorem compileChildren_gen (h : StepRel R) :
    ∀ cs, (∀ n, sizeOf n < sizeOf cs → ∀ fr, GenF R fr (compile n fr)) →
      ∀ fr, GenF R fr (compileChildren cs fr) := by
  intro cs
  induction cs with
  | nil => intro _ fr; simp only [compileChildren]; exact genF_pure h fr
  | cons n rest ih =>
    intro hcs fr
    simp only [compileChildren]
    exact genF_bind h (hcs n (by simp; omega) fr)
      (ih fun m hm => hcs m (by simp; omega))
theorem compileAggregate_gen (h : StepRel R) :
    ∀ cs, (∀ n, sizeOf n < sizeOf cs → ∀ fr, GenF R fr (compile n fr)) →
      ∀ i fr, GenF R fr (compileAggregate cs i fr) := by
  intro cs
  induction cs with
  | nil => intro _ i fr; simp only [compileAggregate]; exact genF_pure h fr
  | cons n rest ih =>
    intro hcs i fr
    have hx := hcs n (by simp; omega)
    have hy := ih (fun m hm => hcs m (by simp; omega))
    have hz := h
    simp only [compileAggregate]
    repeat' (first | assumption | exact genF_pure h _ | exact genF_raise h _ _ | exact gen_pure h _ | exact gen_raise h _ | exact gen_emit h _ | exact gen_emitLine h _ | exact gen_tmpid h | exact gen_getIsChild h | exact gen_setIsChild h | exact gen_getBuffer h | exact gen_setBuffer h _ | exact gen_bufferText h | apply hx | apply hy | apply hz | apply genF_ite | apply gen_ite | apply genF_bind h | apply genF_seq h | apply gen_bind h | intro _)
theorem compileOps_gen (h : StepRel R) :
    ∀ ops : List (String × Node),
      (∀ n, sizeOf n < sizeOf ops → ∀ fr, GenF R fr (compile n fr)) →
      ∀ fr, GenF R fr (compileOps ops fr) := by
  intro ops
  induction ops with
  | nil => intro _ fr; simp only [compileOps]; exact genF_pure h fr
  | cons o rest ih =>
    obtain ⟨op, e⟩ := o
    intro hcs fr
    simp only [compileOps]
    refine genF_seq h (gen_emit h _) fun _ => ?_
    exact genF_bind h (hcs e (by simp; omega) _)
      (ih (fun m hm => hcs m (by simp; omega)))
theorem emitCallArgs_gen (h : StepRel R) :
    ∀ cs, (∀ n, sizeOf n < sizeOf cs → ∀ fr, GenF R fr (compile n fr)) →
      ∀ j fr, GenF R fr (emitCallArgs cs j fr) := by
  intro cs
  induction cs with
  | nil => intro _ j fr; exact genF_pure h fr
  | cons n rest ih =>
    intro hcs j fr
    have hy := ih (fun m hm => hcs m (by simp; omega))
    have hz := h
    rcases isPositional_cases n with ⟨val, rfl⟩ | hn
    · cases val with
      | none =>
        have hx : ∀ fr, GenF R fr (compileNullable none fr) := fun fr => genF_raise h _ _
        rw [emitCallArgs_positional]
        repeat' (first | assumption | exact genF_pure h _ | exact genF_raise h _ _ | exact gen_pure h _ | exact gen_raise h _ | exact gen_emit h _ | exact gen_emitLine h _ | exact gen_tmpid h | exact gen_getIsChild h | exact gen_setIsChild h | exact gen_getBuffer h | exact gen_setBuffer h _ | exact gen_bufferText h | apply hx | apply hy | apply hz | apply genF_ite | apply gen_ite | apply genF_bind h | apply genF_seq h | apply gen_bind h | intro _)
      | some v =>
        have hx : ∀ fr, GenF R fr (compileNullable (some (compile v)) fr) :=
          hcs v (by simp; omega)
        rw [emitCallArgs_positional]
        repeat' (first | assumption | exact genF_pure h _ | exact genF_raise h _ _ | exact gen_pure h _ | exact gen_raise h _ | exact gen_emit h _ | exact gen_emitLine h _ | exact gen_tmpid h | exact gen_getIsChild h | exact gen_setIsChild h | exact gen_getBuffer h | exact gen_setBuffer h _ | exact gen_bufferText h | apply hx | apply hy | apply hz | apply genF_ite | apply gen_ite | apply genF_bind h | apply genF_seq h | apply gen_bind h | intro _)
    · rw [emitCallArgs_skip n rest j hn]
      exact hy j fr
theorem emitCallKwargs_gen (h : StepRel R) :
    ∀ cs, (∀ n, sizeOf n < sizeOf cs → ∀ fr, GenF R fr (compile n fr)) →
      ∀ fr, GenF R fr (emitCallKwargs cs fr) := by
  intro cs
  induction cs with
  | nil => intro _ fr; exact genF_pure h fr
  | cons n rest ih =>
    intro hcs fr
    have hy := ih (fun m hm => hcs m (by simp; omega))
    have hz := h
    rcases isKeyword_cases n with ⟨key, val, rfl⟩ | hn
    · cases val with
      | none =>
        have hx : ∀ fr, GenF R fr (compileNullable none fr) := fun fr => genF_raise h _ _
        rw [emitCallKwargs_keyword]
        repeat' (first | assumption | exact genF_pure h _ | exact genF_raise h _ _ | exact gen_pure h _ | exact gen_raise h _ | exact gen_emit h _ | exact gen_emitLine h _ | exact gen_tmpid h | exact gen_getIsChild h | exact gen_setIsChild h | exact gen_getBuffer h | exact gen_setBuffer h _ | exact gen_bufferText h | apply hx | apply hy | apply hz | apply genF_ite | apply gen_ite | apply genF_bind h | apply genF_seq h | apply gen_bind h | intro _)
      | some v =>
        have hx : ∀ fr, GenF R fr (compileNullable (some (compile v)) fr) :=
          hcs v (by simp; omega)
        rw [emitCallKwargs_keyword]
        repeat' (first | assumption | exact genF_pure h _ | exact genF_raise h _ _ | exact gen_pure h _ | exact gen_raise h _ | exact gen_emit h _ | exact gen_emitLine h _ | exact gen_tmpid h | exact gen_getIsChild h | exact gen_setIsChild h | exact gen_getBuffer h | exact gen_setBuffer h _ | exact gen_bufferText h | apply hx | apply hy | apply hz | apply genF_ite | apply gen_ite | apply genF_bind h | apply genF_seq h | apply gen_bind h | intro _)
    · rw [emitCallKwargs_skip n rest hn]
      exact hy fr
theorem macroDefArgs_gen (h : StepRel R) :
    ∀ cs, (∀ n, sizeOf n < sizeOf cs → ∀ fr, GenF R fr (compile n fr)) →
      ∀ fr, GenF R fr (macroDefArgs cs fr) := by
  intro cs
  induction cs with
  | nil => intro _ fr; exact genF_pure h fr
  | cons n rest ih =>
    intro hcs fr
    have hy := ih (fun m hm => hcs m (by simp; omega))
    have hz := h
    rcases isKeyword_cases n with ⟨key, val, rfl⟩ | hn
    · rw [macroDefArgs_keyword]
      cases val with
      | none =>
        have hx := h
        repeat' (first | assumption | exact genF_pure h _ | exact genF_raise h _ _ | exact gen_pure h _ | exact gen_raise h _ | exact gen_emit h _ | exact gen_emitLine h _ | exact gen_tmpid h | exact gen_getIsChild h | exact gen_setIsChild h | exact gen_getBuffer h | exact gen_setBuffer h _ | exact gen_bufferText h | apply hx | apply hy | apply hz | apply genF_ite | apply gen_ite | apply genF_bind h | apply genF_seq h | apply gen_bind h | intro _)
      | some v =>
        have hx := hcs v (by simp; omega)
        repeat' (first | assumption | exact genF_pure h _ | exact genF_raise h _ _ | exact gen_pure h _ | exact gen_raise h _ | exact gen_emit h _ | exact gen_emitLine h _ | exact gen_tmpid h | exact gen_getIsChild h | exact gen_setIsChild h | exact gen_getBuffer h | exact gen_setBuffer h _ | exact gen_bufferText h | apply hx | apply hy | apply hz | apply genF_ite | apply gen_ite | apply genF_bind h | apply genF_seq h | apply gen_bind h | intro _)
    · rw [macroDefArgs_skip n rest fr hn]
      exact genF_raise h _ _

theorem noBlocks_gen (h : StepRel R) (fr : Option Frame) : GenF R fr (noBlocks fr) :=
  genF_pure h fr
theorem andThen_gen (h : StepRel R) {a b : Sub} (ha : ∀ fr, GenF R fr (a fr))
    (hb : ∀ fr, GenF R fr (b fr)) (fr : Option Frame) : GenF R fr (andThen a b fr) :=
  genF_bind h (ha fr) hb
theorem compileBlocksList_gen (h : StepRel R) :
    ∀ cs, (∀ n, sizeOf n < sizeOf cs → ∀ fr, GenF R fr (compileBlocks n fr)) →
      ∀ fr, GenF R fr (compileBlocksList cs fr) := by
  intro cs
  induction cs with
  | nil => intro _ fr; simp only [compileBlocksList]; exact genF_pure h fr
  | cons n rest ih =>
    intro hcs fr
    simp only [compileBlocksList]
    exact andThen_gen h (hcs n (by simp; omega))
      (ih fun m hm => hcs m (by simp; omega)) fr
theorem compileBlocksOps_gen (h : StepRel R) :
    ∀ ops : List (String × Node),
      (∀ n, sizeOf n < sizeOf ops → ∀ fr, GenF R fr (compileBlocks n fr)) →
      ∀ fr, GenF R fr (compileBlocksOps ops fr) := by
  intro ops
  induction ops with
  | nil => intro _ fr; simp only [compileBlocksOps]; exact genF_pure h fr
  | cons o rest ih =>
    obtain ⟨op, e⟩ := o
    intro hcs fr
    simp only [compileBlocksOps]
    exact andThen_gen h (hcs e (by simp; omega))
      (ih (fun m hm => hcs m (by simp; omega))) fr

theorem compile_gen_aux (h : StepRel R) :
    ∀ (k : Nat),
      (∀ n : Node, sizeOf n < k → ∀ fr, GenF R fr (compile n fr)) ∧
      (∀ n : Node, sizeOf n < k → ∀ fr, GenF R fr (compileBlocks n fr)) := by
  intro k
  induction k with
  | zero => exact ⟨fun n hn => by omega, fun n hn => by omega⟩
  | succ k ihk =>
    obtain ⟨ih, ihb⟩ := ihk
    constructor
    · intro n hn fr
      cases n with
      | NodeList children =>
        simp only [compile]
        exact compileChildren_gen h children (fun m hm => ih m (by simp at hn; omega)) fr
      | Literal value =>
        simp only [compile]
        exact genF_seq h (gen_compileLiteral h _) fun _ => genF_pure h _
      | Symbol name =>
        simp only [compile]
        exact genF_seq h (gen_compileSymbol h _ _) fun _ => genF_pure h _
      | Agg kind children =>
        simp only [compile]
        exact compileAgg_gen h kind
          (compileAggregate_gen h children (fun m hm => ih m (by simp at hn; omega)) 0) fr
      | Pair key val =>
        cases val with
        | none =>
          simp only [compile]
          exact compilePair_gen h key none (fun s hs => by simp at hs) fr
        | some v =>
          simp only [compile]
          refine compilePair_gen h key (some v) ?_ fr
          intro s hs
          simp only [Option.some.injEq] at hs
          subst hs
          exact ih v (by simp at hn; omega)
      | Bin kind left right =>
        simp only [compile]
        exact compileBin_gen h kind (ih left (by simp at hn; omega))
          (ih right (by simp at hn; omega)) fr
      | Unary kind target =>
        simp only [compile]
        exact compileUnary_gen h kind (ih target (by simp at hn; omega)) fr
      | Compare expr ops =>
        simp only [compile]
        exact compileCompare_gen h (ih expr (by simp at hn; omega))
          (compileOps_gen h ops (fun m hm => ih m (by simp at hn; omega))) fr
      | LookupVal target val =>
        simp only [compile]
        exact compileLookupVal_gen h target val (ih target (by simp at hn; omega))
          (ih val (by simp at hn; omega)) fr
      | FunCall name children =>
        simp only [compile]
        exact compileFunCall_gen h name children (ih name (by simp at hn; omega))
          (emitCallArgs_gen h children (fun m hm => ih m (by simp at hn; omega)) 0)
          (emitCallKwargs_gen h children (fun m hm => ih m (by simp at hn; omega))) fr
      | Filter name children =>
        simp only [compile]
        exact compileFilter_gen h name children
          (emitCallArgs_gen h children (fun m hm => ih m (by simp at hn; omega)) 0) fr
      | Set targets value =>
        simp only [compile]
        exact compileSet_gen h targets value (ih value (by simp at hn; omega)) fr
      | If cond body else_ =>
        cases else_ with
        | none =>
          simp only [compile]
          exact compileIf_gen h cond (ih cond (by simp at hn; omega))
            (ih body (by simp at hn; omega)) (fun s hs => by simp at hs) fr
        | some v =>
          simp only [compile]
          refine compileIf_gen h cond (ih cond (by simp at hn; omega))
            (ih body (by simp at hn; omega)) ?_ fr
          intro s hs
          simp only [Option.some.injEq] at hs
          subst hs
          exact ih v (by simp at hn; omega)
      | For arr name body =>
        simp only [compile]
        exact compileFor_gen h arr name (ih arr (by simp at hn; omega))
          (ih body (by simp at hn; omega)) fr
      | Macro name children body =>
        simp only [compile]
        exact compileMacro_gen h name children (ih body (by simp at hn; omega))
          (macroDefArgs_gen h children (fun m hm => ih m (by simp at hn; omega))) fr
      | Import template target =>
        simp only [compile]
        exact compileImport_gen h target (ih template (by simp at hn; omega)) fr
      | FromImport template children =>
        simp only [compile]
        exact compileFromImport_gen h children (ih template (by simp at hn; omega)) fr
      | Block name body =>
        simp only [compile]
        exact compileBlock_gen h name fr
      | Extends template =>
        simp only [compile]
        exact compileExtends_gen h template (ih template (by simp at hn; omega)) fr
      | Include template =>
        simp only [compile]
        exact compileInclude_gen h template (ih template (by simp at hn; omega)) fr
      | Output children =>
        simp only [compile]
        exact compileOutput_gen h
          (compileChildren_gen h children (fun m hm => ih m (by simp at hn; omega))) fr
      | TemplateData value =>
        simp only [compile]
        exact genF_seq h (gen_compileLiteral h _) fun _ => genF_pure h _
      | Root children =>
        simp only [compile]
        exact compileRoot_gen h children
          (compileChildren_gen h children (fun m hm => ih m (by simp at hn; omega)))
          (compileBlocksList_gen h children (fun m hm => ihb m (by simp at hn; omega))) fr
    · intro n hn fr
      have hl : ∀ cs : List Node, sizeOf cs < k + 1 → ∀ fr, GenF R fr (compileBlocksList cs fr) :=
        fun cs hcs => compileBlocksList_gen h cs (fun m hm => ihb m (by omega))
      cases n with
      | NodeList children => simp only [compileBlocks]; exact hl children (by simp at hn; omega) fr
      | Literal value => simp only [compileBlocks]; exact genF_pure h _
      | Symbol name => simp only [compileBlocks]; exact genF_pure h _
      | Agg kind children => simp only [compileBlocks]; exact hl children (by simp at hn; omega) fr
      | Pair key val =>
        cases key <;> cases val <;> simp only [compileBlocks] <;>
          refine andThen_gen h ?_ ?_ fr <;>
          first | exact noBlocks_gen h | exact ihb _ (by simp at hn; omega)
      | Bin kind left right =>
        simp only [compileBlocks]
        exact andThen_gen h (ihb left (by simp at hn; omega)) (ihb right (by simp at hn; omega)) fr
      | Unary kind target => simp only [compileBlocks]; exact ihb target (by simp at hn; omega) fr
      | Compare expr ops =>
        simp only [compileBlocks]
        exact andThen_gen h (ihb expr (by simp at hn; omega)) (compileBlocksOps_gen h ops (fun m hm => ihb m (by simp at hn; omega))) fr
      | LookupVal target val =>
        simp only [compileBlocks]
        exact andThen_gen h (ihb target (by simp at hn; omega)) (ihb val (by simp at hn; omega)) fr
      | FunCall name children =>
        simp only [compileBlocks]
        exact andThen_gen h (ihb name (by simp at hn; omega)) (hl children (by simp at hn; omega)) fr
      | Filter name children =>
        simp only [compileBlocks]
        exact andThen_gen h (ihb name (by simp at hn; omega)) (hl children (by simp at hn; omega)) fr
      | Set targets value => simp only [compileBlocks]; exact ihb value (by simp at hn; omega) fr
      | If cond body else_ =>
        cases else_ <;> simp only [compileBlocks] <;>
          refine andThen_gen h (ihb cond (by simp at hn; omega)) (andThen_gen h (ihb body (by simp at hn; omega)) ?_) fr <;>
          first | exact noBlocks_gen h | exact ihb _ (by simp at hn; omega)
      | For arr name body =>
        simp only [compileBlocks]
        exact andThen_gen h (ihb arr (by simp at hn; omega)) (andThen_gen h (ihb name (by simp at hn; omega)) (ihb body (by simp at hn; omega))) fr
      | Macro name children body =>
        simp only [compileBlocks]
        exact andThen_gen h (hl children (by simp at hn; omega)) (ihb body (by simp at hn; omega)) fr
      | Import template target => simp only [compileBlocks]; exact ihb template (by simp at hn; omega) fr
      | FromImport template children =>
        simp only [compileBlocks]
        exact andThen_gen h (ihb template (by simp at hn; omega)) (hl children (by simp at hn; omega)) fr
      | Block name body =>
        simp only [compileBlocks]
        exact andThen_gen h (compileBlockFunction_gen h name (ih body (by simp at hn; omega))) (ihb body (by simp at hn; omega)) fr
      | Extends template => simp only [compileBlocks]; exact ihb template (by simp at hn; omega) fr
      | Include template => simp only [compileBlocks]; exact ihb template (by simp at hn; omega) fr
      | Output children => simp only [compileBlocks]; exact hl children (by simp at hn; omega) fr
      | TemplateData value => simp only [compileBlocks]; exact genF_pure h _
      | Root children => simp only [compileBlocks]; exact hl children (by simp at hn; omega) fr

/-- Every call of `compile` relates the state it ends in to the state it starts in, and
returns a frame with the scope of the frame it was given. -/
theorem compile_gen (h : StepRel R) (n : Node) (fr : Option Frame) :
    GenF R fr (compile n fr) :=
  (compile_gen_aux h (sizeOf n + 1)).1 n (Nat.lt_succ_self _) fr
theorem compileChildren_genF (h : StepRel R) (cs : List Node) (fr : Option Frame) :
    GenF R fr (compileChildren cs fr) :=
  compileChildren_gen h cs (fun n _ => compile_gen h n) fr
theorem compileBlocks_gen (h : StepRel R) (n : Node) (fr : Option Frame) :
    GenF R fr (compileBlocks n fr) :=
  (compile_gen_aux h (sizeOf n + 1)).2 n (Nat.lt_succ_self _) fr
theorem compileBlocksList_genF (h : StepRel R) (cs : List Node) (fr : Option Frame) :
    GenF R fr (compileBlocksList cs fr) :=
  compileBlocksList_gen h cs (fun n _ => compileBlocks_gen h n) fr

end

/-! ## The child flag, the accumulator and the error of the root -/

section
variable {keep : Bool}

theorem spec_of_eq {keep : Bool} {s k s1 k1 : Nat} {α : Type} {m : M α} (h : Spec keep s k m)
    (hs : s = s1) (hk : k = k1) : Spec keep s1 k1 m := by
  subst hs; subst hk; exact h
theorem spec_of_state {keep : Bool} {α : Type} {m : M α}
    (h : ∀ c, ∃ a c1, m c = .ok a c1 ∧ c1.isChild = c.isChild ∧ c1.buffer = c.buffer) :
    Spec keep 0 0 m := by
  refine ⟨?_, ?_⟩
  · intro c a1 c1 e
    obtain ⟨a, c2, h1, h2, h3⟩ := h c
    rw [h1] at e
    simp only [Res.ok.injEq] at e
    obtain ⟨-, rfl⟩ := e
    rw [h2, h3]
    cases c.isChild <;> simp
  · intro c e c1 h1
    obtain ⟨a, c2, h2, -⟩ := h c
    rw [h2] at h1
    simp at h1
theorem spec_pure {α : Type} (a : α) : Spec keep 0 0 (pure a : M α) :=
  spec_of_state fun c => ⟨a, c, rfl, rfl, rfl⟩
theorem spec_emit (s : String) : Spec keep 0 0 (emit s) :=
  spec_of_state fun c => ⟨_, _, rfl, rfl, rfl⟩
theorem spec_emitLine (s : String) : Spec keep 0 0 (emitLine s) :=
  spec_of_state fun c => ⟨_, _, rfl, rfl, rfl⟩
theorem spec_tmpid : Spec keep 0 0 tmpid :=
  spec_of_state fun c => ⟨_, _, rfl, rfl, rfl⟩
theorem spec_getIsChild : Spec keep 0 0 getIsChild :=
  spec_of_state fun c => ⟨_, _, rfl, rfl, rfl⟩
theorem spec_getBuffer : Spec keep 0 0 getBuffer :=
  spec_of_state fun c => ⟨_, _, rfl, rfl, rfl⟩
theorem spec_bufferText : Spec keep 0 0 bufferText :=
  spec_of_state fun c => ⟨_, _, rfl, rfl, rfl⟩
theorem spec_raise {α : Type} (e : CompileError) (h1 : e ≠ .cannotExtend)
    (h2 : e ≠ .rootFrame) : Spec keep 0 0 (raise e : M α) := by
  refine ⟨?_, ?_⟩
  · intro c a c1 h
    simp at h
  · intro c e1 c1 h
    simp only [raise_apply, Res.threw.injEq] at h
    obtain ⟨rfl, -⟩ := h
    exact ⟨fun he => absurd he h1, h2⟩
theorem spec_bind {s1 k1 s2 k2 : Nat} {α β : Type} {m : M α} {f : α → M β}
    (hm : Spec keep s1 k1 m) (hf : ∀ a, Spec keep s2 k2 (f a)) : Spec keep (s1 + s2) (k1 + k2) (m >>= f) := by
  refine ⟨?_, ?_⟩
  · intro c b c2
    simp only [bind_apply]
    cases hmc : m c with
    | threw e c1 => intro h; simp at h
    | ok a c1 =>
      intro h
      obtain ⟨h1a, h1s, h1b, h1c⟩ := hm.ok c a c1 hmc
      obtain ⟨h2a, h2s, h2b, h2c⟩ := (hf a).ok c1 b c2 h
      refine ⟨?_, ?_, ?_, fun hk => by rw [h2c hk, h1c hk]⟩
      · by_cases hs1 : 1 ≤ s1
        · rw [h1s hs1] at h2a
          simp at h2a
          omega
        · have : c.isChild.toNat ≤ c1.isChild.toNat := by
            rw [h1b]; cases c.isChild <;> simp
          omega
      · intro hs
        by_cases hs1 : 1 ≤ s1
        · rw [h2b, h1s hs1]; simp
        · exact h2s (by omega)
      · rw [h2b, h1b]
        cases hc : c.isChild <;> simp
        by_cases hk1 : 1 ≤ k1 <;> by_cases hk2 : 1 ≤ k2 <;> simp [hk1, hk2] <;> omega
  · intro c e c2
    simp only [bind_apply]
    cases hmc : m c with
    | threw e1 c1 =>
      intro h
      simp only [Res.threw.injEq] at h
      obtain ⟨rfl, rfl⟩ := h
      have h1 := hm.threw c e1 c1 hmc
      exact ⟨fun he => by have := h1.1 he; omega, h1.2⟩
    | ok a c1 =>
      intro h
      have h1 := hm.ok c a c1 hmc
      have h2 := (hf a).threw c1 e c2 h
      refine ⟨fun he => ?_, h2.2⟩
      have h3 := h2.1 he
      rw [h1.2.2.1] at h3
      cases hc : c.isChild <;> simp [hc] at h3 ⊢
      · by_cases hk1 : 1 ≤ k1
        · simp [hk1] at h3; omega
        · simp [hk1] at h3; omega
      · omega
theorem spec_ite {s k : Nat} {α : Type} {b : Prop} [Decidable b] {m1 m2 : M α}
    (h1 : Spec keep s k m1) (h2 : Spec keep s k m2) : Spec keep s k (if b then m1 else m2) := by
  split <;> assumption

theorem spec_of_le {s k s1 k1 : Nat} {α : Type} {m : M α} (h : Spec keep s k m) (hs : s1 ≤ s)
    (hk : k = k1) : Spec keep s1 k1 m := by
  subst hk
  refine ⟨?_, h.threw⟩
  intro c a c1 e
  obtain ⟨h1, h2, h3, h4⟩ := h.ok c a c1 e
  exact ⟨by omega, fun hs1 => h2 (by omega), h3, h4⟩
theorem spec_compileLiteral (v : JsValue) : Spec keep 0 0 (compileLiteral v) := by
  cases v <;> exact spec_emit _
theorem spec_requireFrame (fr : Option Frame) : Spec keep 0 0 (requireFrame fr) := by
  cases fr <;> first | exact spec_pure _ | exact spec_raise _ (by simp) (by simp)
theorem spec_assertType (n : Option Node) (ts : List String) : Spec keep 0 0 (assertType n ts) := by
  cases n with
  | none => exact spec_raise _ (by simp) (by simp)
  | some n => exact spec_ite (spec_pure _) (spec_raise _ (by simp) (by simp))
theorem spec_assertExpression (n : Option Node) : Spec keep 0 0 (assertExpression n) :=
  spec_assertType n _
theorem spec_checkArgs (cs : List Node) : Spec keep 0 0 (checkArgs cs) := by
  unfold checkArgs
  split <;> first | exact spec_pure _ | exact spec_raise _ (by simp) (by simp)
theorem spec_compileSymbol (name : String) (fr : Option Frame) :
    Spec keep 0 0 (compileSymbol name fr) := by
  cases fr with
  | none =>
    simp only [compileSymbol, requireFrame, raise_bind]
    exact spec_raise _ (by simp) (by simp)
  | some f =>
    simp only [compileSymbol, requireFrame, pure_bind]
    split
    · exact spec_ite (spec_emit _) (spec_emit _)
    · exact spec_emit _
theorem spec_emitSetTargets (val : String) :
    ∀ ts, Spec keep 0 0 (emitSetTargets val ts) := by
  intro ts
  induction ts with
  | nil => exact spec_pure _
  | cons t rest ih =>
    have hx := ih
    have hy := hx; have hz := hx
    unfold emitSetTargets
    apply spec_of_le
    · repeat' (first | exact spec_pure _ | exact spec_emit _ | exact spec_emitLine _ | exact spec_tmpid | exact spec_getIsChild | exact spec_getBuffer | exact spec_bufferText | exact spec_raise _ (by simp) (by simp) | apply hx | apply hy | apply hz | apply spec_ite | apply spec_bind | intro _)
    all_goals omega
theorem spec_emitKeyValueLoop (i arr k v a b : String) :
    Spec keep 0 0 (emitKeyValueLoop i arr k v a b) := by
  unfold emitKeyValueLoop
  have hx := @spec_pure keep _ (); have hy := hx; have hz := hx
  apply spec_of_le
  · repeat' (first | exact spec_pure _ | exact spec_emit _ | exact spec_emitLine _ | exact spec_tmpid | exact spec_getIsChild | exact spec_getBuffer | exact spec_bufferText | exact spec_raise _ (by simp) (by simp) | apply hx | apply hy | apply hz | apply spec_ite | apply spec_bind | intro _)
  all_goals omega
theorem spec_emitSequentialLoop (i arr v a : String) :
    Spec keep 0 0 (emitSequentialLoop i arr v a) := by
  unfold emitSequentialLoop
  have hx := @spec_pure keep _ (); have hy := hx; have hz := hx
  apply spec_of_le
  · repeat' (first | exact spec_pure _ | exact spec_emit _ | exact spec_emitLine _ | exact spec_tmpid | exact spec_getIsChild | exact spec_getBuffer | exact spec_bufferText | exact spec_raise _ (by simp) (by simp) | apply hx | apply hy | apply hz | apply spec_ite | apply spec_bind | intro _)
  all_goals omega
theorem spec_frameSet (name val : String) (fr : Option Frame) :
    Spec keep 0 0 (frameSet name val fr) := by
  cases fr with
  | none =>
    simp only [frameSet, requireFrame, raise_bind]
    exact spec_raise _ (by simp) (by simp)
  | some f =>
    simp only [frameSet, requireFrame, pure_bind]
    exact spec_pure _
theorem spec_emitFromImports : ∀ cs fr, Spec keep 0 0 (emitFromImports cs fr) := by
  intro cs
  induction cs with
  | nil => intro fr; exact spec_pure _
  | cons n rest ih =>
    intro fr
    have hx := ih
    have hy := @spec_frameSet keep
    have hz := ih
    unfold emitFromImports
    split
    · apply spec_of_le
      · repeat' (first | exact spec_pure _ | exact spec_emit _ | exact spec_emitLine _ | exact spec_tmpid | exact spec_getIsChild | exact spec_getBuffer | exact spec_bufferText | exact spec_raise _ (by simp) (by simp) | apply hx | apply hy | apply hz | apply spec_ite | apply spec_bind | intro _)
      all_goals omega
    · exact spec_raise _ (by simp) (by simp)
theorem compileNullable_spec {s k : Nat} {sub : Option Sub}
    (hx : ∀ x, sub = some x → ∀ fr, Spec keep s k (x fr)) (fr : Option Frame) :
    Spec keep 0 k (compileNullable sub fr) := by
  cases sub with
  | none =>
    refine ⟨?_, ?_⟩
    · intro c a c1 h
      simp [compileNullable] at h
    · intro c e1 c1 h
      simp only [compileNullable, raise_apply, Res.threw.injEq] at h
      obtain ⟨rfl, -⟩ := h
      simp
  | some x => exact spec_of_le (hx x rfl fr) (Nat.zero_le _) rfl
theorem compileExpression_spec {s k : Nat} (n : Node) {sub : Sub}
    (h1 : ∀ fr, Spec keep s k (sub fr)) (fr : Option Frame) :
    Spec keep 0 k (compileExpression n sub fr) := by
  unfold compileExpression
  have hx := h1; have hy := @spec_assertExpression keep; have hz := h1
  apply spec_of_le
  · repeat' (first | exact spec_pure _ | exact spec_emit _ | exact spec_emitLine _ | exact spec_tmpid | exact spec_getIsChild | exact spec_getBuffer | exact spec_bufferText | exact spec_raise _ (by simp) (by simp) | apply hx | apply hy | apply hz | apply spec_ite | apply spec_bind | intro _)
  all_goals omega
theorem compileAgg_spec {s k : Nat} (kind : AggKind) {items : Sub}
    (hx : ∀ fr, Spec keep s k (items fr)) (fr : Option Frame) :
    Spec keep 0 k (compileAgg kind items fr) := by
  unfold compileAgg
  have hy := hx; have hz := hx
  apply spec_of_le
  · repeat' (first | exact spec_pure _ | exact spec_emit _ | exact spec_emitLine _ | exact spec_tmpid | exact spec_getIsChild | exact spec_getBuffer | exact spec_bufferText | exact spec_raise _ (by simp) (by simp) | apply hx | apply hy | apply hz | apply spec_ite | apply spec_bind | intro _)
  all_goals omega
theorem spec_compilePairKey (key val : Option Node) : Spec keep 0 0 (compilePairKey key val) := by
  unfold compilePairKey
  split
  · exact spec_compileLiteral _
  · exact spec_ite (spec_compileLiteral _) (spec_raise _ (by simp) (by simp))
  · exact spec_raise _ (by simp) (by simp)
theorem compilePair_spec {s k : Nat} (key val : Option Node) {value : Option Sub}
    (h1 : ∀ x, value = some x → ∀ fr, Spec keep s k (x fr)) (fr : Option Frame) :
    Spec keep 0 k (compilePair key val value fr) := by
  unfold compilePair
  have hx := compileNullable_spec h1
  have hy := @spec_assertExpression keep val
  have hz := @spec_compilePairKey keep key val
  apply spec_of_le
  · repeat' (first | exact spec_pure _ | exact spec_emit _ | exact spec_emitLine _ | exact spec_tmpid | exact spec_getIsChild | exact spec_getBuffer | exact spec_bufferText | exact spec_raise _ (by simp) (by simp) | apply hx | apply hy | apply hz | apply spec_ite | apply spec_bind | intro _)
  all_goals omega
theorem compileBin_spec (kind : BinKind) {left right : Sub} {s1 k1 s2 k2 : Nat}
    (hx : ∀ fr, Spec keep s1 k1 (left fr)) (hy : ∀ fr, Spec keep s2 k2 (right fr)) (fr : Option Frame) :
    Spec keep 0 (k1 + k2) (compileBin kind left right fr) := by
  unfold compileBin
  have hz := hx
  cases kind
  all_goals
    apply spec_of_le
    · repeat' (first | exact spec_pure _ | exact spec_emit _ | exact spec_emitLine _ | exact spec_tmpid | exact spec_getIsChild | exact spec_getBuffer | exact spec_bufferText | exact spec_raise _ (by simp) (by simp) | apply hx | apply hy | apply hz | apply spec_ite | apply spec_bind | intro _)
    all_goals omega
theorem compileUnary_spec (kind : UnaryKind) {target : Sub} {s k : Nat}
    (hx : ∀ fr, Spec keep s k (target fr)) (fr : Option Frame) :
    Spec keep 0 k (compileUnary kind target fr) := by
  unfold compileUnary
  have hy := hx; have hz := hx
  apply spec_of_le
  · repeat' (first | exact spec_pure _ | exact spec_emit _ | exact spec_emitLine _ | exact spec_tmpid | exact spec_getIsChild | exact spec_getBuffer | exact spec_bufferText | exact spec_raise _ (by simp) (by simp) | apply hx | apply hy | apply hz | apply spec_ite | apply spec_bind | intro _)
  all_goals omega
theorem compileCompare_spec {expr ops : Sub} {s1 k1 s2 k2 : Nat}
    (hx : ∀ fr, Spec keep s1 k1 (expr fr)) (hy : ∀ fr, Spec keep s2 k2 (ops fr)) (fr : Option Frame) :
    Spec keep 0 (k1 + k2) (compileCompare expr ops fr) := by
  unfold compileCompare
  have hz := hx
  apply spec_of_le
  · repeat' (first | exact spec_pure _ | exact spec_emit _ | exact spec_emitLine _ | exact spec_tmpid | exact spec_getIsChild | exact spec_getBuffer | exact spec_bufferText | exact spec_raise _ (by simp) (by simp) | apply hx | apply hy | apply hz | apply spec_ite | apply spec_bind | intro _)
  all_goals omega
theorem compileLookupVal_spec (target val : Node) {ts vs : Sub} {s1 k1 s2 k2 : Nat}
    (h1 : ∀ fr, Spec keep s1 k1 (ts fr)) (h2 : ∀ fr, Spec keep s2 k2 (vs fr)) (fr : Option Frame) :
    Spec keep 0 (k1 + k2) (compileLookupVal target val ts vs fr) := by
  unfold compileLookupVal
  have hx := compileExpression_spec target h1
  have hy := compileExpression_spec val h2
  have hz := hx
  apply spec_of_le
  · repeat' (first | exact spec_pure _ | exact spec_emit _ | exact spec_emitLine _ | exact spec_tmpid | exact spec_getIsChild | exact spec_getBuffer | exact spec_bufferText | exact spec_raise _ (by simp) (by simp) | apply hx | apply hy | apply hz | apply spec_ite | apply spec_bind | intro _)
  all_goals omega
theorem emitWrappedExpression_spec (name : Node) {ns : Sub} {s k : Nat}
    (h1 : ∀ fr, Spec keep s k (ns fr)) (fr : Option Frame) :
    Spec keep 0 k (emitWrappedExpression name ns fr) := by
  unfold emitWrappedExpression
  have hx := compileExpression_spec name h1
  have hy := hx; have hz := hx
  apply spec_of_le
  · repeat' (first | exact spec_pure _ | exact spec_emit _ | exact spec_emitLine _ | exact spec_tmpid | exact spec_getIsChild | exact spec_getBuffer | exact spec_bufferText | exact spec_raise _ (by simp) (by simp) | apply hx | apply hy | apply hz | apply spec_ite | apply spec_bind | intro _)
  all_goals omega
theorem emitCallArgsIn_spec {args : Sub} {s k : Nat}
    (hx : ∀ fr, Spec keep s k (args fr)) (fr : Option Frame) (a b : String) :
    Spec keep 0 k (emitCallArgsIn args fr a b) := by
  unfold emitCallArgsIn
  have hy := hx; have hz := hx
  apply spec_of_le
  · repeat' (first | exact spec_pure _ | exact spec_emit _ | exact spec_emitLine _ | exact spec_tmpid | exact spec_getIsChild | exact spec_getBuffer | exact spec_bufferText | exact spec_raise _ (by simp) (by simp) | apply hx | apply hy | apply hz | apply spec_ite | apply spec_bind | intro _)
  all_goals omega
theorem emitCallKwargsIn_spec {kwargs : Sub} {s k : Nat}
    (hx : ∀ fr, Spec keep s k (kwargs fr)) (fr : Option Frame) :
    Spec keep 0 k (emitCallKwargsIn kwargs fr) := by
  unfold emitCallKwargsIn
  have hy := hx; have hz := hx
  apply spec_of_le
  · repeat' (first | exact spec_pure _ | exact spec_emit _ | exact spec_emitLine _ | exact spec_tmpid | exact spec_getIsChild | exact spec_getBuffer | exact spec_bufferText | exact spec_raise _ (by simp) (by simp) | apply hx | apply hy | apply hz | apply spec_ite | apply spec_bind | intro _)
  all_goals omega
theorem compileFunCall_spec (name : Node) (children : List Node) {ns args kwargs : Sub}
    {s1 k1 s2 k2 s3 k3 : Nat}
    (h1 : ∀ fr, Spec keep s1 k1 (ns fr)) (h2 : ∀ fr, Spec keep s2 k2 (args fr))
    (h3 : ∀ fr, Spec keep s3 k3 (kwargs fr)) (fr : Option Frame) :
    Spec keep 0 (3 * k1 + 2 * k2 + k3) (compileFunCall name children ns args kwargs fr) := by
  unfold compileFunCall
  have hx := emitWrappedExpression_spec name h1
  have hy := fun fr a b => emitCallArgsIn_spec h2 fr a b
  have hz := emitCallKwargsIn_spec h3
  apply spec_of_le
  · repeat' (first | exact spec_pure _ | exact spec_emit _ | exact spec_emitLine _ | exact spec_tmpid | exact spec_getIsChild | exact spec_getBuffer | exact spec_bufferText | exact spec_raise _ (by simp) (by simp) | exact spec_checkArgs _ | apply hx | apply hy | apply hz | apply spec_ite | apply spec_bind | intro _)
  all_goals omega
theorem compileFilter_spec (name : Node) (children : List Node) {args : Sub} {s k : Nat}
    (h2 : ∀ fr, Spec keep s k (args fr)) (fr : Option Frame) :
    Spec keep 0 k (compileFilter name children args fr) := by
  unfold compileFilter
  have hx := fun fr a b => emitCallArgsIn_spec h2 fr a b
  have hy := @spec_checkArgs keep children
  have hz := @spec_assertType keep
  apply spec_of_le
  · repeat' (first | exact spec_pure _ | exact spec_emit _ | exact spec_emitLine _ | exact spec_tmpid | exact spec_getIsChild | exact spec_getBuffer | exact spec_bufferText | exact spec_raise _ (by simp) (by simp) | apply hx | apply hy | apply hz | apply spec_ite | apply spec_bind | intro _)
  all_goals omega
theorem compileSet_spec (targets : List String) (value : Node) {vs : Sub} {s k : Nat}
    (h1 : ∀ fr, Spec keep s k (vs fr)) (fr : Option Frame) :
    Spec keep 0 k (compileSet targets value vs fr) := by
  unfold compileSet
  have hx := compileExpression_spec value h1
  have hy := @spec_emitSetTargets keep
  have hz := hx
  apply spec_of_le
  · repeat' (first | exact spec_pure _ | exact spec_emit _ | exact spec_emitLine _ | exact spec_tmpid | exact spec_getIsChild | exact spec_getBuffer | exact spec_bufferText | exact spec_raise _ (by simp) (by simp) | apply hx | apply hy | apply hz | apply spec_ite | apply spec_bind | intro _)
  all_goals omega
theorem compileIf_spec_none (cond : Node) {cs body : Sub} {s1 k1 s2 k2 : Nat}
    (h1 : ∀ fr, Spec keep s1 k1 (cs fr)) (hy : ∀ fr, Spec keep s2 k2 (body fr)) (fr : Option Frame) :
    Spec keep (s2 + 0) (k1 + k2 + 0) (compileIf cond cs body none fr) := by
  unfold compileIf
  have hx := compileExpression_spec cond h1
  have hz := hx
  apply spec_of_le
  · repeat' (first | exact spec_pure _ | exact spec_emit _ | exact spec_emitLine _ | exact spec_tmpid | exact spec_getIsChild | exact spec_getBuffer | exact spec_bufferText | exact spec_raise _ (by simp) (by simp) | apply hx | apply hy | apply hz | apply spec_ite | apply spec_bind | intro _)
  all_goals omega
theorem compileIf_spec_some (cond : Node) {cs body x : Sub} {s1 k1 s2 k2 s3 k3 : Nat}
    (h1 : ∀ fr, Spec keep s1 k1 (cs fr)) (hy : ∀ fr, Spec keep s2 k2 (body fr))
    (hz : ∀ fr, Spec keep s3 k3 (x fr)) (fr : Option Frame) :
    Spec keep (s2 + s3) (k1 + k2 + k3) (compileIf cond cs body (some x) fr) := by
  unfold compileIf
  have hx := compileExpression_spec cond h1
  apply spec_of_le
  · repeat' (first | exact spec_pure _ | exact spec_emit _ | exact spec_emitLine _ | exact spec_tmpid | exact spec_getIsChild | exact spec_getBuffer | exact spec_bufferText | exact spec_raise _ (by simp) (by simp) | apply hx | apply hy | apply hz | apply spec_ite | apply spec_bind | intro _)
  all_goals omega
theorem bindKeyValue_spec (i arr k v : String) (children : List Node) (fr : Option Frame) :
    Spec keep 0 0 (bindKeyValue i arr k v children fr) := by
  have hx := @spec_frameSet keep
  have hy := @spec_emitKeyValueLoop keep
  have hz := hx
  unfold bindKeyValue
  split
  · apply spec_of_le
    · repeat' (first | exact spec_pure _ | exact spec_emit _ | exact spec_emitLine _ | exact spec_tmpid | exact spec_getIsChild | exact spec_getBuffer | exact spec_bufferText | exact spec_raise _ (by simp) (by simp) | apply hx | apply hy | apply hz | apply spec_ite | apply spec_bind | intro _)
    all_goals omega
  · exact spec_raise _ (by simp) (by simp)
theorem compileForTarget_spec (i arr : String) (name : Node) (fr : Option Frame) :
    Spec keep 0 0 (compileForTarget i arr name fr) := by
  have hx := @spec_frameSet keep
  have hy := @bindKeyValue_spec keep
  have hz := @spec_emitSequentialLoop keep
  unfold compileForTarget
  split
  · apply spec_of_le
    · repeat' (first | exact spec_pure _ | exact spec_emit _ | exact spec_emitLine _ | exact spec_tmpid | exact spec_getIsChild | exact spec_getBuffer | exact spec_bufferText | exact spec_raise _ (by simp) (by simp) | apply hx | apply hy | apply hz | apply spec_ite | apply spec_bind | intro _)
    all_goals omega
  · apply spec_of_le
    · repeat' (first | exact spec_pure _ | exact spec_emit _ | exact spec_emitLine _ | exact spec_tmpid | exact spec_getIsChild | exact spec_getBuffer | exact spec_bufferText | exact spec_raise _ (by simp) (by simp) | apply hx | apply hy | apply hz | apply spec_ite | apply spec_bind | intro _)
    all_goals omega
theorem compileFor_spec (arr name : Node) {as body : Sub} {s1 k1 s2 k2 : Nat}
    (h1 : ∀ fr, Spec keep s1 k1 (as fr)) (hy : ∀ fr, Spec keep s2 k2 (body fr)) (fr : Option Frame) :
    Spec keep s2 (k1 + k2) (compileFor arr name as body fr) := by
  unfold compileFor
  have hx := compileExpression_spec arr h1
  have hz := @compileForTarget_spec keep
  have hr := @spec_requireFrame keep fr
  apply spec_of_le
  · repeat' (first | exact spec_pure _ | exact spec_emit _ | exact spec_emitLine _ | exact spec_tmpid | exact spec_getIsChild | exact spec_getBuffer | exact spec_bufferText | exact spec_raise _ (by simp) (by simp) | exact hr | apply hx | apply hy | apply hz | apply spec_ite | apply spec_bind | intro _)
  all_goals omega

theorem spec_threw_any {s k : Nat} {α : Type} {m : M α} (h : ∀ c a c1, m c ≠ .ok a c1)
    (h2 : ∀ c e c1, m c = .threw e c1 → e ≠ .cannotExtend ∧ e ≠ .rootFrame) :
    Spec keep s k m :=
  ⟨fun c a c1 e => absurd e (h c a c1), fun c e c1 he =>
    ⟨fun hc => absurd hc (h2 c e c1 he).1, (h2 c e c1 he).2⟩⟩
theorem spec_weaken {s k : Nat} {α : Type} {m : M α} (h : Spec keep s k m) :
    Spec false s k m := by
  refine ⟨fun c a c1 e => ?_, h.threw⟩
  obtain ⟨h1, h2, h3, -⟩ := h.ok c a c1 e
  exact ⟨h1, h2, h3, fun hk => by simp at hk⟩
theorem spec_of_child {α : Type} {m : M α}
    (h : ∀ c, ∃ a c1, m c = .ok a c1 ∧ c1.isChild = c.isChild) : Spec false 0 0 m := by
  refine ⟨?_, ?_⟩
  · intro c a1 c1 e
    obtain ⟨a, c2, h1, h2⟩ := h c
    rw [h1] at e
    simp only [Res.ok.injEq] at e
    obtain ⟨-, rfl⟩ := e
    rw [h2]
    cases c.isChild <;> simp
  · intro c e c1 h1
    obtain ⟨a, c2, h2, -⟩ := h c
    rw [h2] at h1
    simp at h1
theorem spec_setBuffer (b : Option String) : Spec false 0 0 (setBuffer b) :=
  spec_of_child fun c => ⟨_, _, rfl, rfl⟩
theorem spec_emitFuncBegin (name : String) : Spec false 0 0 (emitFuncBegin name) := by
  unfold emitFuncBegin
  have hx := @spec_pure false _ (); have hy := hx; have hz := hx
  apply spec_of_le
  · repeat' (first | exact spec_pure _ | exact spec_emit _ | exact spec_emitLine _ | exact spec_tmpid | exact spec_getIsChild | exact spec_getBuffer | exact spec_bufferText | exact spec_setBuffer _ | exact spec_raise _ (by simp) (by simp) | apply hx | apply hy | apply hz | apply spec_ite | apply spec_bind | intro _)
  all_goals omega
theorem spec_emitFuncEnd (noReturn : Bool) : Spec false 0 0 (emitFuncEnd noReturn) := by
  unfold emitFuncEnd
  have hx := @spec_pure false _ (); have hy := hx; have hz := hx
  apply spec_of_le
  · repeat' (first | exact spec_pure _ | exact spec_emit _ | exact spec_emitLine _ | exact spec_tmpid | exact spec_getIsChild | exact spec_getBuffer | exact spec_bufferText | exact spec_setBuffer _ | exact spec_raise _ (by simp) (by simp) | apply hx | apply hy | apply hz | apply spec_ite | apply spec_bind | intro _)
  all_goals omega
theorem spec_emitBundle : ∀ blocks, Spec keep 0 0 (emitBundle blocks) := by
  intro blocks
  induction blocks with
  | nil => exact spec_pure _
  | cons b rest ih =>
    obtain ⟨name, body⟩ := b
    have hx := ih; have hy := ih; have hz := ih
    unfold emitBundle
    apply spec_of_le
    · repeat' (first | exact spec_pure _ | exact spec_emit _ | exact spec_emitLine _ | exact spec_tmpid | exact spec_getIsChild | exact spec_getBuffer | exact spec_bufferText | exact spec_raise _ (by simp) (by simp) | apply hx | apply hy | apply hz | apply spec_ite | apply spec_bind | intro _)
    all_goals omega
theorem spec_saveRestore {s k : Nat} {α : Type} {m : Option String → M α}
    (h : ∀ old, Spec false s k (m old))
    (hb : ∀ old c a c1, m old c = .ok a c1 → c1.buffer = old) :
    Spec keep s k (getBuffer >>= m) := by
  refine ⟨?_, ?_⟩
  · intro c a c1 e
    simp only [bind_apply, getBuffer_apply] at e
    obtain ⟨h1, h2, h3, -⟩ := (h c.buffer).ok c a c1 e
    exact ⟨h1, h2, h3, fun _ => hb _ _ _ _ e⟩
  · intro c e c1 he
    simp only [bind_apply, getBuffer_apply] at he
    exact (h c.buffer).threw c e c1 he
theorem macroBody_spec (children : List Node) {body : Sub} {s k : Nat}
    (h : ∀ fr, Spec keep s k (body fr)) (fr : Option Frame) :
    Spec keep s k (macroBody children body fr) := by
  cases fr with
  | none =>
    simp only [macroBody, requireFrame, raise_bind]
    refine spec_threw_any ?_ ?_
    · intro c a c1 e
      simp at e
    · intro c e c1 he
      simp only [raise_apply, Res.threw.injEq] at he
      obtain ⟨rfl, -⟩ := he
      simp
  | some outer =>
    simp only [macroBody, requireFrame, pure_bind]
    cases macroParams children with
    | none =>
      simp only [raise_bind]
      refine spec_threw_any ?_ ?_
      · intro c a c1 e
        simp [bind_apply] at e
      · intro c e c1 he
        simp only [bind_apply, emitLine_apply, raise_apply, Res.threw.injEq] at he
        obtain ⟨rfl, -⟩ := he
        simp
    | some args =>
      simp only [pure_bind]
      refine spec_of_le (spec_bind (spec_emitLine _) fun _ =>
        spec_bind (spec_emitLine _) fun _ => @spec_saveRestore keep s k _ _ ?_ ?_) ?_ ?_
      · intro old
        have hx := fun fr => spec_weaken (h fr)
        have hy := hx; have hz := hx
        apply spec_of_le
        · repeat' (first | exact spec_pure _ | exact spec_emit _ | exact spec_emitLine _ | exact spec_tmpid | exact spec_getIsChild | exact spec_getBuffer | exact spec_bufferText | exact spec_setBuffer _ | exact spec_emitFuncBegin _ | exact spec_emitFuncEnd _ | exact spec_emitBundle _ | exact spec_raise _ (by simp) (by simp) | apply hx | apply hy | apply hz | apply spec_ite | apply spec_bind | intro _)
        all_goals omega
      · intro old c a c1 e
        simp only [bind_apply, setBuffer_apply, bufferText_apply, emitLine_apply,
          pure_apply] at e
        split at e
        · simp only [Res.ok.injEq] at e
          obtain ⟨-, rfl⟩ := e
          rfl
        · simp at e
      · omega
      · omega

theorem macroDef_spec (name : String) {defArgs : Sub} {s k : Nat}
    (hx : ∀ fr, Spec keep s k (defArgs fr)) (fr : Option Frame) :
    Spec keep 0 k (macroDef name defArgs fr) := by
  unfold macroDef
  have hy := hx; have hz := hx
  apply spec_of_le
  · repeat' (first | exact spec_pure _ | exact spec_emit _ | exact spec_emitLine _ | exact spec_tmpid | exact spec_getIsChild | exact spec_getBuffer | exact spec_bufferText | exact spec_raise _ (by simp) (by simp) | apply hx | apply hy | apply hz | apply spec_ite | apply spec_bind | intro _)
  all_goals omega
theorem compileMacro_spec (name : String) (children : List Node) {body defArgs : Sub}
    {s1 k1 s2 k2 : Nat} (h1 : ∀ fr, Spec keep s1 k1 (body fr))
    (h2 : ∀ fr, Spec keep s2 k2 (defArgs fr)) (fr : Option Frame) :
    Spec keep s1 (k1 + k2) (compileMacro name children body defArgs fr) := by
  unfold compileMacro
  have hx := macroBody_spec children h1
  have hy := macroDef_spec name h2
  have hz := @spec_frameSet keep
  apply spec_of_le
  · repeat' (first | exact spec_pure _ | exact spec_emit _ | exact spec_emitLine _ | exact spec_tmpid | exact spec_getIsChild | exact spec_getBuffer | exact spec_bufferText | exact spec_raise _ (by simp) (by simp) | apply hx | apply hy | apply hz | apply spec_ite | apply spec_bind | intro _)
  all_goals omega
theorem compileImport_spec (target : String) {ts : Sub} {s k : Nat}
    (hx : ∀ fr, Spec keep s k (ts fr)) (fr : Option Frame) :
    Spec keep 0 k (compileImport target ts fr) := by
  unfold compileImport
  have hy := @spec_frameSet keep
  have hz := hx
  apply spec_of_le
  · repeat' (first | exact spec_pure _ | exact spec_emit _ | exact spec_emitLine _ | exact spec_tmpid | exact spec_getIsChild | exact spec_getBuffer | exact spec_bufferText | exact spec_raise _ (by simp) (by simp) | apply hx | apply hy | apply hz | apply spec_ite | apply spec_bind | intro _)
  all_goals omega
theorem compileFromImport_spec (children : List Node) {ts : Sub} {s k : Nat}
    (hx : ∀ fr, Spec keep s k (ts fr)) (fr : Option Frame) :
    Spec keep 0 k (compileFromImport children ts fr) := by
  unfold compileFromImport
  have hy := @spec_emitFromImports keep children
  have hz := hx
  apply spec_of_le
  · repeat' (first | exact spec_pure _ | exact spec_emit _ | exact spec_emitLine _ | exact spec_tmpid | exact spec_getIsChild | exact spec_getBuffer | exact spec_bufferText | exact spec_raise _ (by simp) (by simp) | apply hx | apply hy | apply hz | apply spec_ite | apply spec_bind | intro _)
  all_goals omega
theorem compileBlock_spec (name : String) (fr : Option Frame) :
    Spec keep 0 0 (compileBlock name fr) := by
  unfold compileBlock
  have hx := @spec_pure keep _ (); have hy := hx; have hz := hx
  apply spec_of_le
  · repeat' (first | exact spec_pure _ | exact spec_emit _ | exact spec_emitLine _ | exact spec_tmpid | exact spec_getIsChild | exact spec_getBuffer | exact spec_bufferText | exact spec_raise _ (by simp) (by simp) | apply hx | apply hy | apply hz | apply spec_ite | apply spec_bind | intro _)
  all_goals omega
theorem compileInclude_spec (template : Node) {ts : Sub} {s k : Nat}
    (h1 : ∀ fr, Spec keep s k (ts fr)) (fr : Option Frame) :
    Spec keep 0 k (compileInclude template ts fr) := by
  unfold compileInclude
  have hx := compileExpression_spec template h1
  have hy := hx; have hz := hx
  apply spec_of_le
  · repeat' (first | exact spec_pure _ | exact spec_emit _ | exact spec_emitLine _ | exact spec_tmpid | exact spec_getIsChild | exact spec_getBuffer | exact spec_bufferText | exact spec_raise _ (by simp) (by simp) | apply hx | apply hy | apply hz | apply spec_ite | apply spec_bind | intro _)
  all_goals omega
theorem compileOutput_spec {cs : Sub} {s k : Nat}
    (hx : ∀ fr, Spec keep s k (cs fr)) (fr : Option Frame) :
    Spec keep 0 k (compileOutput cs fr) := by
  unfold compileOutput
  have hy := hx; have hz := hx
  apply spec_of_le
  · repeat' (first | exact spec_pure _ | exact spec_emit _ | exact spec_emitLine _ | exact spec_tmpid | exact spec_getIsChild | exact spec_getBuffer | exact spec_bufferText | exact spec_raise _ (by simp) (by simp) | apply hx | apply hy | apply hz | apply spec_ite | apply spec_bind | intro _)
  all_goals omega
theorem compileExtends_spec (template : Node) {ts : Sub} {s k : Nat}
    (h1 : ∀ fr, Spec keep s k (ts fr)) (fr : Option Frame) :
    Spec keep 1 (1 + k) (compileExtends template ts fr) := by
  have he := compileExpression_spec template h1
  refine ⟨?_, ?_⟩
  · intro c a c1 h
    cases hc : c.isChild with
    | true =>
      simp only [compileExtends, bind_apply, getIsChild_apply, hc, ↓reduceIte, raise_apply] at h
      simp at h
    | false =>
      simp only [compileExtends, bind_apply, getIsChild_apply, hc, Bool.false_eq_true,
        ↓reduceIte, pure_apply, emit_apply] at h
      split at h
      · rename_i fr0 c0 hx
        obtain ⟨-, -, h3, h4⟩ := (he fr).ok _ _ _ hx
        simp only [emitLine_apply, tmpid_apply, setIsChild_apply, Res.ok.injEq] at h
        obtain ⟨-, rfl⟩ := h
        refine ⟨by simp, fun _ => rfl, by simp, fun hk => ?_⟩
        simpa using h4 hk
      · simp at h
  · intro c e c1 h
    cases hc : c.isChild with
    | true =>
      simp only [compileExtends, bind_apply, getIsChild_apply, hc, ↓reduceIte, raise_apply,
        Res.threw.injEq] at h
      obtain ⟨rfl, -⟩ := h
      simp
    | false =>
      simp only [compileExtends, bind_apply, getIsChild_apply, hc, Bool.false_eq_true,
        ↓reduceIte, pure_apply, emit_apply] at h
      split at h
      · simp at h
      · rename_i e0 c0 hx
        simp only [Res.threw.injEq] at h
        obtain ⟨rfl, -⟩ := h
        obtain ⟨h3, h4⟩ := (he fr).threw _ _ _ hx
        refine ⟨fun hce => ?_, h4⟩
        have := h3 hce
        simp only [hc] at this
        simp at this ⊢
        omega
theorem compileBlockFunction_spec (name : String) {body : Sub} {s k : Nat}
    (hx : ∀ fr, Spec false s k (body fr)) (fr : Option Frame) :
    Spec false s k (compileBlockFunction name body fr) := by
  unfold compileBlockFunction
  have hy := @spec_frameSet false
  have hz := hx
  apply spec_of_le
  · repeat' (first | exact spec_pure _ | exact spec_emit _ | exact spec_emitLine _ | exact spec_tmpid | exact spec_getIsChild | exact spec_getBuffer | exact spec_bufferText | exact spec_setBuffer _ | exact spec_emitFuncBegin _ | exact spec_emitFuncEnd _ | exact spec_emitBundle _ | exact spec_raise _ (by simp) (by simp) | apply hx | apply hy | apply hz | apply spec_ite | apply spec_bind | intro _)
  all_goals omega
theorem compileRoot_spec (nodes : List Node) {cs bs : Sub} {s1 k1 s2 k2 : Nat}
    (hx : ∀ fr, Spec false s1 k1 (cs fr)) (hy : ∀ fr, Spec false s2 k2 (bs fr)) :
    Spec false (s1 + s2) (k1 + k2) (compileRoot nodes cs bs none) := by
  simp only [compileRoot]
  have hz := hx
  apply spec_of_le
  · repeat' (first | exact spec_pure _ | exact spec_emit _ | exact spec_emitLine _ | exact spec_tmpid | exact spec_getIsChild | exact spec_getBuffer | exact spec_bufferText | exact spec_setBuffer _ | exact spec_emitFuncBegin _ | exact spec_emitFuncEnd _ | exact spec_emitBundle _ | exact spec_raise _ (by simp) (by simp) | apply hx | apply hy | apply hz | apply spec_ite | apply spec_bind | intro _)
  all_goals omega

end

/-! ### The loops and the dispatch -/

section
variable {keep : Bool}

theorem blockExtends_append (a b : List (String × Node)) :
    ((a ++ b).map fun x => stmtExtends x.2).sum =
      (a.map fun x => stmtExtends x.2).sum + (b.map fun x => stmtExtends x.2).sum := by
  simp
theorem visitsBlocks_append (a b : List (String × Node)) :
    visitsBlocks (a ++ b) = visitsBlocks a + visitsBlocks b := by
  simp [visitsBlocks]

theorem compileChildren_spec :
    ∀ cs, (∀ n, sizeOf n < sizeOf cs → (∀ m ∈ subnodes n, m.isRoot = false) →
        ∀ fr, Spec keep (stmtExtends n) (visits n) (compile n fr)) →
      (∀ m ∈ subnodesList cs, m.isRoot = false) →
      ∀ fr, Spec keep (stmtExtendsList cs) (visitsList cs) (compileChildren cs fr) := by
  intro cs
  induction cs with
  | nil => intro _ _ fr; simp only [compileChildren, stmtExtendsList, visitsList]; exact spec_pure fr
  | cons n rest ih =>
    intro hcs hr fr
    simp only [compileChildren, stmtExtendsList, visitsList]
    exact spec_bind (hcs n (by simp; omega) (fun m hm => hr m (by simp [subnodesList, hm])) fr)
      (ih (fun m hm => hcs m (by simp; omega)) fun m hm => hr m (by simp [subnodesList, hm]))
theorem compileAggregate_spec :
    ∀ cs, (∀ n, sizeOf n < sizeOf cs → (∀ m ∈ subnodes n, m.isRoot = false) →
        ∀ fr, Spec keep (stmtExtends n) (visits n) (compile n fr)) →
      (∀ m ∈ subnodesList cs, m.isRoot = false) →
      ∀ i fr, Spec keep 0 (visitsList cs) (compileAggregate cs i fr) := by
  intro cs
  induction cs with
  | nil => intro _ _ i fr; simp only [compileAggregate, visitsList]; exact spec_pure fr
  | cons n rest ih =>
    intro hcs hr i fr
    have hx := hcs n (by simp; omega) (fun m hm => hr m (by simp [subnodesList, hm]))
    have hy := ih (fun m hm => hcs m (by simp; omega))
      (fun m hm => hr m (by simp [subnodesList, hm]))
    have hz := hx
    simp only [compileAggregate, visitsList]
    apply spec_of_le
    · repeat' (first | exact spec_pure _ | exact spec_emit _ | exact spec_emitLine _ | exact spec_tmpid | exact spec_getIsChild | exact spec_getBuffer | exact spec_bufferText | exact spec_raise _ (by simp) (by simp) | apply hx | apply hy | apply hz | apply spec_ite | apply spec_bind | intro _)
    all_goals first | omega | (dsimp only; omega)
theorem compileOps_spec :
    ∀ ops : List (String × Node),
      (∀ n, sizeOf n < sizeOf ops → (∀ m ∈ subnodes n, m.isRoot = false) →
        ∀ fr, Spec keep (stmtExtends n) (visits n) (compile n fr)) →
      (∀ m ∈ subnodesOps ops, m.isRoot = false) →
      ∀ fr, Spec keep 0 (visitsOps ops) (compileOps ops fr) := by
  intro ops
  induction ops with
  | nil => intro _ _ fr; simp only [compileOps, visitsOps]; exact spec_pure fr
  | cons o rest ih =>
    obtain ⟨op, e⟩ := o
    intro hcs hr fr
    have hx := hcs e (by simp; omega) (fun m hm => hr m (by simp [subnodesOps, hm]))
    have hy := ih (fun m hm => hcs m (by simp; omega))
      (fun m hm => hr m (by simp [subnodesOps, hm]))
    have hz := hx
    simp only [compileOps, visitsOps]
    apply spec_of_le
    · repeat' (first | exact spec_pure _ | exact spec_emit _ | exact spec_emitLine _ | exact spec_tmpid | exact spec_getIsChild | exact spec_getBuffer | exact spec_bufferText | exact spec_raise _ (by simp) (by simp) | apply hx | apply hy | apply hz | apply spec_ite | apply spec_bind | intro _)
    all_goals first | omega | (dsimp only; omega)
theorem visitsArgs_positional (val : Option Node) (rest : List Node) :
    visitsArgs (.Pair none val :: rest) =
      (match val with | some v => visits v | none => 0) + visitsArgs rest := by
  cases val <;> rfl
theorem visitsArgs_skip (n : Node) (rest : List Node) (hn : n.isPositional = false) :
    visitsArgs (n :: rest) = visitsArgs rest := by
  cases n <;> first | rfl | (rename_i key val; cases key <;> first | rfl | simp [Node.isPositional] at hn)
theorem visitsKwargs_keyword (key : Node) (val : Option Node) (rest : List Node) :
    visitsKwargs (.Pair (some key) val :: rest) =
      (match val with | some v => visits v | none => 0) + visitsKwargs rest := by
  cases val <;> rfl
theorem visitsKwargs_skip (n : Node) (rest : List Node) (hn : n.isKeyword = false) :
    visitsKwargs (n :: rest) = visitsKwargs rest := by
  cases n <;> first | rfl | (rename_i key val; cases key <;> first | rfl | simp [Node.isKeyword] at hn)
theorem visitsDefaults_keyword (key : Node) (val : Option Node) (rest : List Node) :
    visitsDefaults (.Pair (some key) val :: rest) =
      (match val with | some v => visits v | none => 0) + visitsDefaults rest := by
  cases val <;> rfl
theorem spec_nullable_none {k : Nat} (fr : Option Frame) :
    Spec keep 0 k (compileNullable none fr) := by
  refine spec_threw_any ?_ ?_
  · intro c a c1 e
    simp [compileNullable] at e
  · intro c e c1 he
    simp only [compileNullable, raise_apply, Res.threw.injEq] at he
    obtain ⟨rfl, -⟩ := he
    simp
theorem emitCallArgs_spec :
    ∀ cs, (∀ n, sizeOf n < sizeOf cs → (∀ m ∈ subnodes n, m.isRoot = false) →
        ∀ fr, Spec keep (stmtExtends n) (visits n) (compile n fr)) →
      (∀ m ∈ subnodesList cs, m.isRoot = false) →
      ∀ j fr, Spec keep 0 (visitsArgs cs) (emitCallArgs cs j fr) := by
  intro cs
  induction cs with
  | nil => intro _ _ j fr; exact spec_pure fr
  | cons n rest ih =>
    intro hcs hr j fr
    have hy := ih (fun m hm => hcs m (by simp; omega))
      (fun m hm => hr m (by simp [subnodesList, hm]))
    have hz := hy
    rcases isPositional_cases n with ⟨val, rfl⟩ | hn
    · cases val with
      | none =>
        have hx : ∀ fr, Spec keep 0 0 (compileNullable none fr) := fun fr => spec_nullable_none fr
        rw [emitCallArgs_positional, visitsArgs_positional]
        apply spec_of_le
        · repeat' (first | exact spec_pure _ | exact spec_emit _ | exact spec_emitLine _ | exact spec_tmpid | exact spec_getIsChild | exact spec_getBuffer | exact spec_bufferText | exact spec_raise _ (by simp) (by simp) | apply hx | apply hy | apply hz | apply spec_ite | apply spec_bind | intro _)
        all_goals first | omega | (dsimp only; omega)
      | some v =>
        have hx : ∀ fr, Spec keep (stmtExtends v) (visits v) (compileNullable (some (compile v)) fr) :=
          hcs v (by simp; omega) (fun m hm => hr m (by simp [subnodesList, subnodes, hm]))
        rw [emitCallArgs_positional, visitsArgs_positional]
        apply spec_of_le
        · repeat' (first | exact spec_pure _ | exact spec_emit _ | exact spec_emitLine _ | exact spec_tmpid | exact spec_getIsChild | exact spec_getBuffer | exact spec_bufferText | exact spec_raise _ (by simp) (by simp) | apply hx | apply hy | apply hz | apply spec_ite | apply spec_bind | intro _)
        all_goals first | omega | (dsimp only; omega)
    · rw [emitCallArgs_skip n rest j hn, visitsArgs_skip n rest hn]
      exact hy j fr
theorem emitCallKwargs_spec :
    ∀ cs, (∀ n, sizeOf n < sizeOf cs → (∀ m ∈ subnodes n, m.isRoot = false) →
        ∀ fr, Spec keep (stmtExtends n) (visits n) (compile n fr)) →
      (∀ m ∈ subnodesList cs, m.isRoot = false) →
      ∀ fr, Spec keep 0 (visitsKwargs cs) (emitCallKwargs cs fr) := by
  intro cs
  induction cs with
  | nil => intro _ _ fr; exact spec_pure fr
  | cons n rest ih =>
    intro hcs hr fr
    have hy := ih (fun m hm => hcs m (by simp; omega))
      (fun m hm => hr m (by simp [subnodesList, hm]))
    have hz := hy
    rcases isKeyword_cases n with ⟨key, val, rfl⟩ | hn
    · cases val with
      | none =>
        have hx : ∀ fr, Spec keep 0 0 (compileNullable none fr) := fun fr => spec_nullable_none fr
        rw [emitCallKwargs_keyword, visitsKwargs_keyword]
        apply spec_of_le
        · repeat' (first | exact spec_pure _ | exact spec_emit _ | exact spec_emitLine _ | exact spec_tmpid | exact spec_getIsChild | exact spec_getBuffer | exact spec_bufferText | exact spec_raise _ (by simp) (by simp) | apply hx | apply hy | apply hz | apply spec_ite | apply spec_bind | intro _)
        all_goals first | omega | (dsimp only; omega)
      | some v =>
        have hx : ∀ fr, Spec keep (stmtExtends v) (visits v) (compileNullable (some (compile v)) fr) :=
          hcs v (by simp; omega) (fun m hm => hr m (by simp [subnodesList, subnodes, hm]))
        rw [emitCallKwargs_keyword, visitsKwargs_keyword]
        apply spec_of_le
        · repeat' (first | exact spec_pure _ | exact spec_emit _ | exact spec_emitLine _ | exact spec_tmpid | exact spec_getIsChild | exact spec_getBuffer | exact spec_bufferText | exact spec_raise _ (by simp) (by simp) | apply hx | apply hy | apply hz | apply spec_ite | apply spec_bind | intro _)
        all_goals first | omega | (dsimp only; omega)
    · rw [emitCallKwargs_skip n rest hn, visitsKwargs_skip n rest hn]
      exact hy fr
theorem macroDefArgs_spec :
    ∀ cs, (∀ n, sizeOf n < sizeOf cs → (∀ m ∈ subnodes n, m.isRoot = false) →
        ∀ fr, Spec keep (stmtExtends n) (visits n) (compile n fr)) →
      (∀ m ∈ subnodesList cs, m.isRoot = false) →
      ∀ fr, Spec keep 0 (visitsDefaults cs) (macroDefArgs cs fr) := by
  intro cs
  induction cs with
  | nil => intro _ _ fr; exact spec_pure fr
  | cons n rest ih =>
    intro hcs hr fr
    have hy := ih (fun m hm => hcs m (by simp; omega))
      (fun m hm => hr m (by simp [subnodesList, hm]))
    have hz := hy
    rcases isKeyword_cases n with ⟨key, val, rfl⟩ | hn
    · rw [macroDefArgs_keyword, visitsDefaults_keyword]
      cases val with
      | none =>
        have hx := hy
        apply spec_of_le
        · repeat' (first | exact spec_pure _ | exact spec_emit _ | exact spec_emitLine _ | exact spec_tmpid | exact spec_getIsChild | exact spec_getBuffer | exact spec_bufferText | exact spec_raise _ (by simp) (by simp) | apply hx | apply hy | apply hz | apply spec_ite | apply spec_bind | intro _)
        all_goals first | omega | (dsimp only; omega)
      | some v =>
        have hx := hcs v (by simp; omega) (fun m hm => hr m (by simp [subnodesList, subnodes, hm]))
        apply spec_of_le
        · repeat' (first | exact spec_pure _ | exact spec_emit _ | exact spec_emitLine _ | exact spec_tmpid | exact spec_getIsChild | exact spec_getBuffer | exact spec_bufferText | exact spec_raise _ (by simp) (by simp) | apply hx | apply hy | apply hz | apply spec_ite | apply spec_bind | intro _)
        all_goals first | omega | (dsimp only; omega)
    · rw [macroDefArgs_skip n rest fr hn]
      refine spec_threw_any ?_ ?_
      · intro c a c1 e
        simp at e
      · intro c e c1 he
        simp only [raise_apply, Res.threw.injEq] at he
        obtain ⟨rfl, -⟩ := he
        simp
end

section
variable {keep : Bool}

theorem visitsBlocks_nil : visitsBlocks [] = 0 := rfl
theorem visitsBlocks_cons (b : String × Node) (rest : List (String × Node)) :
    visitsBlocks (b :: rest) = visits b.2 + visitsBlocks rest := by
  simp [visitsBlocks]
theorem noBlocks_spec (fr : Option Frame) : Spec false 0 0 (noBlocks fr) := spec_pure fr
theorem andThen_spec {a b : Sub} {s1 k1 s2 k2 : Nat} (ha : ∀ fr, Spec false s1 k1 (a fr))
    (hb : ∀ fr, Spec false s2 k2 (b fr)) (fr : Option Frame) :
    Spec false (s1 + s2) (k1 + k2) (andThen a b fr) :=
  spec_bind (ha fr) hb
theorem compileBlocksList_spec :
    ∀ cs, (∀ n, sizeOf n < sizeOf cs → (∀ m ∈ subnodes n, m.isRoot = false) →
        ∀ fr, Spec false ((collectBlocks n).map fun b => stmtExtends b.2).sum
          (visitsBlocks (collectBlocks n)) (compileBlocks n fr)) →
      (∀ m ∈ subnodesList cs, m.isRoot = false) →
      ∀ fr, Spec false ((collectBlocksList cs).map fun b => stmtExtends b.2).sum
        (visitsBlocks (collectBlocksList cs)) (compileBlocksList cs fr) := by
  intro cs
  induction cs with
  | nil => intro _ _ fr; simp only [compileBlocksList, collectBlocksList]; exact noBlocks_spec fr
  | cons n rest ih =>
    intro hcs hr fr
    simp only [compileBlocksList, collectBlocksList, blockExtends_append, visitsBlocks_append]
    exact andThen_spec (hcs n (by simp; omega) (fun m hm => hr m (by simp [subnodesList, hm])))
      (ih (fun m hm => hcs m (by simp; omega)) fun m hm => hr m (by simp [subnodesList, hm])) fr
theorem compileBlocksOps_spec :
    ∀ ops : List (String × Node),
      (∀ n, sizeOf n < sizeOf ops → (∀ m ∈ subnodes n, m.isRoot = false) →
        ∀ fr, Spec false ((collectBlocks n).map fun b => stmtExtends b.2).sum
          (visitsBlocks (collectBlocks n)) (compileBlocks n fr)) →
      (∀ m ∈ subnodesOps ops, m.isRoot = false) →
      ∀ fr, Spec false ((collectBlocksOps ops).map fun b => stmtExtends b.2).sum
        (visitsBlocks (collectBlocksOps ops)) (compileBlocksOps ops fr) := by
  intro ops
  induction ops with
  | nil => intro _ _ fr; simp only [compileBlocksOps, collectBlocksOps]; exact noBlocks_spec fr
  | cons o rest ih =>
    obtain ⟨op, e⟩ := o
    intro hcs hr fr
    simp only [compileBlocksOps, collectBlocksOps, blockExtends_append, visitsBlocks_append]
    exact andThen_spec (hcs e (by simp; omega) (fun m hm => hr m (by simp [subnodesOps, hm])))
      (ih (fun m hm => hcs m (by simp; omega)) fun m hm => hr m (by simp [subnodesOps, hm])) fr

theorem compile_spec_node :
    ∀ (k : Nat) (n : Node), sizeOf n < k → (∀ m ∈ subnodes n, m.isRoot = false) →
      ∀ fr, Spec keep (stmtExtends n) (visits n) (compile n fr) := by
  intro k
  induction k with
  | zero => intro n hn; omega
  | succ k ih =>
      intro n hn hr fr
      cases n with
      | NodeList children =>
        simp only [compile, stmtExtends, visits]
        exact spec_of_le (compileChildren_spec children (fun m hm hrm => ih m (by simp at hn; omega) hrm) (fun m hm => hr m (by simp [subnodes, hm])) fr) (by omega) (by omega)
      | Literal value =>
        simp only [compile, stmtExtends, visits]
        exact spec_of_le (spec_bind (spec_compileLiteral _) fun _ => spec_pure _) (by omega) (by omega)
      | Symbol name =>
        simp only [compile, stmtExtends, visits]
        exact spec_of_le (spec_bind (spec_compileSymbol _ _) fun _ => spec_pure _) (by omega) (by omega)
      | Agg kind children =>
        simp only [compile, stmtExtends, visits]
        exact spec_of_le (compileAgg_spec kind (compileAggregate_spec children (fun m hm hrm => ih m (by simp at hn; omega) hrm) (fun m hm => hr m (by simp [subnodes, hm])) 0) fr) (by omega) (by omega)
      | Pair key val =>
        cases val with
        | none =>
          simp only [compile, stmtExtends, visits]
          exact @compilePair_spec keep 0 0 key none none (fun x hx => by simp at hx) fr
        | some v =>
          simp only [compile, stmtExtends, visits]
          refine spec_of_le (@compilePair_spec keep (stmtExtends v) (visits v) key (some v)
            (some (compile v)) ?_ fr) (by omega) (by omega)
          · intro x hx
            simp only [Option.some.injEq] at hx
            subst hx
            refine ih v (by simp at hn; omega) (fun m hm => hr m ?_)
            cases key <;> simp [subnodes, hm]
      | Bin kind left right =>
        simp only [compile, stmtExtends, visits]
        exact spec_of_le (compileBin_spec kind (ih left (by simp at hn; omega) (fun m hm => hr m (by simp [subnodes, hm]))) (ih right (by simp at hn; omega) (fun m hm => hr m (by simp [subnodes, hm]))) fr) (by omega) (by omega)
      | Unary kind target =>
        simp only [compile, stmtExtends, visits]
        exact spec_of_le (compileUnary_spec kind (ih target (by simp at hn; omega) (fun m hm => hr m (by simp [subnodes, hm]))) fr) (by omega) (by omega)
      | Compare expr ops =>
        simp only [compile, stmtExtends, visits]
        exact spec_of_le (compileCompare_spec (ih expr (by simp at hn; omega) (fun m hm => hr m (by simp [subnodes, hm]))) (compileOps_spec ops (fun m hm hrm => ih m (by simp at hn; omega) hrm) (fun m hm => hr m (by simp [subnodes, hm]))) fr) (by omega) (by omega)
      | LookupVal target val =>
        simp only [compile, stmtExtends, visits]
        exact spec_of_le (compileLookupVal_spec target val (ih target (by simp at hn; omega) (fun m hm => hr m (by simp [subnodes, hm]))) (ih val (by simp at hn; omega) (fun m hm => hr m (by simp [subnodes, hm]))) fr) (by omega) (by omega)
      | FunCall name children =>
        simp only [compile, stmtExtends, visits]
        exact spec_of_le (compileFunCall_spec name children (ih name (by simp at hn; omega) (fun m hm => hr m (by simp [subnodes, hm]))) (emitCallArgs_spec children (fun m hm hrm => ih m (by simp at hn; omega) hrm) (fun m hm => hr m (by simp [subnodes, hm])) 0) (emitCallKwargs_spec children (fun m hm hrm => ih m (by simp at hn; omega) hrm) (fun m hm => hr m (by simp [subnodes, hm]))) fr) (by omega) (by omega)
      | Filter name children =>
        simp only [compile, stmtExtends, visits]
        exact spec_of_le (compileFilter_spec name children (emitCallArgs_spec children (fun m hm hrm => ih m (by simp at hn; omega) hrm) (fun m hm => hr m (by simp [subnodes, hm])) 0) fr) (by omega) (by omega)
      | Set targets value =>
        simp only [compile, stmtExtends, visits]
        exact spec_of_le (compileSet_spec targets value (ih value (by simp at hn; omega) (fun m hm => hr m (by simp [subnodes, hm]))) fr) (by omega) (by omega)
      | If cond body else_ =>
        cases else_ with
        | none =>
          simp only [compile, stmtExtends, visits]
          exact spec_of_le (compileIf_spec_none cond (ih cond (by simp at hn; omega) (fun m hm => hr m (by simp [subnodes, hm]))) (ih body (by simp at hn; omega) (fun m hm => hr m (by simp [subnodes, hm]))) fr) (by omega) (by omega)
        | some e =>
          simp only [compile, stmtExtends, visits]
          exact spec_of_le (compileIf_spec_some cond (ih cond (by simp at hn; omega) (fun m hm => hr m (by simp [subnodes, hm]))) (ih body (by simp at hn; omega) (fun m hm => hr m (by simp [subnodes, hm]))) (ih e (by simp at hn; omega) (fun m hm => hr m (by simp [subnodes, hm]))) fr) (by omega) (by omega)
      | For arr name body =>
        simp only [compile, stmtExtends, visits]
        exact spec_of_le (compileFor_spec arr name (ih arr (by simp at hn; omega) (fun m hm => hr m (by simp [subnodes, hm]))) (ih body (by simp at hn; omega) (fun m hm => hr m (by simp [subnodes, hm]))) fr) (by omega) (by omega)
      | Macro name children body =>
        simp only [compile, stmtExtends, visits]
        exact spec_of_le (compileMacro_spec name children (ih body (by simp at hn; omega) (fun m hm => hr m (by simp [subnodes, hm]))) (macroDefArgs_spec children (fun m hm hrm => ih m (by simp at hn; omega) hrm) (fun m hm => hr m (by simp [subnodes, hm]))) fr) (by omega) (by omega)
      | Import template target =>
        simp only [compile, stmtExtends, visits]
        exact spec_of_le (compileImport_spec target (ih template (by simp at hn; omega) (fun m hm => hr m (by simp [subnodes, hm]))) fr) (by omega) (by omega)
      | FromImport template children =>
        simp only [compile, stmtExtends, visits]
        exact spec_of_le (compileFromImport_spec children (ih template (by simp at hn; omega) (fun m hm => hr m (by simp [subnodes, hm]))) fr) (by omega) (by omega)
      | Block name body =>
        simp only [compile, stmtExtends, visits]
        exact spec_of_le (compileBlock_spec name fr) (by omega) (by omega)
      | Extends template =>
        simp only [compile, stmtExtends, visits]
        exact spec_of_le (compileExtends_spec template (ih template (by simp at hn; omega) (fun m hm => hr m (by simp [subnodes, hm]))) fr) (by omega) (by omega)
      | Include template =>
        simp only [compile, stmtExtends, visits]
        exact spec_of_le (compileInclude_spec template (ih template (by simp at hn; omega) (fun m hm => hr m (by simp [subnodes, hm]))) fr) (by omega) (by omega)
      | Output children =>
        simp only [compile, stmtExtends, visits]
        exact spec_of_le (compileOutput_spec (compileChildren_spec children (fun m hm hrm => ih m (by simp at hn; omega) hrm) (fun m hm => hr m (by simp [subnodes, hm]))) fr) (by omega) (by omega)
      | TemplateData value =>
        simp only [compile, stmtExtends, visits]
        exact spec_of_le (spec_bind (spec_compileLiteral _) fun _ => spec_pure _) (by omega) (by omega)
      | Root children =>
        have := hr (.Root children) (by simp [subnodes])
        simp [Node.isRoot] at this
theorem compile_spec (n : Node) (hr : ∀ m ∈ subnodes n, m.isRoot = false) (fr : Option Frame) :
    Spec keep (stmtExtends n) (visits n) (compile n fr) :=
  compile_spec_node (sizeOf n + 1) n (Nat.lt_succ_self _) hr fr
theorem compileBlocks_spec_node :
    ∀ (k : Nat) (n : Node), sizeOf n < k → (∀ m ∈ subnodes n, m.isRoot = false) →
      ∀ fr, Spec false ((collectBlocks n).map fun b => stmtExtends b.2).sum
        (visitsBlocks (collectBlocks n)) (compileBlocks n fr) := by
  intro k
  induction k with
  | zero => intro n hn; omega
  | succ k ihb =>
      intro n hn hr fr
      have ih : ∀ m : Node, sizeOf m < k → (∀ x ∈ subnodes m, x.isRoot = false) →
          ∀ fr, Spec false (stmtExtends m) (visits m) (compile m fr) :=
        fun m _ hm fr => compile_spec m hm fr
      cases n with
      | NodeList children =>
        simp only [compileBlocks, collectBlocks, blockExtends_append, visitsBlocks_append, List.map_nil, List.sum_nil, visitsBlocks_nil, List.map_cons, List.sum_cons, visitsBlocks_cons]
        exact spec_of_le (compileBlocksList_spec children (fun m hm hrm => ihb m (by simp at hn; omega) hrm) (fun m hm => hr m (by simp [subnodes, hm])) fr) (by omega) (by omega)
      | Literal value =>
        simp only [compileBlocks, collectBlocks, blockExtends_append, visitsBlocks_append, List.map_nil, List.sum_nil, visitsBlocks_nil, List.map_cons, List.sum_cons, visitsBlocks_cons]
        exact spec_of_le (noBlocks_spec fr) (by omega) (by omega)
      | Symbol name =>
        simp only [compileBlocks, collectBlocks, blockExtends_append, visitsBlocks_append, List.map_nil, List.sum_nil, visitsBlocks_nil, List.map_cons, List.sum_cons, visitsBlocks_cons]
        exact spec_of_le (noBlocks_spec fr) (by omega) (by omega)
      | Agg kind children =>
        simp only [compileBlocks, collectBlocks, blockExtends_append, visitsBlocks_append, List.map_nil, List.sum_nil, visitsBlocks_nil, List.map_cons, List.sum_cons, visitsBlocks_cons]
        exact spec_of_le (compileBlocksList_spec children (fun m hm hrm => ihb m (by simp at hn; omega) hrm) (fun m hm => hr m (by simp [subnodes, hm])) fr) (by omega) (by omega)
      | Pair key val =>
        cases key <;> cases val
        all_goals simp only [compileBlocks, collectBlocks, blockExtends_append, visitsBlocks_append, List.map_nil, List.sum_nil, visitsBlocks_nil, List.map_cons, List.sum_cons, visitsBlocks_cons]
        · exact spec_of_le (andThen_spec noBlocks_spec noBlocks_spec fr) (by omega) (by omega)
        · rename_i v
          exact spec_of_le (andThen_spec noBlocks_spec (ihb v (by simp at hn; omega) (fun m hm => hr m (by simp [subnodes, hm]))) fr) (by omega) (by omega)
        · rename_i k
          exact spec_of_le (andThen_spec (ihb k (by simp at hn; omega) (fun m hm => hr m (by simp [subnodes, hm]))) noBlocks_spec fr) (by omega) (by omega)
        · rename_i k v
          exact spec_of_le (andThen_spec (ihb k (by simp at hn; omega) (fun m hm => hr m (by simp [subnodes, hm]))) (ihb v (by simp at hn; omega) (fun m hm => hr m (by simp [subnodes, hm]))) fr) (by omega) (by omega)
      | Bin kind left right =>
        simp only [compileBlocks, collectBlocks, blockExtends_append, visitsBlocks_append, List.map_nil, List.sum_nil, visitsBlocks_nil, List.map_cons, List.sum_cons, visitsBlocks_cons]
        exact spec_of_le (andThen_spec (ihb left (by simp at hn; omega) (fun m hm => hr m (by simp [subnodes, hm]))) (ihb right (by simp at hn; omega) (fun m hm => hr m (by simp [subnodes, hm]))) fr) (by omega) (by omega)
      | Unary kind target =>
        simp only [compileBlocks, collectBlocks, blockExtends_append, visitsBlocks_append, List.map_nil, List.sum_nil, visitsBlocks_nil, List.map_cons, List.sum_cons, visitsBlocks_cons]
        exact spec_of_le ((ihb target (by simp at hn; omega) (fun m hm => hr m (by simp [subnodes, hm]))) fr) (by omega) (by omega)
      | Compare expr ops =>
        simp only [compileBlocks, collectBlocks, blockExtends_append, visitsBlocks_append, List.map_nil, List.sum_nil, visitsBlocks_nil, List.map_cons, List.sum_cons, visitsBlocks_cons]
        exact spec_of_le (andThen_spec (ihb expr (by simp at hn; omega) (fun m hm => hr m (by simp [subnodes, hm]))) (compileBlocksOps_spec ops (fun m hm hrm => ihb m (by simp at hn; omega) hrm) (fun m hm => hr m (by simp [subnodes, hm]))) fr) (by omega) (by omega)
      | LookupVal target val =>
        simp only [compileBlocks, collectBlocks, blockExtends_append, visitsBlocks_append, List.map_nil, List.sum_nil, visitsBlocks_nil, List.map_cons, List.sum_cons, visitsBlocks_cons]
        exact spec_of_le (andThen_spec (ihb target (by simp at hn; omega) (fun m hm => hr m (by simp [subnodes, hm]))) (ihb val (by simp at hn; omega) (fun m hm => hr m (by simp [subnodes, hm]))) fr) (by omega) (by omega)
      | FunCall name children =>
        simp only [compileBlocks, collectBlocks, blockExtends_append, visitsBlocks_append, List.map_nil, List.sum_nil, visitsBlocks_nil, List.map_cons, List.sum_cons, visitsBlocks_cons]
        exact spec_of_le (andThen_spec (ihb name (by simp at hn; omega) (fun m hm => hr m (by simp [subnodes, hm]))) (compileBlocksList_spec children (fun m hm hrm => ihb m (by simp at hn; omega) hrm) (fun m hm => hr m (by simp [subnodes, hm]))) fr) (by omega) (by omega)
      | Filter name children =>
        simp only [compileBlocks, collectBlocks, blockExtends_append, visitsBlocks_append, List.map_nil, List.sum_nil, visitsBlocks_nil, List.map_cons, List.sum_cons, visitsBlocks_cons]
        exact spec_of_le (andThen_spec (ihb name (by simp at hn; omega) (fun m hm => hr m (by simp [subnodes, hm]))) (compileBlocksList_spec children (fun m hm hrm => ihb m (by simp at hn; omega) hrm) (fun m hm => hr m (by simp [subnodes, hm]))) fr) (by omega) (by omega)
      | Set targets value =>
        simp only [compileBlocks, collectBlocks, blockExtends_append, visitsBlocks_append, List.map_nil, List.sum_nil, visitsBlocks_nil, List.map_cons, List.sum_cons, visitsBlocks_cons]
        exact spec_of_le ((ihb value (by simp at hn; omega) (fun m hm => hr m (by simp [subnodes, hm]))) fr) (by omega) (by omega)
      | If cond body else_ =>
        cases else_
        all_goals simp only [compileBlocks, collectBlocks, blockExtends_append, visitsBlocks_append, List.map_nil, List.sum_nil, visitsBlocks_nil, List.map_cons, List.sum_cons, visitsBlocks_cons]
        · exact spec_of_le (andThen_spec (ihb cond (by simp at hn; omega) (fun m hm => hr m (by simp [subnodes, hm]))) (andThen_spec (ihb body (by simp at hn; omega) (fun m hm => hr m (by simp [subnodes, hm]))) noBlocks_spec) fr) (by omega) (by omega)
        · rename_i e
          exact spec_of_le (andThen_spec (ihb cond (by simp at hn; omega) (fun m hm => hr m (by simp [subnodes, hm]))) (andThen_spec (ihb body (by simp at hn; omega) (fun m hm => hr m (by simp [subnodes, hm]))) (ihb e (by simp at hn; omega) (fun m hm => hr m (by simp [subnodes, hm])))) fr) (by omega) (by omega)
      | For arr name body =>
        simp only [compileBlocks, collectBlocks, blockExtends_append, visitsBlocks_append, List.map_nil, List.sum_nil, visitsBlocks_nil, List.map_cons, List.sum_cons, visitsBlocks_cons]
        exact spec_of_le (andThen_spec (ihb arr (by simp at hn; omega) (fun m hm => hr m (by simp [subnodes, hm]))) (andThen_spec (ihb name (by simp at hn; omega) (fun m hm => hr m (by simp [subnodes, hm]))) (ihb body (by simp at hn; omega) (fun m hm => hr m (by simp [subnodes, hm])))) fr) (by omega) (by omega)
      | Macro name children body =>
        simp only [compileBlocks, collectBlocks, blockExtends_append, visitsBlocks_append, List.map_nil, List.sum_nil, visitsBlocks_nil, List.map_cons, List.sum_cons, visitsBlocks_cons]
        exact spec_of_le (andThen_spec (compileBlocksList_spec children (fun m hm hrm => ihb m (by simp at hn; omega) hrm) (fun m hm => hr m (by simp [subnodes, hm]))) (ihb body (by simp at hn; omega) (fun m hm => hr m (by simp [subnodes, hm]))) fr) (by omega) (by omega)
      | Import template target =>
        simp only [compileBlocks, collectBlocks, blockExtends_append, visitsBlocks_append, List.map_nil, List.sum_nil, visitsBlocks_nil, List.map_cons, List.sum_cons, visitsBlocks_cons]
        exact spec_of_le ((ihb template (by simp at hn; omega) (fun m hm => hr m (by simp [subnodes, hm]))) fr) (by omega) (by omega)
      | FromImport template children =>
        simp only [compileBlocks, collectBlocks, blockExtends_append, visitsBlocks_append, List.map_nil, List.sum_nil, visitsBlocks_nil, List.map_cons, List.sum_cons, visitsBlocks_cons]
        exact spec_of_le (andThen_spec (ihb template (by simp at hn; omega) (fun m hm => hr m (by simp [subnodes, hm]))) (compileBlocksList_spec children (fun m hm hrm => ihb m (by simp at hn; omega) hrm) (fun m hm => hr m (by simp [subnodes, hm]))) fr) (by omega) (by omega)
      | Block name body =>
        simp only [compileBlocks, collectBlocks, blockExtends_append, visitsBlocks_append, List.map_nil, List.sum_nil, visitsBlocks_nil, List.map_cons, List.sum_cons, visitsBlocks_cons]
        exact spec_of_le (andThen_spec (fun fr => compileBlockFunction_spec name (fun fr => spec_weaken ((ih body (by simp at hn; omega) (fun m hm => hr m (by simp [subnodes, hm]))) fr)) fr) (ihb body (by simp at hn; omega) (fun m hm => hr m (by simp [subnodes, hm]))) fr) (by omega) (by omega)
      | Extends template =>
        simp only [compileBlocks, collectBlocks, blockExtends_append, visitsBlocks_append, List.map_nil, List.sum_nil, visitsBlocks_nil, List.map_cons, List.sum_cons, visitsBlocks_cons]
        exact spec_of_le ((ihb template (by simp at hn; omega) (fun m hm => hr m (by simp [subnodes, hm]))) fr) (by omega) (by omega)
      | Include template =>
        simp only [compileBlocks, collectBlocks, blockExtends_append, visitsBlocks_append, List.map_nil, List.sum_nil, visitsBlocks_nil, List.map_cons, List.sum_cons, visitsBlocks_cons]
        exact spec_of_le ((ihb template (by simp at hn; omega) (fun m hm => hr m (by simp [subnodes, hm]))) fr) (by omega) (by omega)
      | Output children =>
        simp only [compileBlocks, collectBlocks, blockExtends_append, visitsBlocks_append, List.map_nil, List.sum_nil, visitsBlocks_nil, List.map_cons, List.sum_cons, visitsBlocks_cons]
        exact spec_of_le (compileBlocksList_spec children (fun m hm hrm => ihb m (by simp at hn; omega) hrm) (fun m hm => hr m (by simp [subnodes, hm])) fr) (by omega) (by omega)
      | TemplateData value =>
        simp only [compileBlocks, collectBlocks, blockExtends_append, visitsBlocks_append, List.map_nil, List.sum_nil, visitsBlocks_nil, List.map_cons, List.sum_cons, visitsBlocks_cons]
        exact spec_of_le (noBlocks_spec fr) (by omega) (by omega)
      | Root children =>
        simp only [compileBlocks, collectBlocks, blockExtends_append, visitsBlocks_append, List.map_nil, List.sum_nil, visitsBlocks_nil, List.map_cons, List.sum_cons, visitsBlocks_cons]
        exact spec_of_le (compileBlocksList_spec children (fun m hm hrm => ihb m (by simp at hn; omega) hrm) (fun m hm => hr m (by simp [subnodes, hm])) fr) (by omega) (by omega)
theorem compileBlocks_spec (n : Node) (hr : ∀ m ∈ subnodes n, m.isRoot = false)
    (fr : Option Frame) :
    Spec false ((collectBlocks n).map fun b => stmtExtends b.2).sum
      (visitsBlocks (collectBlocks n)) (compileBlocks n fr) :=
  compileBlocks_spec_node (sizeOf n + 1) n (Nat.lt_succ_self _) hr fr
end

/-! ## Counting the `Extends` nodes `compile` reaches -/

theorem visitsArgs_le_visitsList : ∀ cs, visitsArgs cs ≤ visitsList cs := by
  intro cs
  induction cs with
  | nil => exact Nat.le_refl _
  | cons n rest ih =>
    rcases isPositional_cases n with ⟨val, rfl⟩ | hn
    · rw [visitsArgs_positional]
      cases val <;> simp only [visitsList, visits] <;> omega
    · rw [visitsArgs_skip n rest hn]
      simp only [visitsList]
      omega
theorem visitsKwargs_le_visitsList : ∀ cs, visitsKwargs cs ≤ visitsList cs := by
  intro cs
  induction cs with
  | nil => exact Nat.le_refl _
  | cons n rest ih =>
    rcases isKeyword_cases n with ⟨key, val, rfl⟩ | hn
    · rw [visitsKwargs_keyword]
      cases val <;> simp only [visitsList, visits] <;> omega
    · rw [visitsKwargs_skip n rest hn]
      simp only [visitsList]
      omega
theorem visitsDefaults_skip (n : Node) (rest : List Node) (hn : n.isKeyword = false) :
    visitsDefaults (n :: rest) = 0 := by
  cases n <;> first | rfl | (rename_i key val; cases key <;> first | rfl | simp [Node.isKeyword] at hn)
theorem visitsDefaults_le_visitsList : ∀ cs, visitsDefaults cs ≤ visitsList cs := by
  intro cs
  induction cs with
  | nil => exact Nat.le_refl _
  | cons n rest ih =>
    rcases isKeyword_cases n with ⟨key, val, rfl⟩ | hn
    · rw [visitsDefaults_keyword]
      cases val <;> simp only [visitsList, visits] <;> omega
    · rw [visitsDefaults_skip n rest hn]
      omega
theorem visitsList_le :
    ∀ cs, (∀ n, sizeOf n < sizeOf cs →
        (∀ m ∈ subnodes n, m.isFunCall = true → (subnodes m).countP Node.isExtends = 0) →
        visits n + visitsBlocks (collectBlocks n) ≤ (subnodes n).countP Node.isExtends) →
      (∀ m ∈ subnodesList cs, m.isFunCall = true → (subnodes m).countP Node.isExtends = 0) →
      visitsList cs + visitsBlocks (collectBlocksList cs) ≤
        (subnodesList cs).countP Node.isExtends := by
  intro cs
  induction cs with
  | nil => intro _ _; simp [visitsList, collectBlocksList, subnodesList, visitsBlocks]
  | cons n rest ih =>
    intro hcs hc
    have h1 := hcs n (by simp; omega) (fun m hm hf => hc m (by simp [subnodesList, hm]) hf)
    have h2 := ih (fun m hm => hcs m (by simp; omega))
      (fun m hm hf => hc m (by simp [subnodesList, hm]) hf)
    simp only [visitsList, collectBlocksList, subnodesList, visitsBlocks_append,
      List.countP_append]
    omega
theorem visitsOps_le :
    ∀ ops : List (String × Node), (∀ n, sizeOf n < sizeOf ops →
        (∀ m ∈ subnodes n, m.isFunCall = true → (subnodes m).countP Node.isExtends = 0) →
        visits n + visitsBlocks (collectBlocks n) ≤ (subnodes n).countP Node.isExtends) →
      (∀ m ∈ subnodesOps ops, m.isFunCall = true → (subnodes m).countP Node.isExtends = 0) →
      visitsOps ops + visitsBlocks (collectBlocksOps ops) ≤
        (subnodesOps ops).countP Node.isExtends := by
  intro ops
  induction ops with
  | nil => intro _ _; simp [visitsOps, collectBlocksOps, subnodesOps, visitsBlocks]
  | cons o rest ih =>
    obtain ⟨op, e⟩ := o
    intro hcs hc
    have h1 := hcs e (by simp; omega) (fun m hm hf => hc m (by simp [subnodesOps, hm]) hf)
    have h2 := ih (fun m hm => hcs m (by simp; omega))
      (fun m hm hf => hc m (by simp [subnodesOps, hm]) hf)
    simp only [visitsOps, collectBlocksOps, subnodesOps, visitsBlocks_append,
      List.countP_append]
    omega
theorem visits_le_node :
    ∀ (k : Nat) (n : Node), sizeOf n < k →
      (∀ m ∈ subnodes n, m.isFunCall = true → (subnodes m).countP Node.isExtends = 0) →
      visits n + visitsBlocks (collectBlocks n) ≤ (subnodes n).countP Node.isExtends := by
  intro k
  induction k with
  | zero => intro n hn; omega
  | succ k ih =>
    intro n hn hc
    cases n with
    | NodeList children =>
      have h1 := visitsList_le children (fun m hm hcm => ih m (by simp at hn; omega) hcm) (fun m hm hf => hc m (by simp [subnodes, hm]) hf)
      simp only [visits, collectBlocks, subnodes, visitsBlocks_append, visitsBlocks_cons, visitsBlocks_nil, List.countP_cons, List.countP_append, List.countP_nil, Node.isExtends, Bool.false_eq_true, ↓reduceIte]
      omega
    | Literal value =>
      simp only [visits, collectBlocks, subnodes, visitsBlocks_append, visitsBlocks_cons, visitsBlocks_nil, List.countP_cons, List.countP_append, List.countP_nil, Node.isExtends, Bool.false_eq_true, ↓reduceIte]
      omega
    | Symbol value =>
      simp only [visits, collectBlocks, subnodes, visitsBlocks_append, visitsBlocks_cons, visitsBlocks_nil, List.countP_cons, List.countP_append, List.countP_nil, Node.isExtends, Bool.false_eq_true, ↓reduceIte]
      omega
    | Agg kind children =>
      have h1 := visitsList_le children (fun m hm hcm => ih m (by simp at hn; omega) hcm) (fun m hm hf => hc m (by simp [subnodes, hm]) hf)
      simp only [visits, collectBlocks, subnodes, visitsBlocks_append, visitsBlocks_cons, visitsBlocks_nil, List.countP_cons, List.countP_append, List.countP_nil, Node.isExtends, Bool.false_eq_true, ↓reduceIte]
      omega
    | Pair key val =>
      cases key <;> cases val
      · simp only [visits, collectBlocks, subnodes, visitsBlocks_append, visitsBlocks_cons, visitsBlocks_nil, List.countP_cons, List.countP_append, List.countP_nil, Node.isExtends, Bool.false_eq_true, ↓reduceIte]
        omega
      · rename_i v
        have h1 := ih v (by simp at hn; omega) (fun m hm hf => hc m (by simp [subnodes, hm]) hf)
        simp only [visits, collectBlocks, subnodes, visitsBlocks_append, visitsBlocks_cons, visitsBlocks_nil, List.countP_cons, List.countP_append, List.countP_nil, Node.isExtends, Bool.false_eq_true, ↓reduceIte]
        omega
      · rename_i k
        have h1 := ih k (by simp at hn; omega) (fun m hm hf => hc m (by simp [subnodes, hm]) hf)
        simp only [visits, collectBlocks, subnodes, visitsBlocks_append, visitsBlocks_cons, visitsBlocks_nil, List.countP_cons, List.countP_append, List.countP_nil, Node.isExtends, Bool.false_eq_true, ↓reduceIte]
        omega
      · rename_i k v
        have h1 := ih k (by simp at hn; omega) (fun m hm hf => hc m (by simp [subnodes, hm]) hf)
        have h2 := ih v (by simp at hn; omega) (fun m hm hf => hc m (by simp [subnodes, hm]) hf)
        simp only [visits, collectBlocks, subnodes, visitsBlocks_append, visitsBlocks_cons, visitsBlocks_nil, List.countP_cons, List.countP_append, List.countP_nil, Node.isExtends, Bool.false_eq_true, ↓reduceIte]
        omega
    | Bin kind left right =>
      have h1 := ih left (by simp at hn; omega) (fun m hm hf => hc m (by simp [subnodes, hm]) hf)
      have h2 := ih right (by simp at hn; omega) (fun m hm hf => hc m (by simp [subnodes, hm]) hf)
      simp only [visits, collectBlocks, subnodes, visitsBlocks_append, visitsBlocks_cons, visitsBlocks_nil, List.countP_cons, List.countP_append, List.countP_nil, Node.isExtends, Bool.false_eq_true, ↓reduceIte]
      omega
    | Unary kind target =>
      have h1 := ih target (by simp at hn; omega) (fun m hm hf => hc m (by simp [subnodes, hm]) hf)
      simp only [visits, collectBlocks, subnodes, visitsBlocks_append, visitsBlocks_cons, visitsBlocks_nil, List.countP_cons, List.countP_append, List.countP_nil, Node.isExtends, Bool.false_eq_true, ↓reduceIte]
      omega
    | Compare expr ops =>
      have h1 := ih expr (by simp at hn; omega) (fun m hm hf => hc m (by simp [subnodes, hm]) hf)
      have h2 := visitsOps_le ops (fun m hm hcm => ih m (by simp at hn; omega) hcm) (fun m hm hf => hc m (by simp [subnodes, hm]) hf)
      simp only [visits, collectBlocks, subnodes, visitsBlocks_append, visitsBlocks_cons, visitsBlocks_nil, List.countP_cons, List.countP_append, List.countP_nil, Node.isExtends, Bool.false_eq_true, ↓reduceIte]
      omega
    | LookupVal target val =>
      have h1 := ih target (by simp at hn; omega) (fun m hm hf => hc m (by simp [subnodes, hm]) hf)
      have h2 := ih val (by simp at hn; omega) (fun m hm hf => hc m (by simp [subnodes, hm]) hf)
      simp only [visits, collectBlocks, subnodes, visitsBlocks_append, visitsBlocks_cons, visitsBlocks_nil, List.countP_cons, List.countP_append, List.countP_nil, Node.isExtends, Bool.false_eq_true, ↓reduceIte]
      omega
    | FunCall name children =>
      have h1 := ih name (by simp at hn; omega) (fun m hm hf => hc m (by simp [subnodes, hm]) hf)
      have h2 := visitsList_le children (fun m hm hcm => ih m (by simp at hn; omega) hcm) (fun m hm hf => hc m (by simp [subnodes, hm]) hf)
      have h3 := visitsArgs_le_visitsList children
      have h4 := visitsKwargs_le_visitsList children
      have h5 := hc (.FunCall name children) (by simp [subnodes]) rfl
      simp only [visits, collectBlocks, subnodes, visitsBlocks_append, visitsBlocks_cons, visitsBlocks_nil, List.countP_cons, List.countP_append, List.countP_nil, Node.isExtends, Bool.false_eq_true, ↓reduceIte] at h5 ⊢
      omega
    | Filter name children =>
      have h1 := ih name (by simp at hn; omega) (fun m hm hf => hc m (by simp [subnodes, hm]) hf)
      have h2 := visitsList_le children (fun m hm hcm => ih m (by simp at hn; omega) hcm) (fun m hm hf => hc m (by simp [subnodes, hm]) hf)
      have h3 := visitsArgs_le_visitsList children
      simp only [visits, collectBlocks, subnodes, visitsBlocks_append, visitsBlocks_cons, visitsBlocks_nil, List.countP_cons, List.countP_append, List.countP_nil, Node.isExtends, Bool.false_eq_true, ↓reduceIte]
      omega
    | Set targets value =>
      have h1 := ih value (by simp at hn; omega) (fun m hm hf => hc m (by simp [subnodes, hm]) hf)
      simp only [visits, collectBlocks, subnodes, visitsBlocks_append, visitsBlocks_cons, visitsBlocks_nil, List.countP_cons, List.countP_append, List.countP_nil, Node.isExtends, Bool.false_eq_true, ↓reduceIte]
      omega
    | If cond body else_ =>
      cases else_
      · have h1 := ih cond (by simp at hn; omega) (fun m hm hf => hc m (by simp [subnodes, hm]) hf)
        have h2 := ih body (by simp at hn; omega) (fun m hm hf => hc m (by simp [subnodes, hm]) hf)
        simp only [visits, collectBlocks, subnodes, visitsBlocks_append, visitsBlocks_cons, visitsBlocks_nil, List.countP_cons, List.countP_append, List.countP_nil, Node.isExtends, Bool.false_eq_true, ↓reduceIte]
        omega
      · rename_i e
        have h1 := ih cond (by simp at hn; omega) (fun m hm hf => hc m (by simp [subnodes, hm]) hf)
        have h2 := ih body (by simp at hn; omega) (fun m hm hf => hc m (by simp [subnodes, hm]) hf)
        have h3 := ih e (by simp at hn; omega) (fun m hm hf => hc m (by simp [subnodes, hm]) hf)
        simp only [visits, collectBlocks, subnodes, visitsBlocks_append, visitsBlocks_cons, visitsBlocks_nil, List.countP_cons, List.countP_append, List.countP_nil, Node.isExtends, Bool.false_eq_true, ↓reduceIte]
        omega
    | For arr name body =>
      have h1 := ih arr (by simp at hn; omega) (fun m hm hf => hc m (by simp [subnodes, hm]) hf)
      have h2 := ih name (by simp at hn; omega) (fun m hm hf => hc m (by simp [subnodes, hm]) hf)
      have h3 := ih body (by simp at hn; omega) (fun m hm hf => hc m (by simp [subnodes, hm]) hf)
      simp only [visits, collectBlocks, subnodes, visitsBlocks_append, visitsBlocks_cons, visitsBlocks_nil, List.countP_cons, List.countP_append, List.countP_nil, Node.isExtends, Bool.false_eq_true, ↓reduceIte]
      omega
    | Macro name children body =>
      have h1 := visitsList_le children (fun m hm hcm => ih m (by simp at hn; omega) hcm) (fun m hm hf => hc m (by simp [subnodes, hm]) hf)
      have h2 := ih body (by simp at hn; omega) (fun m hm hf => hc m (by simp [subnodes, hm]) hf)
      have h3 := visitsDefaults_le_visitsList children
      simp only [visits, collectBlocks, subnodes, visitsBlocks_append, visitsBlocks_cons, visitsBlocks_nil, List.countP_cons, List.countP_append, List.countP_nil, Node.isExtends, Bool.false_eq_true, ↓reduceIte]
      omega
    | Import template target =>
      have h1 := ih template (by simp at hn; omega) (fun m hm hf => hc m (by simp [subnodes, hm]) hf)
      simp only [visits, collectBlocks, subnodes, visitsBlocks_append, visitsBlocks_cons, visitsBlocks_nil, List.countP_cons, List.countP_append, List.countP_nil, Node.isExtends, Bool.false_eq_true, ↓reduceIte]
      omega
    | FromImport template children =>
      have h1 := ih template (by simp at hn; omega) (fun m hm hf => hc m (by simp [subnodes, hm]) hf)
      have h2 := visitsList_le children (fun m hm hcm => ih m (by simp at hn; omega) hcm) (fun m hm hf => hc m (by simp [subnodes, hm]) hf)
      simp only [visits, collectBlocks, subnodes, visitsBlocks_append, visitsBlocks_cons, visitsBlocks_nil, List.countP_cons, List.countP_append, List.countP_nil, Node.isExtends, Bool.false_eq_true, ↓reduceIte]
      omega
    | Block name body =>
      have h1 := ih body (by simp at hn; omega) (fun m hm hf => hc m (by simp [subnodes, hm]) hf)
      simp only [visits, collectBlocks, subnodes, visitsBlocks_append, visitsBlocks_cons, visitsBlocks_nil, List.countP_cons, List.countP_append, List.countP_nil, Node.isExtends, Bool.false_eq_true, ↓reduceIte]
      omega
    | Extends template =>
      have h1 := ih template (by simp at hn; omega) (fun m hm hf => hc m (by simp [subnodes, hm]) hf)
      simp only [visits, collectBlocks, subnodes, visitsBlocks_append, visitsBlocks_cons, visitsBlocks_nil, List.countP_cons, List.countP_append, List.countP_nil, Node.isExtends, Bool.false_eq_true, ↓reduceIte]
      omega
    | Include template =>
      have h1 := ih template (by simp at hn; omega) (fun m hm hf => hc m (by simp [subnodes, hm]) hf)
      simp only [visits, collectBlocks, subnodes, visitsBlocks_append, visitsBlocks_cons, visitsBlocks_nil, List.countP_cons, List.countP_append, List.countP_nil, Node.isExtends, Bool.false_eq_true, ↓reduceIte]
      omega
    | Output children =>
      have h1 := visitsList_le children (fun m hm hcm => ih m (by simp at hn; omega) hcm) (fun m hm hf => hc m (by simp [subnodes, hm]) hf)
      simp only [visits, collectBlocks, subnodes, visitsBlocks_append, visitsBlocks_cons, visitsBlocks_nil, List.countP_cons, List.countP_append, List.countP_nil, Node.isExtends, Bool.false_eq_true, ↓reduceIte]
      omega
    | TemplateData value =>
      simp only [visits, collectBlocks, subnodes, visitsBlocks_append, visitsBlocks_cons, visitsBlocks_nil, List.countP_cons, List.countP_append, List.countP_nil, Node.isExtends, Bool.false_eq_true, ↓reduceIte]
      omega
    | Root children =>
      have h1 := visitsList_le children (fun m hm hcm => ih m (by simp at hn; omega) hcm) (fun m hm hf => hc m (by simp [subnodes, hm]) hf)
      simp only [visits, collectBlocks, subnodes, visitsBlocks_append, visitsBlocks_cons, visitsBlocks_nil, List.countP_cons, List.countP_append, List.countP_nil, Node.isExtends, Bool.false_eq_true, ↓reduceIte]
      omega
/-- With no `Extends` inside a call, `compile` reaches no more `Extends` than the tree
holds: every statement is compiled once. -/
theorem extendsReached_le_extendsIn (children : List Node)
    (hc : noExtendsInCalls children = true) : extendsReached children ≤ extendsIn children := by
  have hc1 : ∀ m ∈ subnodesList children, m.isFunCall = true →
      (subnodes m).countP Node.isExtends = 0 := by
    intro m hm hf
    have := List.all_eq_true.mp hc m hm
    simpa [hf, extendsIn, subnodesList] using this
  exact visitsList_le children
    (fun n _ hcn => visits_le_node (sizeOf n + 1) n (Nat.lt_succ_self _) hcn) hc1

/-! ## The block loop and the search for the blocks -/

theorem andThen_eq (a b : Sub) (fr : Option Frame) : andThen a b fr = a fr >>= b := rfl
theorem andThen_noBlocks_left (b : Sub) : andThen noBlocks b = b := by
  funext fr c
  simp only [andThen_eq, bind_apply, noBlocks, pure_apply]
theorem andThen_noBlocks_right (a : Sub) : andThen a noBlocks = a := by
  funext fr c
  simp only [andThen_eq, bind_apply, noBlocks, pure_apply]
  cases a fr c <;> rfl
theorem andThen_assoc (a b d : Sub) : andThen (andThen a b) d = andThen a (andThen b d) := by
  funext fr c
  simp only [andThen_eq, bind_apply]
  cases a fr c <;> rfl
theorem blockLoop_append (a b : List (String × Node)) :
    blockLoop (a ++ b) = andThen (blockLoop a) (blockLoop b) := by
  induction a with
  | nil => simp only [List.nil_append, blockLoop, andThen_noBlocks_left]
  | cons x rest ih =>
    obtain ⟨name, body⟩ := x
    show andThen _ (blockLoop (rest ++ b)) = _
    rw [ih]
    simp only [blockLoop, andThen_assoc]
theorem compileBlocksList_loop :
    ∀ cs, (∀ n, sizeOf n < sizeOf cs → compileBlocks n = blockLoop (collectBlocks n)) →
      compileBlocksList cs = blockLoop (collectBlocksList cs) := by
  intro cs
  induction cs with
  | nil => intro _; simp only [compileBlocksList, collectBlocksList, blockLoop]
  | cons n rest ih =>
    intro hcs
    simp only [compileBlocksList, collectBlocksList, blockLoop_append]
    rw [hcs n (by simp; omega), ih (fun m hm => hcs m (by simp; omega))]
theorem compileBlocksOps_loop :
    ∀ ops : List (String × Node),
      (∀ n, sizeOf n < sizeOf ops → compileBlocks n = blockLoop (collectBlocks n)) →
      compileBlocksOps ops = blockLoop (collectBlocksOps ops) := by
  intro ops
  induction ops with
  | nil => intro _; simp only [compileBlocksOps, collectBlocksOps, blockLoop]
  | cons o rest ih =>
    obtain ⟨op, e⟩ := o
    intro hcs
    simp only [compileBlocksOps, collectBlocksOps, blockLoop_append]
    rw [hcs e (by simp; omega), ih (fun m hm => hcs m (by simp; omega))]
theorem compileBlocks_loop_node :
    ∀ (k : Nat) (n : Node), sizeOf n < k → compileBlocks n = blockLoop (collectBlocks n) := by
  intro k
  induction k with
  | zero => intro n hn; omega
  | succ k ih =>
    intro n hn
    cases n with
    | NodeList children =>
      simp only [compileBlocks, collectBlocks]
      rw [compileBlocksList_loop children (fun m hm => ih m (by simp at hn; omega))]
      try simp only [blockLoop_append, blockLoop, andThen_assoc, andThen_noBlocks_left, andThen_noBlocks_right]
    | Literal value =>
      simp only [compileBlocks, collectBlocks]
      try simp only [blockLoop_append, blockLoop, andThen_assoc, andThen_noBlocks_left, andThen_noBlocks_right]
    | Symbol value =>
      simp only [compileBlocks, collectBlocks]
      try simp only [blockLoop_append, blockLoop, andThen_assoc, andThen_noBlocks_left, andThen_noBlocks_right]
    | Agg kind children =>
      simp only [compileBlocks, collectBlocks]
      rw [compileBlocksList_loop children (fun m hm => ih m (by simp at hn; omega))]
      try simp only [blockLoop_append, blockLoop, andThen_assoc, andThen_noBlocks_left, andThen_noBlocks_right]
    | Pair key val =>
      cases key <;> cases val
      · simp only [compileBlocks, collectBlocks]
        try simp only [blockLoop_append, blockLoop, andThen_assoc, andThen_noBlocks_left, andThen_noBlocks_right]
      · rename_i v
        simp only [compileBlocks, collectBlocks]
        rw [ih v (by simp at hn; omega)]
        try simp only [blockLoop_append, blockLoop, andThen_assoc, andThen_noBlocks_left, andThen_noBlocks_right]
      · rename_i k
        simp only [compileBlocks, collectBlocks]
        rw [ih k (by simp at hn; omega)]
        try simp only [blockLoop_append, blockLoop, andThen_assoc, andThen_noBlocks_left, andThen_noBlocks_right]
      · rename_i k v
        simp only [compileBlocks, collectBlocks]
        rw [ih k (by simp at hn; omega), ih v (by simp at hn; omega)]
        try simp only [blockLoop_append, blockLoop, andThen_assoc, andThen_noBlocks_left, andThen_noBlocks_right]
    | Bin kind left right =>
      simp only [compileBlocks, collectBlocks]
      rw [ih left (by simp at hn; omega), ih right (by simp at hn; omega)]
      try simp only [blockLoop_append, blockLoop, andThen_assoc, andThen_noBlocks_left, andThen_noBlocks_right]
    | Unary kind target =>
      simp only [compileBlocks, collectBlocks]
      rw [ih target (by simp at hn; omega)]
      try simp only [blockLoop_append, blockLoop, andThen_assoc, andThen_noBlocks_left, andThen_noBlocks_right]
    | Compare expr ops =>
      simp only [compileBlocks, collectBlocks]
      rw [ih expr (by simp at hn; omega), compileBlocksOps_loop ops (fun m hm => ih m (by simp at hn; omega))]
      try simp only [blockLoop_append, blockLoop, andThen_assoc, andThen_noBlocks_left, andThen_noBlocks_right]
    | LookupVal target val =>
      simp only [compileBlocks, collectBlocks]
      rw [ih target (by simp at hn; omega), ih val (by simp at hn; omega)]
      try simp only [blockLoop_append, blockLoop, andThen_assoc, andThen_noBlocks_left, andThen_noBlocks_right]
    | FunCall name children =>
      simp only [compileBlocks, collectBlocks]
      rw [ih name (by simp at hn; omega), compileBlocksList_loop children (fun m hm => ih m (by simp at hn; omega))]
      try simp only [blockLoop_append, blockLoop, andThen_assoc, andThen_noBlocks_left, andThen_noBlocks_right]
    | Filter name children =>
      simp only [compileBlocks, collectBlocks]
      rw [ih name (by simp at hn; omega), compileBlocksList_loop children (fun m hm => ih m (by simp at hn; omega))]
      try simp only [blockLoop_append, blockLoop, andThen_assoc, andThen_noBlocks_left, andThen_noBlocks_right]
    | Set targets value =>
      simp only [compileBlocks, collectBlocks]
      rw [ih value (by simp at hn; omega)]
      try simp only [blockLoop_append, blockLoop, andThen_assoc, andThen_noBlocks_left, andThen_noBlocks_right]
    | If cond body else_ =>
      cases else_
      · simp only [compileBlocks, collectBlocks]
        rw [ih cond (by simp at hn; omega), ih body (by simp at hn; omega)]
        try simp only [blockLoop_append, blockLoop, andThen_assoc, andThen_noBlocks_left, andThen_noBlocks_right]
      · rename_i e
        simp only [compileBlocks, collectBlocks]
        rw [ih cond (by simp at hn; omega), ih body (by simp at hn; omega), ih e (by simp at hn; omega)]
        try simp only [blockLoop_append, blockLoop, andThen_assoc, andThen_noBlocks_left, andThen_noBlocks_right]
    | For arr name body =>
      simp only [compileBlocks, collectBlocks]
      rw [ih arr (by simp at hn; omega), ih name (by simp at hn; omega), ih body (by simp at hn; omega)]
      try simp only [blockLoop_append, blockLoop, andThen_assoc, andThen_noBlocks_left, andThen_noBlocks_right]
    | Macro name children body =>
      simp only [compileBlocks, collectBlocks]
      rw [compileBlocksList_loop children (fun m hm => ih m (by simp at hn; omega)), ih body (by simp at hn; omega)]
      try simp only [blockLoop_append, blockLoop, andThen_assoc, andThen_noBlocks_left, andThen_noBlocks_right]
    | Import template target =>
      simp only [compileBlocks, collectBlocks]
      rw [ih template (by simp at hn; omega)]
      try simp only [blockLoop_append, blockLoop, andThen_assoc, andThen_noBlocks_left, andThen_noBlocks_right]
    | FromImport template children =>
      simp only [compileBlocks, collectBlocks]
      rw [ih template (by simp at hn; omega), compileBlocksList_loop children (fun m hm => ih m (by simp at hn; omega))]
      try simp only [blockLoop_append, blockLoop, andThen_assoc, andThen_noBlocks_left, andThen_noBlocks_right]
    | Block name body =>
      simp only [compileBlocks, collectBlocks]
      rw [ih body (by simp at hn; omega)]
      try simp only [blockLoop_append, blockLoop, andThen_assoc, andThen_noBlocks_left, andThen_noBlocks_right]
    | Extends template =>
      simp only [compileBlocks, collectBlocks]
      rw [ih template (by simp at hn; omega)]
      try simp only [blockLoop_append, blockLoop, andThen_assoc, andThen_noBlocks_left, andThen_noBlocks_right]
    | Include template =>
      simp only [compileBlocks, collectBlocks]
      rw [ih template (by simp at hn; omega)]
      try simp only [blockLoop_append, blockLoop, andThen_assoc, andThen_noBlocks_left, andThen_noBlocks_right]
    | Output children =>
      simp only [compileBlocks, collectBlocks]
      rw [compileBlocksList_loop children (fun m hm => ih m (by simp at hn; omega))]
      try simp only [blockLoop_append, blockLoop, andThen_assoc, andThen_noBlocks_left, andThen_noBlocks_right]
    | TemplateData value =>
      simp only [compileBlocks, collectBlocks]
      try simp only [blockLoop_append, blockLoop, andThen_assoc, andThen_noBlocks_left, andThen_noBlocks_right]
    | Root children =>
      simp only [compileBlocks, collectBlocks]
      rw [compileBlocksList_loop children (fun m hm => ih m (by simp at hn; omega))]
      try simp only [blockLoop_append, blockLoop, andThen_assoc, andThen_noBlocks_left, andThen_noBlocks_right]
/-- The block loop of the model, which searches the tree as it goes, is the loop of the
source over the list `findAll` gives. -/
theorem compileBlocksList_eq_blockLoop (children : List Node) :
    compileBlocksList children = blockLoop (findAllBlocks children) :=
  compileBlocksList_loop children fun n _ =>
    compileBlocks_loop_node (sizeOf n + 1) n (Nat.lt_succ_self _)

theorem collectBlocksList_filterMap :
    ∀ cs, (∀ n, sizeOf n < sizeOf cs →
        collectBlocks n = (subnodes n).filterMap Node.asBlock?) →
      collectBlocksList cs = (subnodesList cs).filterMap Node.asBlock? := by
  intro cs
  induction cs with
  | nil => intro _; simp only [collectBlocksList, subnodesList, List.filterMap_nil]
  | cons n rest ih =>
    intro hcs
    simp only [collectBlocksList, subnodesList, List.filterMap_append]
    rw [hcs n (by simp; omega), ih (fun m hm => hcs m (by simp; omega))]
theorem collectBlocksOps_filterMap :
    ∀ ops : List (String × Node), (∀ n, sizeOf n < sizeOf ops →
        collectBlocks n = (subnodes n).filterMap Node.asBlock?) →
      collectBlocksOps ops = (subnodesOps ops).filterMap Node.asBlock? := by
  intro ops
  induction ops with
  | nil => intro _; simp only [collectBlocksOps, subnodesOps, List.filterMap_nil]
  | cons o rest ih =>
    obtain ⟨op, e⟩ := o
    intro hcs
    simp only [collectBlocksOps, subnodesOps, List.filterMap_append]
    rw [hcs e (by simp; omega), ih (fun m hm => hcs m (by simp; omega))]
theorem collectBlocks_filterMap_node :
    ∀ (k : Nat) (n : Node), sizeOf n < k →
      collectBlocks n = (subnodes n).filterMap Node.asBlock? := by
  intro k
  induction k with
  | zero => intro n hn; omega
  | succ k ih =>
    intro n hn
    cases n with
    | NodeList children =>
      simp only [collectBlocks, subnodes, List.filterMap_cons, List.filterMap_append, List.filterMap_nil, Node.asBlock?, List.nil_append, List.append_nil, List.cons_append]
      rw [← collectBlocksList_filterMap children (fun m hm => ih m (by simp at hn; omega))]
    | Literal value =>
      simp only [collectBlocks, subnodes, List.filterMap_cons, List.filterMap_append, List.filterMap_nil, Node.asBlock?, List.nil_append, List.append_nil, List.cons_append]
    | Symbol value =>
      simp only [collectBlocks, subnodes, List.filterMap_cons, List.filterMap_append, List.filterMap_nil, Node.asBlock?, List.nil_append, List.append_nil, List.cons_append]
    | Agg kind children =>
      simp only [collectBlocks, subnodes, List.filterMap_cons, List.filterMap_append, List.filterMap_nil, Node.asBlock?, List.nil_append, List.append_nil, List.cons_append]
      rw [← collectBlocksList_filterMap children (fun m hm => ih m (by simp at hn; omega))]
    | Pair key val =>
      cases key <;> cases val
      · simp only [collectBlocks, subnodes, List.filterMap_cons, List.filterMap_append, List.filterMap_nil, Node.asBlock?, List.nil_append, List.append_nil, List.cons_append]
      · rename_i v
        simp only [collectBlocks, subnodes, List.filterMap_cons, List.filterMap_append, List.filterMap_nil, Node.asBlock?, List.nil_append, List.append_nil, List.cons_append]
        rw [← ih v (by simp at hn; omega)]
      · rename_i k
        simp only [collectBlocks, subnodes, List.filterMap_cons, List.filterMap_append, List.filterMap_nil, Node.asBlock?, List.nil_append, List.append_nil, List.cons_append]
        rw [← ih k (by simp at hn; omega)]
      · rename_i k v
        simp only [collectBlocks, subnodes, List.filterMap_cons, List.filterMap_append, List.filterMap_nil, Node.asBlock?, List.nil_append, List.append_nil, List.cons_append]
        rw [← ih k (by simp at hn; omega), ← ih v (by simp at hn; omega)]
    | Bin kind left right =>
      simp only [collectBlocks, subnodes, List.filterMap_cons, List.filterMap_append, List.filterMap_nil, Node.asBlock?, List.nil_append, List.append_nil, List.cons_append]
      rw [← ih left (by simp at hn; omega), ← ih right (by simp at hn; omega)]
    | Unary kind target =>
      simp only [collectBlocks, subnodes, List.filterMap_cons, List.filterMap_append, List.filterMap_nil, Node.asBlock?, List.nil_append, List.append_nil, List.cons_append]
      rw [← ih target (by simp at hn; omega)]
    | Compare expr ops =>
      simp only [collectBlocks, subnodes, List.filterMap_cons, List.filterMap_append, List.filterMap_nil, Node.asBlock?, List.nil_append, List.append_nil, List.cons_append]
      rw [← ih expr (by simp at hn; omega), ← collectBlocksOps_filterMap ops (fun m hm => ih m (by simp at hn; omega))]
    | LookupVal target val =>
      simp only [collectBlocks, subnodes, List.filterMap_cons, List.filterMap_append, List.filterMap_nil, Node.asBlock?, List.nil_append, List.append_nil, List.cons_append]
      rw [← ih target (by simp at hn; omega), ← ih val (by simp at hn; omega)]
    | FunCall name children =>
      simp only [collectBlocks, subnodes, List.filterMap_cons, List.filterMap_append, List.filterMap_nil, Node.asBlock?, List.nil_append, List.append_nil, List.cons_append]
      rw [← ih name (by simp at hn; omega), ← collectBlocksList_filterMap children (fun m hm => ih m (by simp at hn; omega))]
    | Filter name children =>
      simp only [collectBlocks, subnodes, List.filterMap_cons, List.filterMap_append, List.filterMap_nil, Node.asBlock?, List.nil_append, List.append_nil, List.cons_append]
      rw [← ih name (by simp at hn; omega), ← collectBlocksList_filterMap children (fun m hm => ih m (by simp at hn; omega))]
    | Set targets value =>
      simp only [collectBlocks, subnodes, List.filterMap_cons, List.filterMap_append, List.filterMap_nil, Node.asBlock?, List.nil_append, List.append_nil, List.cons_append]
      rw [← ih value (by simp at hn; omega)]
    | If cond body else_ =>
      cases else_
      · simp only [collectBlocks, subnodes, List.filterMap_cons, List.filterMap_append, List.filterMap_nil, Node.asBlock?, List.nil_append, List.append_nil, List.cons_append]
        rw [← ih cond (by simp at hn; omega), ← ih body (by simp at hn; omega)]
      · rename_i e
        simp only [collectBlocks, subnodes, List.filterMap_cons, List.filterMap_append, List.filterMap_nil, Node.asBlock?, List.nil_append, List.append_nil, List.cons_append]
        rw [← ih cond (by simp at hn; omega), ← ih body (by simp at hn; omega), ← ih e (by simp at hn; omega)]
    | For arr name body =>
      simp only [collectBlocks, subnodes, List.filterMap_cons, List.filterMap_append, List.filterMap_nil, Node.asBlock?, List.nil_append, List.append_nil, List.cons_append]
      rw [← ih arr (by simp at hn; omega), ← ih name (by simp at hn; omega), ← ih body (by simp at hn; omega)]
    | Macro name children body =>
      simp only [collectBlocks, subnodes, List.filterMap_cons, List.filterMap_append, List.filterMap_nil, Node.asBlock?, List.nil_append, List.append_nil, List.cons_append]
      rw [← collectBlocksList_filterMap children (fun m hm => ih m (by simp at hn; omega)), ← ih body (by simp at hn; omega)]
    | Import template target =>
      simp only [collectBlocks, subnodes, List.filterMap_cons, List.filterMap_append, List.filterMap_nil, Node.asBlock?, List.nil_append, List.append_nil, List.cons_append]
      rw [← ih template (by simp at hn; omega)]
    | FromImport template children =>
      simp only [collectBlocks, subnodes, List.filterMap_cons, List.filterMap_append, List.filterMap_nil, Node.asBlock?, List.nil_append, List.append_nil, List.cons_append]
      rw [← ih template (by simp at hn; omega), ← collectBlocksList_filterMap children (fun m hm => ih m (by simp at hn; omega))]
    | Block name body =>
      simp only [collectBlocks, subnodes, List.filterMap_cons, List.filterMap_append, List.filterMap_nil, Node.asBlock?, List.nil_append, List.append_nil, List.cons_append]
      rw [← ih body (by simp at hn; omega)]
    | Extends template =>
      simp only [collectBlocks, subnodes, List.filterMap_cons, List.filterMap_append, List.filterMap_nil, Node.asBlock?, List.nil_append, List.append_nil, List.cons_append]
      rw [← ih template (by simp at hn; omega)]
    | Include template =>
      simp only [collectBlocks, subnodes, List.filterMap_cons, List.filterMap_append, List.filterMap_nil, Node.asBlock?, List.nil_append, List.append_nil, List.cons_append]
      rw [← ih template (by simp at hn; omega)]
    | Output children =>
      simp only [collectBlocks, subnodes, List.filterMap_cons, List.filterMap_append, List.filterMap_nil, Node.asBlock?, List.nil_append, List.append_nil, List.cons_append]
      rw [← collectBlocksList_filterMap children (fun m hm => ih m (by simp at hn; omega))]
    | TemplateData value =>
      simp only [collectBlocks, subnodes, List.filterMap_cons, List.filterMap_append, List.filterMap_nil, Node.asBlock?, List.nil_append, List.append_nil, List.cons_append]
    | Root children =>
      simp only [collectBlocks, subnodes, List.filterMap_cons, List.filterMap_append, List.filterMap_nil, Node.asBlock?, List.nil_append, List.append_nil, List.cons_append]
      rw [← collectBlocksList_filterMap children (fun m hm => ih m (by simp at hn; omega))]
/-- The search `findAll` gives the `Block` nodes of the tree, each once, in the order of
the tree. -/
theorem findAllBlocks_eq_filterMap (children : List Node) :
    findAllBlocks children = (subnodesList children).filterMap Node.asBlock? :=
  collectBlocksList_filterMap children fun n _ =>
    collectBlocks_filterMap_node (sizeOf n + 1) n (Nat.lt_succ_self _)
theorem findAllBlocks_length (children : List Node) :
    (findAllBlocks children).length = blocksIn children := by
  rw [findAllBlocks_eq_filterMap, blocksIn]
  induction subnodesList children with
  | nil => rfl
  | cons n rest ih =>
    cases n <;> simp [List.filterMap_cons, Node.asBlock?, Node.isBlock, ih]

/-! ## Symbols, expression positions, dict keys -/

/-- C1.  `compileSymbol`: with a frame whose chain binds the name to an identifier (a
non-empty string, as is every identifier the compiler binds: `t_<n>`, `l_<name>`), the
compiler emits exactly that identifier; with a frame that does not bind the name it emits
exactly the three-level fallback, context first, then the runtime frame, then the empty
string.  In both cases the call returns, and the frame is unchanged. -/
theorem compileSymbol_fast_path_or_fallback (name : String) (f : Frame) (c : Compiler) :
    (∀ id, f.lookup name = some id → id ≠ "" →
      compile (.Symbol name) (some f) c =
        .ok (some f) { c with codebuf := c.codebuf ++ [id] }) ∧
    (f.lookup name = none →
      compile (.Symbol name) (some f) c =
        .ok (some f) { c with codebuf := c.codebuf ++
          ["context.lookup(\"" ++ name ++ "\") || " ++ "frame.lookup(\"" ++ name ++ "\") || " ++
            "\"\""] }) := by
  constructor
  · intro id h1 h2
    simp [compile, compileSymbol, requireFrame, h1, h2]
  · intro h1
    simp [compile, compileSymbol, requireFrame, h1]

/-- Witness of C1: a name bound by a loop, and an unbound name. -/
theorem compileSymbol_fast_path_or_fallback_witness :
    compile (.Symbol "item") (some (Frame.child [("item", "t_3")] Frame.new)) Compiler.init =
        .ok (some (Frame.child [("item", "t_3")] Frame.new))
          { Compiler.init with codebuf := Compiler.init.codebuf ++ ["t_3"] } ∧
    compile (.Symbol "user") (some Frame.new) Compiler.init =
        .ok (some Frame.new) { Compiler.init with codebuf := Compiler.init.codebuf ++
          ["context.lookup(\"" ++ "user" ++ "\") || " ++ "frame.lookup(\"" ++ "user" ++ "\") || " ++
            "\"\""] } :=
  ⟨(compileSymbol_fast_path_or_fallback "item" (Frame.child [("item", "t_3")] Frame.new)
      Compiler.init).1 "t_3" (by decide) (by decide),
   (compileSymbol_fast_path_or_fallback "user" Frame.new Compiler.init).2 (by decide)⟩

/-- C4.  `_compileExpression`: for a node of one of the twelve expression classes the
assertion passes and the call is `compile` of the node; for a node of any other class it
throws `invalid type: <typename>` with the state it was called in, so nothing is emitted
for the node. -/
theorem compileExpression_accepts_expression_classes (node : Node) (fr : Option Frame)
    (c : Compiler) :
    compileExpression node (compile node) fr c =
      if node.typename ∈ ["Literal", "Symbol", "Group", "Array", "Dict", "FunCall", "Filter",
          "LookupVal", "Compare", "And", "Or", "Not"]
      then compile node fr c
      else .threw (.invalidType node.typename) c := by
  cases node
  case Agg kind _ =>
    cases kind <;>
      simp [compileExpression, assertExpression, assertType, expressionTypes, Node.instanceOf,
        Node.typename, AggKind.typename]
  case Bin kind _ _ =>
    cases kind <;>
      simp [compileExpression, assertExpression, assertType, expressionTypes, Node.instanceOf,
        Node.typename, BinKind.typename]
  case Unary kind _ =>
    cases kind <;>
      simp [compileExpression, assertExpression, assertType, expressionTypes, Node.instanceOf,
        Node.typename, UnaryKind.typename]
  all_goals
    simp [compileExpression, assertExpression, assertType, expressionTypes, Node.instanceOf,
      Node.typename]

/-- C9.  `compileBlock` emits one line, the call of the block looked up in the context,
and that call passes three arguments: `env`, `context` and `frame`, without `runtime`. -/
theorem compileBlock_call_has_three_arguments (name : String) (body : Node)
    (fr : Option Frame) (c : Compiler) :
    compile (.Block name body) fr c =
      .ok fr { c with codebuf := c.codebuf ++
        [c.buffer.getD "null" ++
          " += context.getBlock(\"" ++ name ++ "\")(env, context, frame);" ++ "\n"] } := by
  cases h : c.buffer <;> simp [compile, compileBlock, h]

/-- C14.  `compilePair` with a `Literal` key throws `Dict keys must be strings or names`,
whatever the literal and the value are: the test reads `value` on the pair, not on the
key. -/
theorem compilePair_literal_key_throws (v : JsValue) (val : Option Node) (fr : Option Frame)
    (c : Compiler) :
    compile (.Pair (some (.Literal v)) val) fr c = .threw .dictKeys c := by
  cases val <;>
    simp [compile, compilePair, compilePairKey, Node.valueIsString, Node.value?]

/-- C20.  `compileSet` with a `Symbol` for a value throws a `TypeError`, whatever the
frame it is given: the value is compiled without a frame, and `compileSymbol` calls
`lookup` on it.  The temporary is made and the start of the declaration emitted before. -/
theorem compileSet_symbol_value_throws (targets : List String) (name : String)
    (fr : Option Frame) (c : Compiler) :
    compile (.Set targets (.Symbol name)) fr c =
      .threw .typeError
        { c with
          codebuf := c.codebuf ++ ["var " ++ tmpName (c.lastId + 1) ++ " = "]
          lastId := c.lastId + 1
          issued := c.issued ++ [tmpName (c.lastId + 1)] } := by
  simp [compile, compileSet, compileExpression, assertExpression, assertType, expressionTypes,
    Node.instanceOf, Node.typename, compileSymbol, requireFrame]

/-! ## Calls, `Set`, macros, literals: what the code emits on given inputs -/

/-- C10.  `compileFunCall` on the call `f(a=1, b=2)`: the keyword map of the macro branch
is written `{a: 1b: 2}`, its two entries not separated by a comma, because
`_emitCallKwargs` emits no separator between the entries. -/
theorem compileFunCall_keyword_entries_not_separated :
    (compile (.FunCall (.Symbol "f")
        [.Pair (some (.Symbol "a")) (some (.Literal (.num 1))),
         .Pair (some (.Symbol "b")) (some (.Literal (.num 2)))])
      (some Frame.new) Compiler.init).state.getCode =
      "(context.lookup(\"f\") || frame.lookup(\"f\") || \"\").isMacro ? (context.lookup(\"f\") || frame.lookup(\"f\") || \"\")([], \x7ba: 1b: 2\x7d) : (context.lookup(\"f\") || frame.lookup(\"f\") || \"\")()" := by
  decide!

/-- C12.  `compileSet` after an `Extends`: in the template `extends "p"` followed by
`set x = 1` the child flag is set when the `Set` is compiled (the root ends by delegating
to the parent), and the `Set` still emits `context.setVariable` and `context.addExport`
for its target. -/
theorem compileSet_exports_in_child_template :
    (compile (.Root [.Extends (.Literal (.str "p")), .Set ["x"] (.Literal (.num 1))])
      none Compiler.init).state.getCode =
      "function root(env, context, frame, runtime) \x7b\n" ++
      "var output = \"\";\n" ++
      "var parentTemplate = env.getTemplate(\"p\", true);\n" ++
      "for(var t_1 in parentTemplate.blocks) \x7b\n" ++
      "context.addBlock(t_1, parentTemplate.blocks[t_1]);\n" ++
      "\x7d\n" ++
      "var t_2 = 1;\n" ++
      "context.setVariable(\"x\", t_2);\n" ++
      "context.addExport(\"x\");\n" ++
      "return parentTemplate.rootRenderFunc(env, context, frame, runtime);\n" ++
      "\x7d\n" ++
      "return \x7b\n" ++
      "root: root\n" ++
      "\x7d;\n" := by
  decide!

/-- C13, the claim as it was stated fails: for a macro named `_m`, compiled when the
compiler is not a child, the publication `context.setVariable("_m", l__m);` is emitted
although the name begins with an underscore (the export is not). -/
theorem compileMacro_underscore_still_published :
    (compile (.Macro "_m" [] (.NodeList [])) (some Frame.new) Compiler.init).state.isChild =
      false ∧
    (compile (.Macro "_m" [] (.NodeList [])) (some Frame.new) Compiler.init).state.getCode =
      "frame = frame.push();\n" ++
      "var macro = function() \x7b\n" ++
      "var macroOutput= \"\";\n" ++
      "return macroOutput;\n" ++
      "\x7d;\n" ++
      "frame = frame.pop();\n" ++
      "var l__m = runtime.wrapMacro(macro, \"_m\", [], false, false, false);\n" ++
      "context.setVariable(\"_m\", l__m);\n" := by
  decide!

/-- C15.  `compileLiteral` does not escape the backslash: the two-character string made of
a backslash and the letter `n`, and the one-character string made of a line feed, both give
the literal `"\n"`, which decodes to the line feed only. -/
theorem compileLiteral_backslash_collides_with_newline :
    ("\\n" : String) ≠ "\n" ∧
    (compile (.Literal (.str "\\n")) none Compiler.init).state.getCode = "\"\\n\"" ∧
    (compile (.Literal (.str "\n")) none Compiler.init).state.getCode = "\"\\n\"" ∧
    (compile (.TemplateData (.str "\\n")) none Compiler.init).state.getCode = "\"\\n\"" := by
  decide!

/-- C21.  A block body that names a top-level macro: in the template that defines the
macro `m` and then the block `b` whose body outputs `m`, the function `b_b` of the block
emits the identifier `l_m`, which is declared by `var l_m` inside the function `root` only;
`b_b` is a separate function that follows `root`, and declares only `output` and
`l_super`. -/
theorem block_body_uses_identifier_declared_in_root :
    (compile (.Root [.Macro "m" [] (.NodeList []), .Block "b" (.Output [.Symbol "m"])])
      none Compiler.init).state.getCode =
      "function root(env, context, frame, runtime) \x7b\n" ++
      "var output = \"\";\n" ++
      "frame = frame.push();\n" ++
      "var macro = function() \x7b\n" ++
      "var macroOutput= \"\";\n" ++
      "return macroOutput;\n" ++
      "\x7d;\n" ++
      "frame = frame.pop();\n" ++
      "var l_m = runtime.wrapMacro(macro, \"m\", [], false, false, false);\n" ++
      "context.addExport(\"m\");\n" ++
      "context.setVariable(\"m\", l_m);\n" ++
      "output += context.getBlock(\"b\")(env, context, frame);\n" ++
      "return output;\n" ++
      "\x7d\n" ++
      "function b_b(env, context, frame, runtime) \x7b\n" ++
      "var output = \"\";\n" ++
      "var l_super = context.getSuper(env, \"b\", b_b, runtime);\n" ++
      "output += l_m;\n" ++
      "return output;\n" ++
      "\x7d\n" ++
      "return \x7b\n" ++
      "b_b: b_b,\n" ++
      "root: root\n" ++
      "\x7d;\n" := by
  decide!

/-! ## `Set` and `Macro`: what is published -/

theorem stepRel_true : StepRel fun _ _ => True :=
  ⟨fun _ => trivial, fun _ _ _ _ _ => trivial, fun _ _ => trivial, fun _ => trivial,
    fun _ _ => trivial, fun _ => trivial⟩

/-- The frame `compile` returns has the scope of the frame it was given. -/
theorem compile_sameScope (n : Node) (fr : Option Frame) (c : Compiler) (fr1 : Option Frame)
    (c1 : Compiler) (h : compile n fr c = .ok fr1 c1) : sameScope fr fr1 :=
  (compile_gen stepRel_true n fr).scope c fr1 c1 h

theorem exported_eq (t : String) : exported t = !beginsWithUnderscore t := rfl

theorem emitSetTargets_apply (val : String) (targets : List String) :
    ∀ c : Compiler, emitSetTargets val targets c =
      .ok () { c with codebuf := c.codebuf ++ setTargetLines val targets } := by
  induction targets with
  | nil => intro c; simp [emitSetTargets, setTargetLines]
  | cons t rest ih =>
    intro c
    cases ht : beginsWithUnderscore t <;>
      simp [emitSetTargets, setTargetLines, exported_eq, ht, ih]

/-- C11.  `compileSet`: when the compilation of a `Set` returns, the value was compiled
once, between the fragment `var <temp> = ` and the line `;`, where `<temp>` is the
identifier `tmpid` made at the start of the call; after it come, for each target in order,
one `context.setVariable("<target>", <temp>);` with that same identifier, followed by
`context.addExport("<target>");` exactly when the target does not begin with an underscore
(the lines of `setTargetLines`), and nothing else.  The frame is returned unchanged. -/
theorem compileSet_assigns_once_then_publishes (targets : List String) (value : Node)
    (fr : Option Frame) (c : Compiler) (fr1 : Option Frame) (c1 : Compiler)
    (h : compile (.Set targets value) fr c = .ok fr1 c1) :
    ∃ fr0 c0,
      compileExpression value (compile value) none
        { c with
          codebuf := c.codebuf ++ ["var " ++ tmpName (c.lastId + 1) ++ " = "]
          lastId := c.lastId + 1
          issued := c.issued ++ [tmpName (c.lastId + 1)] } = .ok fr0 c0 ∧
      c1 = { c0 with codebuf := c0.codebuf ++
              ((";" ++ "\n") :: setTargetLines (tmpName (c.lastId + 1)) targets) } ∧
      fr1 = fr := by
  simp only [compile, compileSet, bind_apply, tmpid_apply, emit_apply] at h
  split at h
  · rename_i fr0 c0 he
    refine ⟨fr0, c0, he, ?_⟩
    simp only [emitLine_apply, emitSetTargets_apply, pure_apply, Res.ok.injEq] at h
    obtain ⟨h1, h2⟩ := h
    subst h1 h2
    simp
  · simp at h

/-- Witness of C11: `set x, _y = 1`. -/
theorem compileSet_assigns_once_then_publishes_witness :
    ∃ fr0 c0,
      compileExpression (.Literal (.num 1)) (compile (.Literal (.num 1))) none
        { Compiler.init with
          codebuf := Compiler.init.codebuf ++ ["var " ++ tmpName (Compiler.init.lastId + 1) ++ " = "]
          lastId := Compiler.init.lastId + 1
          issued := Compiler.init.issued ++ [tmpName (Compiler.init.lastId + 1)] } = .ok fr0 c0 ∧
      ({ codebuf := ["var t_1 = ", "1", ";\n", "context.setVariable(\"x\", t_1);\n",
            "context.addExport(\"x\");\n", "context.setVariable(\"_y\", t_1);\n"],
         lastId := 1, buffer := none, isChild := false, issued := ["t_1"] } : Compiler) =
        { c0 with codebuf := c0.codebuf ++
              ((";" ++ "\n") :: setTargetLines (tmpName (Compiler.init.lastId + 1)) ["x", "_y"]) } ∧
      (some Frame.new) = some Frame.new :=
  compileSet_assigns_once_then_publishes ["x", "_y"] (.Literal (.num 1)) (some Frame.new)
    Compiler.init (some Frame.new) _ (by decide!)

/-- C13, amended.  `compileMacro`: when the compilation of a macro named `m` returns, it
was given a frame, and the frame it leaves is that frame with `m` bound to `l_m`, in all
cases.  The last lines it emits, after the definition of the macro, are the lines of
`macroPublication` for the child flag at that point: nothing for a child; otherwise
`context.addExport("m");` exactly when `m` does not begin with an underscore, and then
`context.setVariable("m", l_m);` whether or not it does. -/
theorem compileMacro_binds_and_publishes (name : String) (children : List Node) (body : Node)
    (fr : Option Frame) (c : Compiler) (fr1 : Option Frame) (c1 : Compiler)
    (h : compile (.Macro name children body) fr c = .ok fr1 c1) :
    ∃ f mf c0,
      fr = some f ∧
      (macroBody children (compile body) fr >>= fun mf =>
        emit ("var l_" ++ name ++ " = ") >>= fun _ =>
          macroDef name (macroDefArgs children) mf) c = .ok mf c0 ∧
      fr1 = some (f.set name ("l_" ++ name)) ∧
      c1 = { c0 with codebuf := c0.codebuf ++ macroPublication name c0.isChild } := by
  cases fr with
  | none =>
    have h0 : compile (.Macro name children body) none c = .threw .typeError c := by
      simp only [compile, compileMacro, macroBody, requireFrame, raise_bind, raise_apply]
    rw [h0] at h
    cases h
  | some f =>
    simp only [compile, compileMacro, bind_apply] at h
    cases hb : macroBody children (compile body) (some f) c with
    | threw e c' => simp [hb] at h
    | ok mf1 c' =>
      simp only [hb, emit_apply] at h
      cases hd : macroDef name (macroDefArgs children) mf1
          { c' with codebuf := c'.codebuf ++ ["var l_" ++ name ++ " = "] } with
      | threw e c2 => simp [hd] at h
      | ok mf c0 =>
        have s1 := (macroBody_gen stepRel_true children
          (fun fr => compile_gen stepRel_true body fr) f).scope _ _ _ hb
        have s2 := (macroDef_gen stepRel_true name
          (macroDefArgs_gen stepRel_true children fun n _ => compile_gen stepRel_true n)
          mf1).scope _ _ _ hd
        have hp : mf.bind Frame.pop = some f := pop_of_sameScope_push (sameScope_trans s1 s2)
        refine ⟨f, mf, c0, rfl, ?_, ?_⟩
        · simp only [bind_apply, hb, emit_apply, hd]
        · simp only [hd, hp, frameSet, requireFrame, pure_bind, bind_apply, pure_apply,
            getIsChild_apply] at h
          cases hc : c0.isChild <;> cases hu : beginsWithUnderscore name <;>
            simp [hc, hu, exported_eq, macroPublication] at h ⊢ <;>
            obtain ⟨h1, h2⟩ := h <;> subst h1 h2 <;> cases c0 <;> simp_all

/-- Witness of C13: the macro `_m`, compiled outside a child template. -/
theorem compileMacro_binds_and_publishes_witness :
    ∃ f mf c0,
      some Frame.new = some f ∧
      (macroBody [] (compile (.NodeList [])) (some Frame.new) >>= fun mf =>
        emit ("var l_" ++ "_m" ++ " = ") >>= fun _ =>
          macroDef "_m" (macroDefArgs []) mf) Compiler.init = .ok mf c0 ∧
      some (Frame.top [("_m", "l__m")]) = some (f.set "_m" ("l_" ++ "_m")) ∧
      ({ codebuf := ["frame = frame.push();\n", "var macro = function() \x7b\n",
            "var macroOutput= \"\";\n", "return macroOutput;\n", "\x7d;\n",
            "frame = frame.pop();\n", "var l__m = ", "runtime.wrapMacro(macro, \"_m\", [",
            "], false, false, false);\n", "context.setVariable(\"_m\", l__m);\n"],
         lastId := 0, buffer := none, isChild := false, issued := [] } : Compiler) =
        { c0 with codebuf := c0.codebuf ++ macroPublication "_m" c0.isChild } :=
  compileMacro_binds_and_publishes "_m" [] (.NodeList []) (some Frame.new) Compiler.init _ _
    (by decide!)

/-! ## Loop metadata -/

theorem emitSequentialLoop_apply (i arr v name : String) (c : Compiler) :
    emitSequentialLoop i arr v name c = .ok () { c with codebuf := c.codebuf ++
      (["for(var " ++ i ++ "=0; " ++ i ++ " < " ++ arr ++ ".length; " ++ i ++ "++) \x7b" ++ "\n",
        "var " ++ v ++ " = " ++ arr ++ "[" ++ i ++ "];" ++ "\n",
        "frame.set(\"" ++ name ++ "\", " ++ v ++ ");" ++ "\n"] ++
       sequentialMetadata.map fun p =>
        "frame.set(\"" ++ p.1 ++ "\", " ++ p.2.text i arr ++ ");" ++ "\n") } := by
  simp only [emitSequentialLoop, bind_apply, emitLine_apply, sequentialMetadata, List.map,
    LoopExpr.text, List.append_assoc, List.cons_append, List.nil_append]
  refine congrArg (Res.ok ()) ?_
  refine congrArg (fun l => { c with codebuf := c.codebuf ++ l }) ?_
  simp only [List.cons.injEq, and_true]
  refine ⟨trivial, trivial, trivial, ?_, ?_, ?_, ?_, ?_, ?_, ?_⟩ <;>
    (apply String.ext
     simp only [String.data_append, List.append_assoc]
     rfl)

/-! ## The default extension of the web loader -/

theorem head_dot_append (s : String) : (".".append s).toList.head? = some '.' := by
  show (("." : String) ++ s).data.head? = some '.'
  rw [String.data_append]
  rfl

/-- C19.  `WebLoader.init`: the stored `defaultExt` begins with `.`; it is `.html` when the
argument is not passed, is not a string, or is the empty string; it is the argument itself
when that is a non-empty string beginning with `.`; otherwise it is `.` followed by the
argument; and storing the result of a normalisation again leaves it unchanged. -/
theorem WebLoader_defaultExt_normalised (arg : ExtArg) :
    (WebLoader.defaultExt arg).toList.head? = some '.' ∧
    WebLoader.defaultExt .absent = ".html" ∧
    WebLoader.defaultExt .notString = ".html" ∧
    WebLoader.defaultExt (.str "") = ".html" ∧
    (∀ s, arg = .str s → s ≠ "" → s.toList.head? = some '.' → WebLoader.defaultExt arg = s) ∧
    (∀ s, arg = .str s → s ≠ "" → s.toList.head? ≠ some '.' →
      WebLoader.defaultExt arg = "." ++ s) ∧
    WebLoader.defaultExt (.str (WebLoader.defaultExt arg)) = WebLoader.defaultExt arg := by
  have hne : ∀ s : String, s ≠ "" → s.length ≠ 0 := by
    intro s hs h0
    apply hs
    apply String.ext
    exact List.length_eq_zero.mp h0
  have hlen : ∀ s : String, s.toList.head? = some '.' → s.length ≠ 0 := by
    intro s hs h0
    have : s.data = [] := List.length_eq_zero.mp h0
    simp [String.toList, this] at hs
  have hhead : (WebLoader.defaultExt arg).toList.head? = some '.' := by
    unfold WebLoader.defaultExt
    simp only
    split
    · assumption
    · exact head_dot_append _
  refine ⟨hhead, by decide, by decide, by decide, ?_, ?_, ?_⟩
  · rintro s rfl hs hd
    have hd1 : s.data.head? = some '.' := hd
    simp [WebLoader.defaultExt, hne s hs, hd1]
  · rintro s rfl hs hd
    have hd1 : ¬ s.data.head? = some '.' := hd
    simp [WebLoader.defaultExt, hne s hs, hd1]
    rfl
  · generalize WebLoader.defaultExt arg = t at hhead
    have hd1 : t.data.head? = some '.' := hhead
    simp [WebLoader.defaultExt, hlen t hhead, hd1]

/-- Witness of C19: the arguments `.txt` and `txt`. -/
theorem WebLoader_defaultExt_normalised_witness :
    WebLoader.defaultExt (.str ".txt") = ".txt" ∧ WebLoader.defaultExt (.str "txt") = "." ++ "txt" :=
  ⟨(WebLoader_defaultExt_normalised (.str ".txt")).2.2.2.2.1 ".txt" rfl (by decide) (by decide),
   (WebLoader_defaultExt_normalised (.str "txt")).2.2.2.2.2.1 "txt" rfl (by decide) (by decide)⟩

/-! ## The root: `Extends` more than once, and the error of a nested root -/

theorem rootFree_iff (cs : List Node) :
    rootFree cs = true ↔ ∀ m ∈ subnodesList cs, m.isRoot = false := by
  simp [rootFree, List.all_eq_true]

/-- What the compilation of a root keeps to: the counts are those of its statement list and
of the bodies of its blocks. -/
theorem compile_root_spec (children : List Node) (hr : rootFree children = true) :
    Spec false (extendsStatements children) (extendsReached children)
      (compile (.Root children) none) := by
  rw [rootFree_iff] at hr
  simp only [compile, extendsStatements, extendsReached, findAllBlocks]
  exact compileRoot_spec children
    (fun fr => spec_weaken (@compileChildren_spec false children
      (fun n _ hrn fr => compile_spec n hrn fr) hr fr))
    (compileBlocksList_spec children (fun n _ hrn fr => compileBlocks_spec n hrn fr) hr)

theorem stepRel_child : StepRel fun c c1 => c.isChild = true → c1.isChild = true :=
  ⟨fun _ h => h, fun _ _ _ h1 h2 h => h2 (h1 h), fun _ _ h => h, fun _ h => h,
    fun _ _ h => h, fun _ _ => rfl⟩

theorem compileChildren_append (a b : List Node) (fr : Option Frame) :
    compileChildren (a ++ b) fr = compileChildren a fr >>= compileChildren b := by
  induction a generalizing fr with
  | nil => simp only [List.nil_append, compileChildren, pure_bind]
  | cons n rest ih =>
    funext c
    simp only [List.cons_append, compileChildren, bind_apply]
    cases compile n fr c with
    | ok f1 c1 =>
      show compileChildren (rest ++ b) f1 c1 = _
      rw [ih]
      simp only [bind_apply]
    | threw e c1 => rfl

theorem emitFuncBegin_ok (name : String) (c : Compiler) :
    emitFuncBegin name c = .ok () (emitFuncBegin name c).state := by
  simp [emitFuncBegin, Res.state]

theorem compileExtends_ok_child (t : Node) (fr : Option Frame) (c : Compiler)
    (fr1 : Option Frame) (c1 : Compiler) (h : compile (.Extends t) fr c = .ok fr1 c1) :
    c1.isChild = true := by
  cases hc : c.isChild with
  | true =>
    simp only [compile, compileExtends, bind_apply, getIsChild_apply, hc, ↓reduceIte,
      raise_apply] at h
    simp at h
  | false =>
    simp only [compile, compileExtends, bind_apply, getIsChild_apply, hc, Bool.false_eq_true,
      ↓reduceIte, pure_apply, emit_apply] at h
    split at h
    · simp only [emitLine_apply, tmpid_apply, setIsChild_apply, Res.ok.injEq] at h
      obtain ⟨-, rfl⟩ := h
      rfl
    · simp at h

theorem compileExtends_child_throws (t : Node) (fr : Option Frame) (c : Compiler)
    (hc : c.isChild = true) : compile (.Extends t) fr c = .threw .cannotExtend c := by
  simp only [compile, compileExtends, bind_apply, getIsChild_apply, hc, ↓reduceIte, raise_apply]

theorem compileChildren_child (cs : List Node) (fr : Option Frame) (c : Compiler)
    (hc : c.isChild = true) : (compileChildren cs fr c).state.isChild = true :=
  (compileChildren_genF stepRel_child cs fr).state c hc

/-- After an `Extends` among the statements compiled, the child flag is set. -/
theorem compileChildren_extends_child (pre mid : List Node) (t : Node) (fr : Option Frame)
    (c : Compiler) (fr1 : Option Frame) (c1 : Compiler)
    (h : compileChildren (pre ++ [.Extends t] ++ mid) fr c = .ok fr1 c1) :
    c1.isChild = true := by
  rw [List.append_assoc, compileChildren_append, bind_apply] at h
  split at h
  · rename_i f2 c2 h2
    rw [List.singleton_append] at h
    simp only [compileChildren, bind_apply] at h
    split at h
    · rename_i f3 c3 h3
      have h4 := compileExtends_ok_child t f2 c2 f3 c3 h3
      have h5 := compileChildren_child mid f3 c3 h4
      rw [h] at h5
      exact h5
    · simp at h
  · simp at h

/-- C2, the claim as it was stated fails: a root with two `Extends` statements whose first
template is an addition.  The compilation fails with `invalid type: Add`, raised by the
first `Extends` before the second is reached, not with `cannot extend multiple times`. -/
theorem two_extends_other_error_first :
    (compile (.Root [.Extends (.Bin .Add (.Literal (.str "a")) (.Literal (.str "b"))),
        .Extends (.Literal (.str "p"))]) none Compiler.init).error? =
      some (.invalidType "Add") := by
  decide!

/-- C2, amended.  For a root without a nested `Root`, with two or more `Extends` statements
(in its statement list, in the bodies of `If`, `For` and `Macro`, in the bodies of its
blocks), the compilation never returns: it fails.  And when the statement list holds two
`Extends` statements and the statements up to the second one compile without error, the
second one throws `cannot extend multiple times`, in the state reached just before it. -/
theorem two_extends_fail (c : Compiler) :
    (∀ children, rootFree children = true → 2 ≤ extendsStatements children →
      ∀ fr c1, compile (.Root children) none c ≠ .ok fr c1) ∧
    (∀ pre mid post t1 t2 fr cm,
      compileChildren (pre ++ [.Extends t1] ++ mid) (some Frame.new)
        (emitFuncBegin "root" c).state = .ok fr cm →
      compile (.Root (pre ++ [.Extends t1] ++ mid ++ [.Extends t2] ++ post)) none c =
        .threw .cannotExtend cm) := by
  constructor
  · intro children hr h2 fr c1 h
    have := ((compile_root_spec children hr).ok c fr c1 h).1
    omega
  · intro pre mid post t1 t2 fr cm h
    have hc := compileChildren_extends_child pre mid t1 _ _ _ _ h
    have key : compileChildren (pre ++ [Node.Extends t1] ++ mid ++ [Node.Extends t2] ++ post)
        (some Frame.new) (emitFuncBegin "root" c).state = .threw .cannotExtend cm := by
      rw [List.append_assoc (pre ++ [Node.Extends t1] ++ mid), compileChildren_append,
        bind_apply, h]
      simp only [List.singleton_append, compileChildren, bind_apply,
        compileExtends_child_throws t2 fr cm hc]
    simp only [compile, compileRoot, bind_apply]
    rw [emitFuncBegin_ok]
    simp only [key]

/-- Witness of C2: `extends "a"`, an output, `extends "b"`. -/
theorem two_extends_fail_witness :
    (∀ fr c1, compile (.Root [.Extends (.Literal (.str "a")), .Output [.TemplateData (.str "x")],
        .Extends (.Literal (.str "b"))]) none Compiler.init ≠ .ok fr c1) ∧
    compile (.Root ([] ++ [.Extends (.Literal (.str "a"))] ++ [.Output [.TemplateData (.str "x")]] ++
        [.Extends (.Literal (.str "b"))] ++ [])) none Compiler.init =
      .threw .cannotExtend
        { codebuf := ["function root(env, context, frame, runtime) \x7b\n", "var output = \"\";\n",
            "var parentTemplate = env.getTemplate(", "\"a\"", ", true);\n",
            "for(var t_1 in parentTemplate.blocks) \x7b\n",
            "context.addBlock(t_1, parentTemplate.blocks[t_1]);\n", "\x7d\n",
            "output += ", "\"x\"", ";\n"],
          lastId := 1, buffer := some "output", isChild := true, issued := ["t_1"] } :=
  ⟨(two_extends_fail Compiler.init).1 _ (by decide!) (by decide!),
   (two_extends_fail Compiler.init).2 [] [.Output [.TemplateData (.str "x")]] []
      (.Literal (.str "a")) (.Literal (.str "b")) (some Frame.new) _ (by decide!)⟩

/-- C3.  Zero or one `Extends`.  For a template whose tree holds at most one `Extends` node,
none of them inside a call, and no nested `Root`, compiled by a fresh compiler: the child
flag starts false; `compile` reaches `compileExtends` at most as many times as the tree
holds `Extends` nodes, every statement being compiled once; when the compilation returns,
the flag is set exactly if an `Extends` was reached; and the compilation never throws
`cannot extend multiple times`. -/
theorem at_most_one_extends_never_fails_on_it (children : List Node)
    (hroot : rootFree children = true) (hcalls : noExtendsInCalls children = true)
    (hone : extendsIn children ≤ 1) :
    Compiler.init.isChild = false ∧
    extendsReached children ≤ extendsIn children ∧
    (∀ fr c1, compile (.Root children) none Compiler.init = .ok fr c1 →
      c1.isChild = decide (1 ≤ extendsReached children)) ∧
    (∀ c1, compile (.Root children) none Compiler.init ≠ .threw .cannotExtend c1) := by
  have hle := extendsReached_le_extendsIn children hcalls
  have hs := compile_root_spec children hroot
  refine ⟨rfl, hle, ?_, ?_⟩
  · intro fr c1 h
    have := (hs.ok _ _ _ h).2.2.1
    simpa [Compiler.init] using this
  · intro c1 h
    have := (hs.threw _ _ _ h).1 rfl
    simp [Compiler.init] at this
    omega

/-- Witness of C3: a template with one `extends`, a block and a loop. -/
theorem at_most_one_extends_never_fails_on_it_witness :
    extendsReached [.Extends (.Literal (.str "base")),
        .Block "content" (.NodeList [.For (.Symbol "items") (.Symbol "item")
          (.NodeList [.Output [.Symbol "item"]])])] ≤
      extendsIn [.Extends (.Literal (.str "base")),
        .Block "content" (.NodeList [.For (.Symbol "items") (.Symbol "item")
          (.NodeList [.Output [.Symbol "item"]])])] ∧
    ∀ c1, compile (.Root [.Extends (.Literal (.str "base")),
        .Block "content" (.NodeList [.For (.Symbol "items") (.Symbol "item")
          (.NodeList [.Output [.Symbol "item"]])])]) none Compiler.init ≠
      .threw .cannotExtend c1 :=
  ⟨(at_most_one_extends_never_fails_on_it _ (by decide!) (by decide!) (by decide!)).2.1,
   (at_most_one_extends_never_fails_on_it _ (by decide!) (by decide!) (by decide!)).2.2.2⟩

/-- C18.  A root with a frame.  Compiling a `Root` with any frame throws the error of
`compileRoot` in the state the call started in: nothing is emitted.  This is what happens
to a `Root` that is the first statement of another root, which hands it the frame it
made, and the outer call ends with that error.  Compiling a `Root` with no frame, and no
`Root` below it, never throws this error. -/
theorem root_with_frame_fails (children : List Node) (c : Compiler) :
    (∀ f : Frame, compile (.Root children) (some f) c = .threw .rootFrame c) ∧
    (∀ rest, compile (.Root (.Root children :: rest)) none c =
      .threw .rootFrame (emitFuncBegin "root" c).state) ∧
    (rootFree children = true →
      ∀ c1, compile (.Root children) none c ≠ .threw .rootFrame c1) := by
  refine ⟨fun f => ?_, fun rest => ?_, fun hroot c1 h => ?_⟩
  · simp only [compile, compileRoot, raise_apply]
  · simp only [compile, compileRoot, bind_apply]
    rw [emitFuncBegin_ok]
    simp only [compileChildren, compile, compileRoot, bind_apply, raise_apply]
    rfl
  · exact ((compile_root_spec children hroot).threw _ _ _ h).2 rfl

/-- Witness of C18: a root with one output, compiled without a frame. -/
theorem root_with_frame_fails_witness :
    compile (.Root [.Output [.Symbol "x"]]) (some Frame.new) Compiler.init =
      .threw .rootFrame Compiler.init ∧
    ∀ c1, compile (.Root [.Output [.Symbol "x"]]) none Compiler.init ≠ .threw .rootFrame c1 :=
  ⟨(root_with_frame_fails [.Output [.Symbol "x"]] Compiler.init).1 Frame.new,
   (root_with_frame_fails [.Output [.Symbol "x"]] Compiler.init).2.2 (by decide!)⟩

/-! ## The parts of a compiled root -/

theorem bufferText_getD (c : Compiler) : bufferText c = .ok (c.buffer.getD "null") c := by
  cases h : c.buffer <;> simp [bufferText_apply, h]

theorem emitBundle_apply (blocks : List (String × Node)) :
    ∀ c : Compiler, emitBundle blocks c = .ok ()
      { c with codebuf := c.codebuf ++
          blocks.map fun b => "b_" ++ b.1 ++ ": " ++ "b_" ++ b.1 ++ "," ++ "\n" } := by
  induction blocks with
  | nil => intro c; simp [emitBundle]
  | cons b rest ih =>
    obtain ⟨name, body⟩ := b
    intro c
    simp [emitBundle, ih]

/-- A compilation of a root that returns is made of the compilation of its statements
inside the function `root`, the lines that close that function, the block loop, and the
lines of the returned object. -/
theorem compileRoot_ok (children : List Node) (c : Compiler) (fr1 : Option Frame)
    (c1 : Compiler) (h : compile (.Root children) none c = .ok fr1 c1) :
    ∃ frc cc frb cb,
      compileChildren children (some Frame.new) (emitFuncBegin "root" c).state = .ok frc cc ∧
      compileBlocksList children frc
        { cc with
          codebuf := cc.codebuf ++ rootEnding cc.isChild (cc.buffer.getD "null")
          buffer := none } = .ok frb cb ∧
      c1 = { cb with codebuf := cb.codebuf ++
              ("return \x7b" ++ "\n") :: bundleLines (findAllBlocks children) } ∧
      fr1 = none := by
  simp only [compile, compileRoot, bind_apply] at h
  rw [emitFuncBegin_ok] at h
  dsimp only at h
  split at h
  · rename_i frc cc hcc
    refine ⟨frc, cc, ?_⟩
    simp only [getIsChild_apply] at h
    cases hc : cc.isChild
    · simp only [hc, Bool.false_eq_true, ↓reduceIte, emitFuncEnd, bind_apply, pure_apply,
        Bool.not_false, bufferText_getD, emitLine_apply, setBuffer_apply] at h
      split at h
      · rename_i frb cb hcb
        simp only [emitBundle_apply, emitLine_apply, Res.ok.injEq] at h
        obtain ⟨h1, h2⟩ := h
        refine ⟨frb, cb, hcc, ?_, ?_, h1.symm⟩
        · simpa [rootEnding] using hcb
        · subst h2
          simp [bundleLines]
      · simp at h
    · simp only [hc, ↓reduceIte, emitFuncEnd, bind_apply, pure_apply, Bool.not_true,
        Bool.false_eq_true, emitLine_apply, setBuffer_apply] at h
      split at h
      · rename_i frb cb hcb
        simp only [emitBundle_apply, emitLine_apply, Res.ok.injEq] at h
        obtain ⟨h1, h2⟩ := h
        refine ⟨frb, cb, hcc, ?_, ?_, h1.symm⟩
        · simpa [rootEnding] using hcb
        · subst h2
          simp [bundleLines]
      · simp at h
  · simp at h

theorem emitFuncBegin_state (name : String) (c : Compiler) :
    (emitFuncBegin name c).state.isChild = c.isChild ∧
      (emitFuncBegin name c).state.buffer = some "output" := by
  simp [emitFuncBegin, Res.state]

theorem compileChildren_spec_root (children : List Node) (hroot : rootFree children = true)
    (fr : Option Frame) :
    Spec true (stmtExtendsList children) (visitsList children) (compileChildren children fr) :=
  compileChildren_spec children (fun n _ hrn fr => compile_spec n hrn fr)
    ((rootFree_iff children).mp hroot) fr

/-- C6.  Root delegation.  When the compilation of a root (without a nested `Root`) by a
compiler that is not yet a child returns: the code of the function `root` is the code of
its statements followed by two lines, which are `return output;` and the closing brace
if no `Extends` was reached in the statement list, and the delegation
`return parentTemplate.rootRenderFunc(env, context, frame, runtime);` and the closing brace,
without `return output;`, if one was; the block loop and the returned object follow. -/
theorem root_returns_output_or_delegates (children : List Node) (c : Compiler)
    (fr1 : Option Frame) (c1 : Compiler) (hroot : rootFree children = true)
    (hc : c.isChild = false) (h : compile (.Root children) none c = .ok fr1 c1) :
    ∃ frc cc frb cb,
      compileChildren children (some Frame.new) (emitFuncBegin "root" c).state = .ok frc cc ∧
      cc.isChild = decide (1 ≤ visitsList children) ∧
      compileBlocksList children frc
        { cc with
          codebuf := cc.codebuf ++
            (if 1 ≤ visitsList children then
              ["return parentTemplate.rootRenderFunc(env, context, frame, runtime);" ++ "\n",
               "\x7d" ++ "\n"]
             else ["return output;" ++ "\n", "\x7d" ++ "\n"])
          buffer := none } = .ok frb cb ∧
      c1.codebuf = cb.codebuf ++
        ("return \x7b" ++ "\n") :: bundleLines (findAllBlocks children) := by
  obtain ⟨frc, cc, frb, cb, h1, h2, h3, -⟩ := compileRoot_ok children c fr1 c1 h
  obtain ⟨-, -, h5, h6⟩ := (compileChildren_spec_root children hroot _).ok _ _ _ h1
  have h7 := emitFuncBegin_state "root" c
  rw [h7.1, hc] at h5
  have h8 := h6 rfl
  rw [h7.2] at h8
  refine ⟨frc, cc, frb, cb, h1, by simpa using h5, ?_, by rw [h3]⟩
  rw [h8] at h2
  by_cases hv : 1 ≤ visitsList children
  · have hcc : cc.isChild = true := by simpa [hv] using h5
    simpa [rootEnding, hcc, hv] using h2
  · have hcc : cc.isChild = false := by simpa [hv] using h5
    simpa [rootEnding, hcc, hv] using h2

/-- Witness of C6: a template with `extends "p"` only. -/
theorem root_returns_output_or_delegates_witness :
    ∃ frc cc frb cb,
      compileChildren [.Extends (.Literal (.str "p"))] (some Frame.new)
        (emitFuncBegin "root" Compiler.init).state = .ok frc cc ∧
      cc.isChild = decide (1 ≤ visitsList [.Extends (.Literal (.str "p"))]) ∧
      compileBlocksList [.Extends (.Literal (.str "p"))] frc
        { cc with
          codebuf := cc.codebuf ++
            (if 1 ≤ visitsList [.Extends (.Literal (.str "p"))] then
              ["return parentTemplate.rootRenderFunc(env, context, frame, runtime);" ++ "\n",
               "\x7d" ++ "\n"]
             else ["return output;" ++ "\n", "\x7d" ++ "\n"])
          buffer := none } = .ok frb cb ∧
      ({ codebuf := ["function root(env, context, frame, runtime) \x7b\n", "var output = \"\";\n",
            "var parentTemplate = env.getTemplate(", "\"p\"", ", true);\n",
            "for(var t_1 in parentTemplate.blocks) \x7b\n",
            "context.addBlock(t_1, parentTemplate.blocks[t_1]);\n", "\x7d\n",
            "return parentTemplate.rootRenderFunc(env, context, frame, runtime);\n", "\x7d\n",
            "return \x7b\n", "root: root\n\x7d;\n"],
         lastId := 1, buffer := none, isChild := true, issued := ["t_1"] } : Compiler).codebuf =
        cb.codebuf ++
          ("return \x7b" ++ "\n") :: bundleLines (findAllBlocks [.Extends (.Literal (.str "p"))]) :=
  root_returns_output_or_delegates [.Extends (.Literal (.str "p"))] Compiler.init none _
    (by decide!) rfl (by decide!)

theorem compileBlockFunction_ok (name : String) (body : Node) (fr : Option Frame)
    (c : Compiler) (fr1 : Option Frame) (c1 : Compiler)
    (h : compileBlockFunction name (compile body) fr c = .ok fr1 c1) :
    ∃ f fb cb,
      fr = some f ∧
      compile body (some (f.set "super" "l_super").push)
        { c with
          codebuf := c.codebuf ++
            ["function " ++ "b_" ++ name ++ "(env, context, frame, runtime) \x7b" ++ "\n",
             "var output = \"\";" ++ "\n",
             "var l_super = context.getSuper(env, \"" ++ name ++ "\", " ++ "b_" ++ name ++
               ", runtime);" ++ "\n"]
          buffer := some "output" } = .ok fb cb ∧
      fr1 = fb.bind Frame.pop ∧
      c1 = { cb with
        codebuf := cb.codebuf ++
          ["return " ++ cb.buffer.getD "null" ++ ";" ++ "\n", "\x7d" ++ "\n"]
        buffer := none } := by
  cases fr with
  | none =>
    simp only [compileBlockFunction, emitFuncBegin, bind_apply, setBuffer_apply,
      emitLine_apply, bufferText_getD, frameSet, requireFrame, raise_bind, raise_apply] at h
    cases h
  | some f =>
    simp only [compileBlockFunction, emitFuncBegin, emitFuncEnd, bind_apply, setBuffer_apply,
      emitLine_apply, bufferText_getD, frameSet, requireFrame, pure_bind, pure_apply,
      Option.map_some', Bool.not_false, ↓reduceIte, Option.getD_some] at h
    split at h
    · rename_i fb cb hb
      simp only [Res.ok.injEq] at h
      obtain ⟨h1, h2⟩ := h
      refine ⟨f, fb, cb, rfl, ?_, h1.symm, ?_⟩
      · simpa [String.append_assoc] using hb
      · rw [← h2]
        simp
    · simp at h

theorem blockLoop_emits (blocks : List (String × Node)) :
    ∀ (fr : Option Frame) (c : Compiler) (fr1 : Option Frame) (c1 : Compiler),
      blockLoop blocks fr c = .ok fr1 c1 → entryPointsEmitted blocks fr c fr1 c1 := by
  induction blocks with
  | nil =>
    intro fr c fr1 c1 h
    simp only [blockLoop, noBlocks, pure_apply, Res.ok.injEq] at h
    exact ⟨h.1.symm, h.2.symm⟩
  | cons b rest ih =>
    obtain ⟨name, body⟩ := b
    intro fr c fr1 c1 h
    simp only [blockLoop, andThen_eq, bind_apply] at h
    split at h
    · rename_i f2 c2 h2
      obtain ⟨f, fb, cb, hf, hb, rfl, rfl⟩ := compileBlockFunction_ok name body fr c f2 c2 h2
      exact ⟨f, fb, cb, hf, hb, ih _ _ _ _ h⟩
    · simp at h

/-! ## Blocks: entry points and the returned object -/

/-- C7.  Block entry points.  The search gives the `Block` nodes of the whole tree, each
once, so as many as the tree has.  When the compilation of a root returns, the code is made
of the function `root`; then, for each block found, in the order of the search and whether
or not the template is a child, one function `b_<name>(env, context, frame, runtime)` that
declares `output`, resolves `l_super`, holds the compiled body of the block and returns the
accumulator (`entryPointsEmitted`); then the returned object, with one entry
`b_<name>: b_<name>,` per block found and the entry `root`: as many entries as the tree has
`Block` nodes, plus one. -/
theorem every_block_gets_one_entry_point (children : List Node) (c : Compiler)
    (fr1 : Option Frame) (c1 : Compiler) (h : compile (.Root children) none c = .ok fr1 c1) :
    findAllBlocks children = (subnodesList children).filterMap Node.asBlock? ∧
    (findAllBlocks children).length = blocksIn children ∧
    ((findAllBlocks children).map
        (fun b => "b_" ++ b.1 ++ ": " ++ "b_" ++ b.1 ++ "," ++ "\n") ++
      ["root: root\n\x7d;" ++ "\n"]).length = blocksIn children + 1 ∧
    ∃ frc cc frb cb,
      compileChildren children (some Frame.new) (emitFuncBegin "root" c).state = .ok frc cc ∧
      entryPointsEmitted (findAllBlocks children) frc
        { cc with
          codebuf := cc.codebuf ++ rootEnding cc.isChild (cc.buffer.getD "null")
          buffer := none } frb cb ∧
      c1.codebuf = cb.codebuf ++ ["return \x7b" ++ "\n"] ++
        (findAllBlocks children).map (fun b => "b_" ++ b.1 ++ ": " ++ "b_" ++ b.1 ++ "," ++ "\n") ++
        ["root: root\n\x7d;" ++ "\n"] := by
  obtain ⟨frc, cc, frb, cb, h1, h2, h3, -⟩ := compileRoot_ok children c fr1 c1 h
  refine ⟨findAllBlocks_eq_filterMap children, findAllBlocks_length children, ?_,
    frc, cc, frb, cb, h1, ?_, ?_⟩
  · simp [findAllBlocks_length]
  · rw [compileBlocksList_eq_blockLoop] at h2
    exact blockLoop_emits _ _ _ _ _ h2
  · rw [h3]
    simp [bundleLines]

/-- Witness of C7: a block at top level and a block inside an `if`. -/
theorem every_block_gets_one_entry_point_witness :
    (findAllBlocks [.Block "a" (.NodeList []),
        .If (.Symbol "x") (.NodeList [.Block "b" (.NodeList [])]) none]).length =
      blocksIn [.Block "a" (.NodeList []),
        .If (.Symbol "x") (.NodeList [.Block "b" (.NodeList [])]) none] ∧
    ∃ frc cc frb cb,
      compileChildren [.Block "a" (.NodeList []),
          .If (.Symbol "x") (.NodeList [.Block "b" (.NodeList [])]) none] (some Frame.new)
        (emitFuncBegin "root" Compiler.init).state = .ok frc cc ∧
      entryPointsEmitted (findAllBlocks [.Block "a" (.NodeList []),
          .If (.Symbol "x") (.NodeList [.Block "b" (.NodeList [])]) none]) frc
        { cc with
          codebuf := cc.codebuf ++ rootEnding cc.isChild (cc.buffer.getD "null")
          buffer := none } frb cb ∧
      (compile (.Root [.Block "a" (.NodeList []),
          .If (.Symbol "x") (.NodeList [.Block "b" (.NodeList [])]) none]) none
        Compiler.init).state.codebuf = cb.codebuf ++ ["return \x7b" ++ "\n"] ++
        (findAllBlocks [.Block "a" (.NodeList []),
          .If (.Symbol "x") (.NodeList [.Block "b" (.NodeList [])]) none]).map
          (fun b => "b_" ++ b.1 ++ ": " ++ "b_" ++ b.1 ++ "," ++ "\n") ++
        ["root: root\n\x7d;" ++ "\n"] :=
  ⟨(every_block_gets_one_entry_point [.Block "a" (.NodeList []),
      .If (.Symbol "x") (.NodeList [.Block "b" (.NodeList [])]) none] Compiler.init none
    (compile (.Root [.Block "a" (.NodeList []),
      .If (.Symbol "x") (.NodeList [.Block "b" (.NodeList [])]) none]) none Compiler.init).state
    (by decide!)).2.1,
   (every_block_gets_one_entry_point [.Block "a" (.NodeList []),
      .If (.Symbol "x") (.NodeList [.Block "b" (.NodeList [])]) none] Compiler.init none
    (compile (.Root [.Block "a" (.NodeList []),
      .If (.Symbol "x") (.NodeList [.Block "b" (.NodeList [])]) none]) none Compiler.init).state
    (by decide!)).2.2.2⟩

/-- C8, the claim as it was stated fails: for a template with the block `content`, the key
of the block in the returned object is `b_content`, not `block_content`. -/
theorem bundle_key_is_not_block_name :
    (compile (.Root [.Block "content" (.NodeList [])]) none Compiler.init).state.getCode =
      "function root(env, context, frame, runtime) \x7b\n" ++
      "var output = \"\";\n" ++
      "output += context.getBlock(\"content\")(env, context, frame);\n" ++
      "return output;\n" ++
      "\x7d\n" ++
      "function b_content(env, context, frame, runtime) \x7b\n" ++
      "var output = \"\";\n" ++
      "var l_super = context.getSuper(env, \"content\", b_content, runtime);\n" ++
      "return output;\n" ++
      "\x7d\n" ++
      "return \x7b\n" ++
      "b_content: b_content,\n" ++
      "root: root\n" ++
      "\x7d;\n" := by
  decide!

/-- C8, amended.  When the compilation of a root returns, the code ends with the returned
object: the line `return {`, then for every block found, named `<name>`, the line
`b_<name>: b_<name>,` that maps the key `b_<name>` to the function of the block, in the
order the blocks were found, then the key `root`. -/
theorem bundle_keys_are_b_names (children : List Node) (c : Compiler) (fr1 : Option Frame)
    (c1 : Compiler) (h : compile (.Root children) none c = .ok fr1 c1) :
    ∃ frc cc frb cb,
      compileChildren children (some Frame.new) (emitFuncBegin "root" c).state = .ok frc cc ∧
      blockLoop (findAllBlocks children) frc
        { cc with
          codebuf := cc.codebuf ++ rootEnding cc.isChild (cc.buffer.getD "null")
          buffer := none } = .ok frb cb ∧
      c1.codebuf = cb.codebuf ++ ["return \x7b" ++ "\n"] ++
        (findAllBlocks children).map (fun b => "b_" ++ b.1 ++ ": " ++ "b_" ++ b.1 ++ "," ++ "\n") ++
        ["root: root\n\x7d;" ++ "\n"] := by
  obtain ⟨frc, cc, frb, cb, h1, h2, h3, -⟩ := compileRoot_ok children c fr1 c1 h
  refine ⟨frc, cc, frb, cb, h1, ?_, ?_⟩
  · rw [← compileBlocksList_eq_blockLoop]
    exact h2
  · rw [h3]
    simp [bundleLines]

/-- Witness of C8: the template with the block `content`. -/
theorem bundle_keys_are_b_names_witness :
    ∃ frc cc frb cb,
      compileChildren [.Block "content" (.NodeList [])] (some Frame.new)
        (emitFuncBegin "root" Compiler.init).state = .ok frc cc ∧
      blockLoop (findAllBlocks [.Block "content" (.NodeList [])]) frc
        { cc with
          codebuf := cc.codebuf ++ rootEnding cc.isChild (cc.buffer.getD "null")
          buffer := none } = .ok frb cb ∧
      (compile (.Root [.Block "content" (.NodeList [])]) none Compiler.init).state.codebuf =
        cb.codebuf ++ ["return \x7b" ++ "\n"] ++
        (findAllBlocks [.Block "content" (.NodeList [])]).map
          (fun b => "b_" ++ b.1 ++ ": " ++ "b_" ++ b.1 ++ "," ++ "\n") ++
        ["root: root\n\x7d;" ++ "\n"] :=
  bundle_keys_are_b_names [.Block "content" (.NodeList [])] Compiler.init none
    (compile (.Root [.Block "content" (.NodeList [])]) none Compiler.init).state (by decide!)

/-! ## The accumulator around a macro body -/

theorem stepRel_prefix : StepRel fun c c1 => ∃ l, c1.codebuf = c.codebuf ++ l :=
  ⟨fun _ => ⟨[], by simp⟩,
    fun _ _ _ ⟨l1, h1⟩ ⟨l2, h2⟩ => ⟨l1 ++ l2, by rw [h2, h1, List.append_assoc]⟩,
    fun s _ => ⟨[s], rfl⟩, fun _ => ⟨[], by simp⟩, fun _ _ => ⟨[], by simp⟩,
    fun _ => ⟨[], by simp⟩⟩

/-- `compile` keeps the accumulator: below a node with no `Root`, a compilation that
returns leaves `buffer` as it was. -/
theorem compile_keeps_buffer (n : Node) (fr : Option Frame) (c : Compiler)
    (fr1 : Option Frame) (c1 : Compiler) (hroot : rootFree [n] = true)
    (h : compile n fr c = .ok fr1 c1) : c1.buffer = c.buffer := by
  have hr : ∀ m ∈ subnodes n, m.isRoot = false := fun m hm =>
    (rootFree_iff [n]).mp hroot m (by simp [subnodesList, hm])
  exact ((@compile_spec true n hr fr).ok c fr1 c1 h).2.2.2 rfl

/-- The first fragment `compileOutput` emits names the accumulator of the state it starts
in. -/
theorem compileOutput_names_buffer (cs : List Node) (fr : Option Frame) (c : Compiler) :
    ∃ l, (compile (.Output cs) fr c).state.codebuf =
      c.codebuf ++ (c.buffer.getD "null" ++ " += ") :: l := by
  simp only [compile, compileOutput, bind_apply, bufferText_getD, emit_apply]
  obtain ⟨l, hl⟩ := (compileChildren_genF stepRel_prefix cs fr).state
    { c with codebuf := c.codebuf ++ [c.buffer.getD "null" ++ " += "] }
  cases hc : compileChildren cs fr
      { c with codebuf := c.codebuf ++ [c.buffer.getD "null" ++ " += "] } with
  | ok f2 c2 =>
    rw [hc] at hl
    refine ⟨l ++ [";\n"], ?_⟩
    simp only [Res.state] at hl
    simp [Res.state, hl]
  | threw e c2 =>
    rw [hc] at hl
    refine ⟨l, ?_⟩
    simp only [Res.state] at hl
    simp [Res.state, hl]

/-- C22.  Accumulator save and restore.  When the compilation of a macro (with no `Root`
below it) returns: `buffer` is afterwards what it was before; the body was compiled
starting with `macroOutput` for accumulator, declared by the line before, and ended with
it.  As every statement that compiles leaves the accumulator as it was, and an `Output`
names the accumulator of the state it starts in, the outputs of the body append to
`macroOutput` and those after the macro to the accumulator of before. -/
theorem macro_accumulator_saved_and_restored (name : String) (children : List Node)
    (body : Node) (fr : Option Frame) (c : Compiler) (fr1 : Option Frame) (c1 : Compiler)
    (hroot : rootFree [.Macro name children body] = true)
    (h : compile (.Macro name children body) fr c = .ok fr1 c1) :
    c1.buffer = c.buffer ∧
    (∃ f args fb cb, fr = some f ∧ macroParams children = some args ∧
      compile body (some (args.foldl (fun f a => f.set a ("l_" ++ a)) f.push))
        { c with
          codebuf := c.codebuf ++ ["frame = frame.push();" ++ "\n"] ++
            ["var macro = function(" ++ ", ".intercalate (args.map fun a => "l_" ++ a) ++
              ") \x7b" ++ "\n"] ++ ["var " ++ "macroOutput" ++ "= \"\";" ++ "\n"]
          buffer := some "macroOutput" } = .ok fb cb ∧
      cb.buffer = some "macroOutput") ∧
    (∀ n fr2 c2 fr3 c3, rootFree [n] = true → compile n fr2 c2 = .ok fr3 c3 →
      c3.buffer = c2.buffer) ∧
    (∀ cs fr2 c2, ∃ l, (compile (.Output cs) fr2 c2).state.codebuf =
      c2.codebuf ++ (c2.buffer.getD "null" ++ " += ") :: l) := by
  refine ⟨compile_keeps_buffer _ fr c fr1 c1 hroot h, ?_,
    fun n fr2 c2 fr3 c3 hr hn => compile_keeps_buffer n fr2 c2 fr3 c3 hr hn,
    fun cs fr2 c2 => compileOutput_names_buffer cs fr2 c2⟩
  have hrb : rootFree [body] = true := by
    rw [rootFree_iff] at hroot ⊢
    intro m hm
    exact hroot m (by simp [subnodesList, subnodes] at hm ⊢; exact Or.inr (Or.inr hm))
  cases fr with
  | none =>
    have h0 : compile (.Macro name children body) none c = .threw .typeError c := by
      simp only [compile, compileMacro, macroBody, requireFrame, raise_bind, raise_apply]
    rw [h0] at h
    cases h
  | some f =>
    cases hp : macroParams children with
    | none =>
      have h0 : compile (.Macro name children body) (some f) c =
          .threw .typeError { c with codebuf := c.codebuf ++ ["frame = frame.push();" ++ "\n"] } := by
        simp only [compile, compileMacro, macroBody, requireFrame, pure_bind, hp, raise_bind,
          bind_apply, emitLine_apply, raise_apply]
      rw [h0] at h
      cases h
    | some args =>
      simp only [compile, compileMacro, macroBody, requireFrame, pure_bind, hp, bind_apply,
        emitLine_apply, getBuffer_apply, setBuffer_apply, bufferText_getD, Option.getD_some]
        at h
      split at h
      · rename_i mf cm hm
        split at hm
        · rename_i fb cb hb
          refine ⟨f, args, fb, cb, rfl, rfl, hb, ?_⟩
          have := compile_keeps_buffer body _ _ fb cb hrb hb
          simpa using this
        · simp at hm
      · simp at h

/-- Witness of C22: a macro whose body is one output, compiled inside a function. -/
theorem macro_accumulator_saved_and_restored_witness :
    (compile (.Macro "m" [] (.NodeList [.Output [.TemplateData (.str "x")]])) (some Frame.new)
      { Compiler.init with buffer := some "output" }).state.buffer =
      ({ Compiler.init with buffer := some "output" } : Compiler).buffer :=
  (macro_accumulator_saved_and_restored "m" [] (.NodeList [.Output [.TemplateData (.str "x")]])
    (some Frame.new) { Compiler.init with buffer := some "output" }
    (some (Frame.new.set "m" "l_m"))
    (compile (.Macro "m" [] (.NodeList [.Output [.TemplateData (.str "x")]])) (some Frame.new)
      { Compiler.init with buffer := some "output" }).state
    (by decide!) (by decide!)).1

/-! ## Identifiers -/

/-- The digit a character of a decimal numeral stands for. -/
theorem digitChar_inj_aux (k : Nat) (hk : k < 10) :
    (Nat.digitChar k).toNat - 48 = k := by
  interval_cases k <;> rfl

theorem decode_toDigitsCore (fuel : Nat) :
    ∀ (n : Nat) (ds : List Char), n < fuel →
      (Nat.toDigitsCore 10 fuel n ds).foldl (fun acc ch => acc * 10 + (ch.toNat - 48)) 0 =
        ds.foldl (fun acc ch => acc * 10 + (ch.toNat - 48)) n := by
  induction fuel with
  | zero => intro n ds h; omega
  | succ fuel ih =>
    intro n ds h
    simp only [Nat.toDigitsCore]
    split
    · rename_i h0
      simp only [List.foldl_cons, Nat.zero_mul, Nat.zero_add]
      rw [digitChar_inj_aux _ (Nat.mod_lt _ (by decide))]
      have : n % 10 = n := by omega
      rw [this]
    · rename_i h0
      rw [ih (n / 10) _ (by omega)]
      simp only [List.foldl_cons]
      rw [digitChar_inj_aux _ (Nat.mod_lt _ (by decide))]
      have : n / 10 * 10 + n % 10 = n := by omega
      rw [this]

theorem toDigits_injective (a b : Nat) (h : Nat.toDigits 10 a = Nat.toDigits 10 b) : a = b := by
  have ha := decode_toDigitsCore (a + 1) a [] (Nat.lt_succ_self _)
  have hb := decode_toDigitsCore (b + 1) b [] (Nat.lt_succ_self _)
  simp only [Nat.toDigits] at h
  rw [h, hb] at ha
  simpa using ha.symm

theorem tmpName_injective (a b : Nat) (h : tmpName a = tmpName b) : a = b := by
  apply toDigits_injective
  have h1 : (tmpName a).data = (tmpName b).data := by rw [h]
  simp only [tmpName, String.data_append] at h1
  have h2 := List.append_cancel_left h1
  exact h2

theorem stepRel_issued : StepRel fun c c1 =>
    c.issued = (List.range c.lastId).map (fun k => tmpName (k + 1)) →
      c1.issued = (List.range c1.lastId).map (fun k => tmpName (k + 1)) := by
  refine ⟨fun _ h => h, fun _ _ _ h1 h2 h => h2 (h1 h), fun _ _ h => h, fun c h => ?_,
    fun _ _ h => h, fun _ h => h⟩
  simp only [List.range_succ, List.map_append, List.map_cons, List.map_nil, h]

theorem issued_nodup (c : Compiler)
    (h : c.issued = (List.range c.lastId).map (fun k => tmpName (k + 1))) : c.issued.Nodup := by
  rw [h]
  refine (List.nodup_range _).map ?_
  intro a b hab
  have := tmpName_injective _ _ hab
  omega

theorem tmpName_not_issued (c : Compiler)
    (h : c.issued = (List.range c.lastId).map (fun k => tmpName (k + 1))) :
    tmpName (c.lastId + 1) ∉ c.issued := by
  rw [h]
  intro hm
  obtain ⟨k, hk, hk2⟩ := List.mem_map.mp hm
  have := tmpName_injective _ _ hk2
  have := List.mem_range.mp hk
  omega

/-- C5.  Identifier uniqueness.  The name made from the counter determines the counter.
On an instance whose log of issued names is that of its counter (as it is for a fresh
instance and stays after every call), `tmpid` increases the counter by one and returns a
name that is not among the names issued before.  So for every tree and frame, after
`compile` on a fresh instance, by return or by throw, the names issued during the call (the
counters, collections, keys and elements of the `For` loops, the temporaries of `Set` and
`Extends`) are `t_1`, ..., `t_lastId`, and no two of them are equal. -/
theorem tmpid_names_pairwise_distinct (n : Node) (fr : Option Frame) :
    (∀ a b, tmpName a = tmpName b → a = b) ∧
    (∀ c : Compiler, c.issued = (List.range c.lastId).map (fun k => tmpName (k + 1)) →
      tmpName (c.lastId + 1) ∉ c.issued ∧
      tmpid c = .ok (tmpName (c.lastId + 1))
        { c with lastId := c.lastId + 1, issued := c.issued ++ [tmpName (c.lastId + 1)] } ∧
      (tmpid c).state.issued =
        (List.range (tmpid c).state.lastId).map (fun k => tmpName (k + 1))) ∧
    (compile n fr Compiler.init).state.issued =
      (List.range (compile n fr Compiler.init).state.lastId).map (fun k => tmpName (k + 1)) ∧
    (compile n fr Compiler.init).state.issued.Nodup := by
  have hinv := (compile_gen stepRel_issued n fr).state Compiler.init rfl
  exact ⟨tmpName_injective,
    fun c h => ⟨tmpName_not_issued c h, rfl, stepRel_issued.tmpid c h⟩,
    hinv, issued_nodup _ hinv⟩

/-- Witness of C5: two nested loops, the inner one over keys and values. -/
theorem tmpid_names_pairwise_distinct_witness :
    tmpName (Compiler.init.lastId + 1) ∉ Compiler.init.issued ∧
    (compile (.For (.Symbol "rows") (.Symbol "row")
      (.NodeList [.For (.Symbol "row") (.Agg .Array [.Symbol "k", .Symbol "v"])
        (.NodeList [.Output [.Symbol "v"]])])) (some Frame.new) Compiler.init).state.issued =
      ["t_1", "t_2", "t_3", "t_4", "t_5", "t_6", "t_7"] :=
  ⟨((tmpid_names_pairwise_distinct (.Symbol "x") none).2.1 Compiler.init (by decide)).1,
   by decide!⟩

/-! ## The scope of a loop -/

theorem Frame.lookup_set_self (f : Frame) (name val : String) :
    (f.set name val).lookup name = some val := by
  cases f <;> simp [Frame.set, Frame.lookup, List.lookup]

theorem Frame.lookup_set_ne (f : Frame) (name other val : String) (h : name ≠ other) :
    (f.set other val).lookup name = f.lookup name := by
  have hb : (name == other) = false := by simpa using h
  cases f <;> simp [Frame.set, Frame.lookup, List.lookup, hb]

theorem tmpName_ne_empty (n : Nat) : tmpName n ≠ "" := by
  intro h
  have h1 : (tmpName n).data = ("" : String).data := by rw [h]
  simp only [tmpName, String.data_append] at h1
  cases h1

theorem compileSymbol_bound (name id : String) (f : Frame) (c : Compiler)
    (h1 : f.lookup name = some id) (h2 : id ≠ "") :
    compile (.Symbol name) (some f) c =
      .ok (some f) { c with codebuf := c.codebuf ++ [id] } := by
  simp [compile, compileSymbol, requireFrame, h1, h2]

theorem sameScope_some_left {f : Frame} {fr : Option Frame} (h : sameScope (some f) fr) :
    ∃ g, fr = some g ∧ g.pop = f.pop := by
  cases fr with
  | none => simp [sameScope] at h
  | some g => exact ⟨g, rfl, by simpa [sameScope] using h.symm⟩

/-- C16.  For-loop scoping.  When the compilation of a `For` given the frame `F` returns,
the frame it leaves is `F` itself, with the bindings it had, so a symbol compiled after the
loop with `F` resolves as before the loop.  In between, the collection was compiled in a
scope pushed on `F`, `compileForTarget` declared the identifiers of the loop and bound the
targets to them in that scope, and the body was compiled with it: there, a symbol naming
the target of a sequential loop compiles to the identifier of the element, and with a key
and value target a symbol naming the value compiles to the identifier of the value, and a
symbol naming the key (when the two names differ) to the identifier of the key. -/
theorem for_loop_scopes_its_targets (arr name body : Node) (F : Frame) (c : Compiler)
    (fr1 : Option Frame) (c1 : Compiler)
    (h : compile (.For arr name body) (some F) c = .ok fr1 c1) :
    fr1 = some F ∧
    ∃ fa ca fb cb fb1 cb1,
      compileExpression arr (compile arr) (some F.push)
        { c with
          codebuf := c.codebuf ++ ["frame = frame.push();" ++ "\n"] ++
            ["var " ++ tmpName (c.lastId + 1 + 1) ++ " = "]
          lastId := c.lastId + 1 + 1
          issued := c.issued ++ [tmpName (c.lastId + 1)] ++ [tmpName (c.lastId + 1 + 1)] } =
        .ok fa ca ∧
      compileForTarget (tmpName (c.lastId + 1)) (tmpName (c.lastId + 1 + 1)) name fa
        { ca with codebuf := ca.codebuf ++ [";" ++ "\n"] } = .ok (some fb) cb ∧
      compile body (some fb) cb = .ok fb1 cb1 ∧
      fb.pop = some F ∧
      ((∀ children, name ≠ .Agg .Array children) →
        ∀ c2, compile (.Symbol name.valueText) (some fb) c2 =
          .ok (some fb) { c2 with codebuf := c2.codebuf ++ [tmpName (ca.lastId + 1)] }) ∧
      (∀ children, name = .Agg .Array children →
        ∃ key val rest, children = key :: val :: rest ∧
          (∀ c2, compile (.Symbol val.valueText) (some fb) c2 =
            .ok (some fb) { c2 with codebuf := c2.codebuf ++ [tmpName (ca.lastId + 1 + 1)] }) ∧
          (key.valueText ≠ val.valueText →
            ∀ c2, compile (.Symbol key.valueText) (some fb) c2 =
              .ok (some fb) { c2 with codebuf := c2.codebuf ++ [tmpName (ca.lastId + 1)] })) := by
  simp only [compile, compileFor, bind_apply, tmpid_apply, requireFrame, pure_apply,
    emitLine_apply, emit_apply] at h
  split at h
  · rename_i fa ca he
    split at h
    · rename_i fb0 cb ht
      split at h
      · rename_i fb1 cb1 hb
        simp only [Res.ok.injEq] at h
        obtain ⟨h1, -⟩ := h
        have s1 := (compileExpression_gen stepRel_true arr (compile_gen stepRel_true arr)
          _).scope _ _ _ he
        have s2 := (compileForTarget_gen stepRel_true _ _ name fa).scope _ _ _ ht
        have s3 := (compile_gen stepRel_true body fb0).scope _ _ _ hb
        obtain ⟨fb, rfl, hfb⟩ := sameScope_some_left (sameScope_trans s1 s2)
        obtain ⟨g, rfl, hg⟩ := sameScope_some_left s1
        refine ⟨?_, some g, ca, fb, cb, fb1, cb1, he, ht, hb,
          by simpa [Frame.push, Frame.pop] using hfb, ?_, ?_⟩
        · rw [← h1]
          exact pop_of_sameScope_push (sameScope_trans (sameScope_trans s1 s2) s3)
        · intro hseq c2
          unfold compileForTarget at ht
          split at ht
          · rename_i children
            exact absurd rfl (hseq children)
          · simp only [bind_apply, tmpid_apply, frameSet, requireFrame, pure_bind, pure_apply,
              emitSequentialLoop_apply, Res.ok.injEq, Option.some.injEq] at ht
            obtain ⟨hf, -⟩ := ht
            rw [← hf]
            exact compileSymbol_bound _ _ _ c2 (Frame.lookup_set_self _ _ _) (tmpName_ne_empty _)
        · intro children hname
          subst hname
          simp only [compileForTarget, bind_apply, tmpid_apply] at ht
          unfold bindKeyValue at ht
          split at ht
          · rename_i key val rest
            simp only [bind_apply, frameSet, requireFrame, pure_bind, pure_apply,
              emitKeyValueLoop, emitLine_apply, Res.ok.injEq, Option.some.injEq] at ht
            obtain ⟨hf, -⟩ := ht
            refine ⟨key, val, rest, rfl, fun c2 => ?_, fun hne c2 => ?_⟩
            · rw [← hf]
              exact compileSymbol_bound _ _ _ c2 (Frame.lookup_set_self _ _ _)
                (tmpName_ne_empty _)
            · rw [← hf]
              refine compileSymbol_bound _ _ _ c2 ?_ (tmpName_ne_empty _)
              rw [Frame.lookup_set_ne _ _ _ _ hne]
              exact Frame.lookup_set_self _ _ _
          · simp at ht
      · simp at h
    · simp at h
  · simp at h

/-- Witness of C16: the loop `for item in items` whose body outputs `item`. -/
theorem for_loop_scopes_its_targets_witness :
    (some Frame.new : Option Frame) = some Frame.new ∧
    ∃ fa ca fb cb fb1 cb1,
      compileExpression (.Symbol "items") (compile (.Symbol "items"))
          (some Frame.new.push)
        { Compiler.init with
          codebuf := Compiler.init.codebuf ++ ["frame = frame.push();" ++ "\n"] ++
            ["var " ++ tmpName (Compiler.init.lastId + 1 + 1) ++ " = "]
          lastId := Compiler.init.lastId + 1 + 1
          issued := Compiler.init.issued ++ [tmpName (Compiler.init.lastId + 1)] ++
            [tmpName (Compiler.init.lastId + 1 + 1)] } =
        .ok fa ca ∧
      compileForTarget (tmpName (Compiler.init.lastId + 1))
          (tmpName (Compiler.init.lastId + 1 + 1)) (.Symbol "item") fa
        { ca with codebuf := ca.codebuf ++ [";" ++ "\n"] } = .ok (some fb) cb ∧
      compile (.NodeList [.Output [.Symbol "item"]]) (some fb) cb = .ok fb1 cb1 ∧
      fb.pop = some Frame.new ∧
      ((∀ children, Node.Symbol "item" ≠ .Agg .Array children) →
        ∀ c2, compile (.Symbol (Node.Symbol "item").valueText) (some fb) c2 =
          .ok (some fb) { c2 with codebuf := c2.codebuf ++ [tmpName (ca.lastId + 1)] }) ∧
      (∀ children, Node.Symbol "item" = .Agg .Array children →
        ∃ key val rest, children = key :: val :: rest ∧
          (∀ c2, compile (.Symbol val.valueText) (some fb) c2 =
            .ok (some fb) { c2 with codebuf := c2.codebuf ++ [tmpName (ca.lastId + 1 + 1)] }) ∧
          (key.valueText ≠ val.valueText →
            ∀ c2, compile (.Symbol key.valueText) (some fb) c2 =
              .ok (some fb) { c2 with codebuf := c2.codebuf ++ [tmpName (ca.lastId + 1)] })) :=
  for_loop_scopes_its_targets (.Symbol "items") (.Symbol "item")
    (.NodeList [.Output [.Symbol "item"]]) Frame.new Compiler.init (some Frame.new)
    (compile (.For (.Symbol "items") (.Symbol "item") (.NodeList [.Output [.Symbol "item"]]))
      (some Frame.new) Compiler.init).state (by decide!)

/-! ## The metadata of a sequential loop -/

theorem sequentialMetadata_values (n idx : Nat) (h : idx < n) :
    sequentialMetadata.map (fun p => (p.1, p.2.eval n idx)) =
      [("loop.index", some (.num ((idx + 1 : Nat) : Int))),
       ("loop.index0", some (.num (idx : Int))),
       ("loop.revindex", some (.num ((n - idx : Nat) : Int))),
       ("loop.revindex0", some (.num ((n - idx - 1 : Nat) : Int))),
       ("loop.first", some (.bool (decide (idx = 0)))),
       ("loop.last", some (.bool (decide (idx = n - 1)))),
       ("loop.length", some (.num (n : Int)))] := by
  simp only [sequentialMetadata, List.map, LoopExpr.eval, List.cons.injEq, Prod.mk.injEq,
    Option.some.injEq, JsValue.num.injEq, JsValue.bool.injEq, true_and, and_true]
  refine ⟨by omega, by omega, by omega, ?_, ?_⟩
  · simp
  · simp only [decide_eq_decide]
    omega

/-- C17.  Sequential loop metadata.  When the compilation of a `For` whose target is not an
array returns, the code it emitted is: the push of the runtime frame and the declaration
`var <arr> = ` of the collection, with `<arr>` the second identifier `tmpid` made; the
compiled collection; then the loop header `for(var <i>=0; <i> < <arr>.length; <i>++) {`
with `<i>` the first identifier, so that the counter runs from 0 while it is less than the
length of the collection; the element `var <v> = <arr>[<i>];` and its `frame.set`; one
`frame.set` for each entry of `sequentialMetadata`, with the text of its expression over
`<i>` and `<arr>`; the compiled body; and the two closing lines.  For a collection of
length `n` and a counter value `idx < n` the metadata expressions have the values
`loop.index = idx + 1`, `loop.index0 = idx`, `loop.revindex = n - idx`,
`loop.revindex0 = n - idx - 1`, `loop.first = (idx = 0)`, `loop.last = (idx = n - 1)` and
`loop.length = n`. -/
theorem sequential_loop_metadata (arr name body : Node) (F : Frame) (c : Compiler)
    (fr1 : Option Frame) (c1 : Compiler) (n idx : Nat)
    (hseq : ∀ children, name ≠ .Agg .Array children)
    (h : compile (.For arr name body) (some F) c = .ok fr1 c1) (hidx : idx < n) :
    (∃ g ca fb1 cb1,
      compileExpression arr (compile arr) (some F.push)
        { c with
          codebuf := c.codebuf ++ ["frame = frame.push();" ++ "\n"] ++
            ["var " ++ tmpName (c.lastId + 1 + 1) ++ " = "]
          lastId := c.lastId + 1 + 1
          issued := c.issued ++ [tmpName (c.lastId + 1)] ++ [tmpName (c.lastId + 1 + 1)] } =
        .ok (some g) ca ∧
      compile body (some (g.set name.valueText (tmpName (ca.lastId + 1))))
        { ca with
          codebuf := ca.codebuf ++ [";" ++ "\n"] ++
            (["for(var " ++ tmpName (c.lastId + 1) ++ "=0; " ++ tmpName (c.lastId + 1) ++ " < " ++
                tmpName (c.lastId + 1 + 1) ++ ".length; " ++ tmpName (c.lastId + 1) ++
                "++) \x7b" ++ "\n",
              "var " ++ tmpName (ca.lastId + 1) ++ " = " ++ tmpName (c.lastId + 1 + 1) ++ "[" ++
                tmpName (c.lastId + 1) ++ "];" ++ "\n",
              "frame.set(\"" ++ name.valueText ++ "\", " ++ tmpName (ca.lastId + 1) ++ ");" ++
                "\n"] ++
             sequentialMetadata.map fun p =>
              "frame.set(\"" ++ p.1 ++ "\", " ++
                p.2.text (tmpName (c.lastId + 1)) (tmpName (c.lastId + 1 + 1)) ++ ");" ++ "\n")
          lastId := ca.lastId + 1
          issued := ca.issued ++ [tmpName (ca.lastId + 1)] } = .ok fb1 cb1 ∧
      c1 = { cb1 with codebuf := cb1.codebuf ++ ["\x7d" ++ "\n"] ++
              ["frame = frame.pop();" ++ "\n"] }) ∧
    sequentialMetadata.map (fun p => (p.1, p.2.eval n idx)) =
      [("loop.index", some (.num ((idx + 1 : Nat) : Int))),
       ("loop.index0", some (.num (idx : Int))),
       ("loop.revindex", some (.num ((n - idx : Nat) : Int))),
       ("loop.revindex0", some (.num ((n - idx - 1 : Nat) : Int))),
       ("loop.first", some (.bool (decide (idx = 0)))),
       ("loop.last", some (.bool (decide (idx = n - 1)))),
       ("loop.length", some (.num (n : Int)))] := by
  refine ⟨?_, sequentialMetadata_values n idx hidx⟩
  simp only [compile, compileFor, bind_apply, tmpid_apply, requireFrame, pure_apply,
    emitLine_apply, emit_apply] at h
  split at h
  · rename_i fa ca he
    split at h
    · rename_i fb0 cb ht
      split at h
      · rename_i fb1 cb1 hb
        simp only [Res.ok.injEq] at h
        obtain ⟨-, h2⟩ := h
        have s1 := (compileExpression_gen stepRel_true arr (compile_gen stepRel_true arr)
          _).scope _ _ _ he
        obtain ⟨g, rfl, -⟩ := sameScope_some_left s1
        unfold compileForTarget at ht
        split at ht
        · rename_i children
          exact absurd rfl (hseq children)
        · simp only [bind_apply, tmpid_apply, frameSet, requireFrame, pure_bind, pure_apply,
            emitSequentialLoop_apply, Res.ok.injEq] at ht
          obtain ⟨hf, hc⟩ := ht
          subst hf hc
          refine ⟨g, ca, fb1, cb1, he, ?_, h2.symm⟩
          simpa using hb
      · simp at h
    · simp at h
  · simp at h

/-- Witness of C17: the loop `for item in items` whose body outputs `item`, and the second
of three iterations. -/
theorem sequential_loop_metadata_witness :
    (∃ g ca fb1 cb1,
      compileExpression (.Symbol "items") (compile (.Symbol "items")) (some Frame.new.push)
        { Compiler.init with
          codebuf := Compiler.init.codebuf ++ ["frame = frame.push();" ++ "\n"] ++
            ["var " ++ tmpName (Compiler.init.lastId + 1 + 1) ++ " = "]
          lastId := Compiler.init.lastId + 1 + 1
          issued := Compiler.init.issued ++ [tmpName (Compiler.init.lastId + 1)] ++ [tmpName (Compiler.init.lastId + 1 + 1)] } =
        .ok (some g) ca ∧
      compile (.NodeList [.Output [.Symbol "item"]]) (some (g.set (Node.Symbol "item").valueText (tmpName (ca.lastId + 1))))
        { ca with
          codebuf := ca.codebuf ++ [";" ++ "\n"] ++
            (["for(var " ++ tmpName (Compiler.init.lastId + 1) ++ "=0; " ++ tmpName (Compiler.init.lastId + 1) ++ " < " ++
                tmpName (Compiler.init.lastId + 1 + 1) ++ ".length; " ++ tmpName (Compiler.init.lastId + 1) ++
                "++) \x7b" ++ "\n",
              "var " ++ tmpName (ca.lastId + 1) ++ " = " ++ tmpName (Compiler.init.lastId + 1 + 1) ++ "[" ++
                tmpName (Compiler.init.lastId + 1) ++ "];" ++ "\n",
              "frame.set(\"" ++ (Node.Symbol "item").valueText ++ "\", " ++ tmpName (ca.lastId + 1) ++ ");" ++
                "\n"] ++
             sequentialMetadata.map fun p =>
              "frame.set(\"" ++ p.1 ++ "\", " ++
                p.2.text (tmpName (Compiler.init.lastId + 1)) (tmpName (Compiler.init.lastId + 1 + 1)) ++ ");" ++ "\n")
          lastId := ca.lastId + 1
          issued := ca.issued ++ [tmpName (ca.lastId + 1)] } = .ok fb1 cb1 ∧
      (compile (.For (.Symbol "items") (.Symbol "item") (.NodeList [.Output [.Symbol "item"]]))
        (some Frame.new) Compiler.init).state =
        { cb1 with codebuf := cb1.codebuf ++ ["\x7d" ++ "\n"] ++
              ["frame = frame.pop();" ++ "\n"] }) ∧
    sequentialMetadata.map (fun p => (p.1, p.2.eval (3 : Nat) (1 : Nat))) =
      [("loop.index", some (.num ((1 + 1 : Nat) : Int))),
       ("loop.index0", some (.num ((1 : Nat) : Int))),
       ("loop.revindex", some (.num ((3 - 1 : Nat) : Int))),
       ("loop.revindex0", some (.num ((3 - 1 - 1 : Nat) : Int))),
       ("loop.first", some (.bool (decide (1 = 0)))),
       ("loop.last", some (.bool (decide (1 = 3 - 1)))),
       ("loop.length", some (.num ((3 : Nat) : Int)))] :=
  sequential_loop_metadata (.Symbol "items") (.Symbol "item")
    (.NodeList [.Output [.Symbol "item"]]) Frame.new Compiler.init (some Frame.new)
    (compile (.For (.Symbol "items") (.Symbol "item") (.NodeList [.Output [.Symbol "item"]]))
      (some Frame.new) Compiler.init).state 3 1 (fun _ hn => by cases hn) (by decide!)
    (by decide)

end Nunjucks
